import Mathlib

/-!
Package `refcountmap`: a reference-counted map.

Shallow embedding of `map.go` (package `refcountmap`) and a verification of its
sequential behaviour.

* Go pointers `*counter[K, V]` are addresses (`Nat`) into an explicit heap (a
  list of counters; the address is the index, a fresh allocation appends).
* `gwrap.SyncMap` is an external package (a typed wrapper of `sync.Map`); it is
  represented by an association list with the documented behaviour of `Load`,
  `LoadOrStore` and `Delete`.
* The factory `makeNew func() V` may be impure, so it is a stream: `makeNew i`
  is the result of invocation number `i`; the state counts the invocations.
* `references` is a Go `int`. The operations `allocate`, `Get` and `release`
  compute with it as a mathematical integer; the operations of the namespace
  `Wrapping` are the same statements with the arithmetic of Go's 64-bit `int`,
  where `v.references++` and `v.references--` wrap around (`wrapInt`). The two
  agree as long as no count stands at a bound of the type
  (`wrapping_allocate_eq`, `wrapping_release_eq`), hence on every execution
  from the empty map of at most `maxInt` actions (`wrapping_run_eq`). The
  statements about the count after a single `allocate`, `Get` on a live entry
  or `release` in an arbitrary state, where a count at a bound of the type
  matters, are made of the `Wrapping` operations.
* Each `lock.Lock() ... Unlock()` critical section is one atomic transition; in
  a sequential execution the mutex is free at every operation boundary, so it
  is not represented in the state.
* The retry loop of `Get` takes fuel; running out of fuel is a fault of its own.
* Concurrent calls are interleavings of atomic steps of threads (section
  "Concurrent executions"); the keyed-factory constructor, which `map.go` does
  not contain, is modelled from the specification.
-/

namespace refcountmap

/-- The Go struct `counter[K, V]`: fields `value`, `references`, `k`. The field `m`
(back-pointer to the owning map) denotes the one map of the state; `lock` is
described in the header. The values of Go's `int` are the integers from
`minInt` to `maxInt`. -/
structure counter (K V : Type) where
  value : V
  references : Int
  k : K
deriving DecidableEq, Repr

/-- Ways in which an embedded operation yields no result. -/
inductive Fault where
  /-- a pointer that is not an allocated counter was dereferenced (no Go state
  has such a pointer) -/
  | dangling
  /-- the retry loop of `Get` was still spinning when the fuel ran out -/
  | outOfFuel
  /-- a driver tried to call a release handle that was never returned -/
  | noHandle
deriving DecidableEq, Repr

namespace SyncMap

variable {K : Type} [DecidableEq K]

/-- The method `SyncMap.Load(k)`: the stored pointer, `none` for `ok = false`. -/
def Load (m : List (K × Nat)) (k : K) : Option Nat :=
  m.lookup k

/-- The method `SyncMap.LoadOrStore(k, v)`: returns the existing pointer with
`loaded = true`, otherwise stores `v` and returns it with `loaded = false`. -/
def LoadOrStore (m : List (K × Nat)) (k : K) (v : Nat) : List (K × Nat) × Nat × Bool :=
  match m.lookup k with
  | some q => (m, q, true)
  | none => (m ++ [(k, v)], v, false)

/-- The method `SyncMap.Delete(k)`: removes the mapping of `k`, if any. -/
def Delete (m : List (K × Nat)) (k : K) : List (K × Nat) :=
  m.filter (fun e => e.1 != k)

end SyncMap

/-- The Go struct `Map[K, V]`: the embedded `SyncMap` and the factory `makeNew`,
together with the heap of allocated counters and the number of factory
invocations made so far. -/
structure Map (K V : Type) where
  SyncMap : List (K × Nat)
  heap : List (counter K V)
  makeNew : Nat → V
  calls : Nat

/-- What `Get` returns: `value`, the release handle (the method value
`v.release`, identified by the counter `v` it is bound to), `loaded`, and the
number of times the `LoadOrStore` step of the retry loop was executed. -/
structure GetResult (V : Type) where
  value : V
  release : Nat
  loaded : Bool
  rounds : Nat
deriving DecidableEq, Repr

section ops

variable {K V : Type} [DecidableEq K]

/-- The constructor `New(newValue)`. -/
def New (newValue : Nat → V) : Map K V :=
  { SyncMap := [], heap := [], makeNew := newValue, calls := 0 }

/-- The method `counter.allocate()`, the count being a mathematical integer
(`Wrapping.allocate` has Go's arithmetic):
```go
if v.references <= 0 { return false }
v.references++
return true
``` -/
def allocate (s : Map K V) (v : Nat) : Except Fault (Map K V × Bool) :=
  match s.heap[v]? with
  | none => .error .dangling
  | some c =>
    if c.references ≤ 0 then .ok (s, false)
    else .ok ({ s with heap := s.heap.set v { c with references := c.references + 1 } }, true)

/-- The method `Map.Load(k)`:
```go
v, ok := m.SyncMap.Load(k)
if !ok { var value V; return value, false }
return v.value, v.references > 0
```
The zero value of `V` is `default`. The state after the call is returned too. -/
def Load [Inhabited V] (s : Map K V) (k : K) : Except Fault (Map K V × V × Bool) :=
  match SyncMap.Load s.SyncMap k with
  | none => .ok (s, default, false)
  | some v =>
    match s.heap[v]? with
    | none => .error .dangling
    | some c => .ok (s, c.value, decide (c.references > 0))

/-- The statement `return v.value, v.release, loaded` of `Get`. -/
def Get.ret (s : Map K V) (v : Nat) (loaded : Bool) (rounds : Nat) :
    Except Fault (Map K V × GetResult V) :=
  match s.heap[v]? with
  | none => .error .dangling
  | some c => .ok (s, { value := c.value, release := v, loaded := loaded, rounds := rounds })

/-- The retry loop of `Get`:
```go
for {
    v, loaded = m.SyncMap.LoadOrStore(k, newV)
    if loaded && !v.allocate() { continue }
    return v.value, v.release, loaded
}
```
`n` is the number of `LoadOrStore` steps executed before this iteration. -/
def Get.loop (k : K) (newV : Nat) : Nat → Nat → Map K V → Except Fault (Map K V × GetResult V)
  | 0, _, _ => .error .outOfFuel
  | fuel + 1, n, s =>
    match SyncMap.LoadOrStore s.SyncMap k newV with
    | (sm, v, loaded) =>
      let s1 : Map K V := { s with SyncMap := sm }
      if loaded then
        match allocate s1 v with
        | .error e => .error e
        | .ok (s2, false) => Get.loop k newV fuel (n + 1) s2
        | .ok (s2, true) => Get.ret s2 v loaded (n + 1)
      else Get.ret s1 v loaded (n + 1)

/-- The part of `Get` after the first lookup failed: construct
`newV := &counter{k: k, value: m.makeNew(), m: m, references: 1}` and enter the
retry loop. -/
def Get.slow (fuel : Nat) (s : Map K V) (k : K) : Except Fault (Map K V × GetResult V) :=
  let newV : Nat := s.heap.length
  let s1 : Map K V :=
    { s with
      heap := s.heap ++ [{ value := s.makeNew s.calls, references := 1, k := k }]
      calls := s.calls + 1 }
  Get.loop k newV fuel 0 s1

/-- The method `Map.Get(k)`:
```go
v, ok := m.SyncMap.Load(k)
if ok {
    if v.allocate() { return v.value, v.release, true }
}
newV := ...
for { ... }
``` -/
def Get (fuel : Nat) (s : Map K V) (k : K) : Except Fault (Map K V × GetResult V) :=
  match SyncMap.Load s.SyncMap k with
  | some v =>
    match allocate s v with
    | .error e => .error e
    | .ok (s1, true) => Get.ret s1 v true 0
    | .ok (s1, false) => Get.slow fuel s1 k
  | none => Get.slow fuel s k

/-- The method `counter.release()`, the count being a mathematical integer
(`Wrapping.release` has Go's arithmetic):
```go
v.references--
if v.references <= 0 { v.m.Delete(v.k) }
``` -/
def release (s : Map K V) (v : Nat) : Except Fault (Map K V) :=
  match s.heap[v]? with
  | none => .error .dangling
  | some c =>
    let c1 : counter K V := { c with references := c.references - 1 }
    let s1 : Map K V := { s with heap := s.heap.set v c1 }
    if c1.references ≤ 0 then .ok { s1 with SyncMap := SyncMap.Delete s1.SyncMap c1.k }
    else .ok s1

end ops

/-! ## Sequential executions -/

/-- One action of a sequential client: a `Get(k)`, or a call of the release
handle that the `i`-th `Get` of the execution returned. -/
inductive Action (K : Type) where
  | get (k : K)
  | call (i : Nat)
deriving DecidableEq, Repr

/-- A release handle as the client holds it: the key and the value of the `Get`
that returned it, the counter it is bound to, and how often it was called. -/
structure Handle (K V : Type) where
  key : K
  value : V
  ptr : Nat
  loaded : Bool
  called : Nat
deriving DecidableEq, Repr

/-- The map together with the handles returned so far, in the order of the
`Get` calls. -/
structure Exec (K V : Type) where
  m : Map K V
  handles : List (Handle K V)

section exec

variable {K V : Type} [DecidableEq K]

/-- The execution state before any action: the map `New(newValue)`. -/
def Exec.init (newValue : Nat → V) : Exec K V :=
  { m := New newValue, handles := [] }

/-- One action of the client. -/
def step (fuel : Nat) (e : Exec K V) : Action K → Except Fault (Exec K V)
  | .get k =>
    match Get fuel e.m k with
    | .error f => .error f
    | .ok (m1, r) =>
      .ok { m := m1
            handles := e.handles ++
              [{ key := k, value := r.value, ptr := r.release, loaded := r.loaded, called := 0 }] }
  | .call i =>
    match e.handles[i]? with
    | none => .error .noHandle
    | some h =>
      match release e.m h.ptr with
      | .error f => .error f
      | .ok m1 => .ok { m := m1, handles := e.handles.set i { h with called := h.called + 1 } }

/-- A sequence of actions, from the state `e`. -/
def run (fuel : Nat) : Exec K V → List (Action K) → Except Fault (Exec K V)
  | e, [] => .ok e
  | e, a :: as =>
    match step fuel e a with
    | .error f => .error f
    | .ok e1 => run fuel e1 as

/-- Every `call i` of the sequence names a handle that exists when it is
called, given that `n` handles exist at the start. -/
def ScopedFrom : Nat → List (Action K) → Prop
  | _, [] => True
  | n, .get _ :: as => ScopedFrom (n + 1) as
  | n, .call i :: as => i < n ∧ ScopedFrom n as

/-- The number of handles of `e` for key `k` that were returned and not yet
called. -/
def outstanding (e : Exec K V) (k : K) : Nat :=
  e.handles.countP (fun h => decide (h.key = k) && decide (h.called = 0))

/-- Each handle was called at most once. -/
def Exec.once (e : Exec K V) : Prop :=
  ∀ h ∈ e.handles, h.called ≤ 1

/-- The state after `Get(7)`, `Get(7)` and the call of the first handle, for
the factory whose `i`-th result is `i`. -/
def afterGetGetCall : Exec Nat Nat :=
  { m := { SyncMap := [(7, 0)], heap := [{ value := 0, references := 1, k := 7 }],
           makeNew := fun i => i, calls := 1 }
    handles := [{ key := 7, value := 0, ptr := 0, loaded := false, called := 1 },
                { key := 7, value := 0, ptr := 0, loaded := true, called := 0 }] }

/-- The state after `Get(7)`, `Get(8)` and the call of the second handle, for
the factory whose `i`-th result is `i`. -/
def afterGetGetCallOther : Exec Nat Nat :=
  { m := { SyncMap := [(7, 0)]
           heap := [{ value := 0, references := 1, k := 7 },
                    { value := 1, references := 0, k := 8 }]
           makeNew := fun i => i, calls := 2 }
    handles := [{ key := 7, value := 0, ptr := 0, loaded := false, called := 0 },
                { key := 8, value := 1, ptr := 1, loaded := false, called := 1 }] }

/-- The states a Go program can be in, whatever the clients do: every pointer
in the store is an allocated counter, stored under its own field `k`, with a
positive count. -/
structure Map.Inv (s : Map K V) : Prop where
  stored : ∀ k p, s.SyncMap.lookup k = some p →
    ∃ c, s.heap[p]? = some c ∧ c.k = k ∧ 1 ≤ c.references

/-- Structural invariant of an execution: `Map.Inv`, and every handle is bound
to an allocated counter that carries the key and the value of its `Get`. -/
structure Exec.Inv (e : Exec K V) : Prop where
  map : e.m.Inv
  bound : ∀ h ∈ e.handles, ∃ c, e.m.heap[h.ptr]? = some c ∧ c.k = h.key ∧ c.value = h.value

/-- The number of handles bound to the counter `p` that were not yet called. -/
def holders (e : Exec K V) (p : Nat) : Nat :=
  e.handles.countP (fun h => decide (h.ptr = p) && decide (h.called = 0))

/-- Counting invariant of an execution in which no handle is called twice:
the count of each counter is the number of its uncalled handles, and a counter
with a positive count is the one stored under its key. -/
structure Exec.Counted (e : Exec K V) : Prop where
  count : ∀ p c, e.m.heap[p]? = some c → c.references = (holders e p : Int)
  live : ∀ p c, e.m.heap[p]? = some c → 1 ≤ c.references → e.m.SyncMap.lookup c.k = some p

end exec


section frame

variable {K V : Type} [DecidableEq K]

/-- Key `k'` looks the same in `s1` as in `s`: it is stored in both or in
neither, under the same pointer, and the counter stored under it (value,
references, key) is the same. -/
def sameAt (s s1 : Map K V) (k' : K) : Prop :=
  SyncMap.Load s1.SyncMap k' = SyncMap.Load s.SyncMap k' ∧
  ∀ p, SyncMap.Load s.SyncMap k' = some p → s1.heap[p]? = s.heap[p]?

end frame

/-! ## Range -/

/-- One call of the visit function of `Range`: the key and the value it was
called with, and the result it returned. -/
structure Visit (K V : Type) where
  key : K
  value : V
  result : Bool
deriving DecidableEq, Repr

section range

variable {K V σ : Type} [DecidableEq K]

/-- The method `SyncMap.Range(f)` of the external package: calls `f` on each
key and pointer of the store, in the order of the store, and stops after the
first call that returns `false`. The callback is a Go closure: `σ` is the
state it captures and updates; in the embedding a callback may also fault. -/
def SyncMap.Range (g : σ → K → Nat → Except Fault (σ × Bool)) :
    List (K × Nat) → σ → Except Fault σ
  | [], st => .ok st
  | (k, v) :: rest, st =>
    match g st k v with
    | .error e => .error e
    | .ok (st1, true) => SyncMap.Range g rest st1
    | .ok (st1, false) => .ok st1

/-- The callback that `Map.Range` passes to `SyncMap.Range`:
```go
func(k K, v *counter[K, V]) bool { return f(k, v.value) }
```
`f` is the caller's visit function, a closure with captured state `σ`; each
call of `f` is appended to the record of visits. -/
def Range.callback (s : Map K V) (f : σ → K → V → σ × Bool) (acc : σ × List (Visit K V))
    (k : K) (v : Nat) : Except Fault ((σ × List (Visit K V)) × Bool) :=
  match s.heap[v]? with
  | none => .error .dangling
  | some c =>
    .ok (((f acc.1 k c.value).1,
          acc.2 ++ [{ key := k, value := c.value, result := (f acc.1 k c.value).2 }]),
         (f acc.1 k c.value).2)

/-- The method `Map.Range(f)`:
```go
m.SyncMap.Range(func(k K, v *counter[K, V]) bool { return f(k, v.value) })
```
It returns the state of the map afterwards, the final state of the visit
function and the record of the calls made to it. -/
def Range (s : Map K V) (f : σ → K → V → σ × Bool) (st : σ) :
    Except Fault (Map K V × σ × List (Visit K V)) :=
  match SyncMap.Range (Range.callback s f) s.SyncMap (st, []) with
  | .error e => .error e
  | .ok (st1, log) => .ok (s, st1, log)

/-- The keys of a store with the values of the entries they are bound to, in
the order of the store. -/
def entriesOf (s : Map K V) (m : List (K × Nat)) : List (K × V) :=
  m.filterMap (fun e => (s.heap[e.2]?).map (fun c => (e.1, c.value)))

/-- The state of the visit function after the recorded calls, from `st`. -/
def visitorState (f : σ → K → V → σ × Bool) (st : σ) (log : List (Visit K V)) : σ :=
  log.foldl (fun acc v => (f acc v.key v.value).1) st

end range

/-- The map after `Get(7)` and `Get(8)`, for the factory whose `i`-th result
is `i`. -/
def afterGetGetOther : Map Nat Nat :=
  { SyncMap := [(7, 0), (8, 1)]
    heap := [{ value := 0, references := 1, k := 7 }, { value := 1, references := 1, k := 8 }]
    makeNew := fun i => i, calls := 2 }

/-- A visit function that counts its calls and stops at value 0. -/
def countUntilZero (n : Nat) (_ : Nat) (v : Nat) : Nat × Bool :=
  (n + 1, decide (v ≠ 0))

/-! ## The keyed-factory variant -/

/-- Modelled from the spec: the map built by the keyed-factory constructor
(`NewFromKey` in the spec, `NewValueFromKey` in `map_test.go`), which `map.go`
does not contain. It is the map of `map.go` with a factory that computes the
value from the key: `factory k i` is the result of invocation number `i`, made
for key `k`. -/
structure KeyedMap (K V : Type) where
  SyncMap : List (K × Nat)
  heap : List (counter K V)
  factory : K → Nat → V
  calls : Nat

section keyed

variable {K V : Type} [DecidableEq K]

/-- Modelled from the spec: the constructor `NewFromKey(factory)`, missing from
`map.go`: an empty map that keeps the keyed factory. -/
def NewFromKey (factory : K → Nat → V) : KeyedMap K V :=
  { SyncMap := [], heap := [], factory := factory, calls := 0 }

/-- Modelled from the spec: `Get` on a map built by `NewFromKey`, missing from
`map.go`. In the words of the spec, "its internal behavior mirrors `Get`'s
algorithm with the factory invoked as `factory(key)` instead of `factory()`":
it is `Get` with `makeNew` standing for `factory(k)`. -/
def GetFromKey (fuel : Nat) (s : KeyedMap K V) (k : K) :
    Except Fault (KeyedMap K V × GetResult V) :=
  match Get fuel
      ({ SyncMap := s.SyncMap, heap := s.heap, makeNew := s.factory k, calls := s.calls } :
        Map K V) k with
  | .error e => .error e
  | .ok (s1, r) =>
    .ok ({ SyncMap := s1.SyncMap, heap := s1.heap, factory := s.factory, calls := s1.calls }, r)

end keyed

/-! ## Concurrent executions

Calls of `Get` and of release handles run as threads whose atomic steps
interleave. The atomic steps are those of the operations used by `map.go`: a
`Load`, a `LoadOrStore` or a `Delete` of the store, and a critical section of
an entry's lock. The critical section of `release` that brings the count to 0
or below contains the call `v.m.Delete(v.k)`: it is two steps, the decrement and
the `Delete`, and the lock stays held in between, so that no other thread can
enter a critical section of that entry, while the store remains accessible. -/

/-- Where a thread stands in the call it executes: the statement it will
execute next, with its local variables. `rounds` counts the `LoadOrStore` steps
the `Get` has executed and `made` the invocations of the factory it has made. -/
inductive Pc (K : Type) where
  /-- `Get(k)`: about to execute `v, ok := m.SyncMap.Load(k)` -/
  | getLoad (k : K)
  /-- `Get(k)`: `ok` was true, about to execute `v.allocate()` -/
  | getAllocate (k : K) (v : Nat)
  /-- `Get(k)`: about to construct `newV` with a value from the factory -/
  | getConstruct (k : K)
  /-- `Get(k)`: about to execute `v, loaded = m.SyncMap.LoadOrStore(k, newV)` -/
  | getLoadOrStore (k : K) (newV : Nat) (rounds made : Nat)
  /-- `Get(k)`: `loaded` was true, about to execute `v.allocate()` in the loop -/
  | getRetry (k : K) (newV v : Nat) (rounds made : Nat)
  /-- `Get(k)`: about to execute `return v.value, v.release, loaded` -/
  | getReturn (k : K) (v : Nat) (loaded : Bool) (rounds made : Nat)
  /-- `release` on `v`: about to lock `v` and decrement its count -/
  | releaseLock (v : Nat)
  /-- `release` on `v`: holds the lock of `v`, the count is `<= 0`, about to
  execute `v.m.Delete(v.k)` and unlock -/
  | releaseDelete (v : Nat)
  /-- the call has returned -/
  | done
deriving DecidableEq, Repr

/-- What a `Get` returned to its caller, with the number of `LoadOrStore` steps
and of factory invocations it made, and how often the handle was called. -/
structure Returned (K V : Type) where
  key : K
  value : V
  ptr : Nat
  loaded : Bool
  rounds : Nat
  made : Nat
  called : Nat
deriving DecidableEq, Repr

/-- The shared map, the threads (a call that returned stays as `done`) and
what the `Get` calls returned, in the order of their return. -/
structure Conc (K V : Type) where
  m : Map K V
  threads : List (Pc K)
  handles : List (Returned K V)

/-- One choice of the scheduler: a client calls `Get(k)` in a new thread, a
client calls the `i`-th returned handle in a new thread, or thread `t` executes
its next atomic step. -/
inductive Sched (K : Type) where
  | callGet (k : K)
  | callRelease (i : Nat)
  | run (t : Nat)
deriving DecidableEq, Repr

section conc

variable {K V : Type} [DecidableEq K]

/-- The thread owns a counted reference to `p` that it has not handed out or
given back yet. -/
def Pc.holds : Pc K → Nat → Bool
  | .getReturn _ v _ _ _, p => decide (v = p)
  | .releaseLock v, p => decide (v = p)
  | _, _ => false

/-- The thread is about to call `allocate` on `p`. -/
def Pc.reads : Pc K → Nat → Bool
  | .getAllocate _ v, p => decide (v = p)
  | .getRetry _ _ v _ _, p => decide (v = p)
  | _, _ => false

/-- The thread has constructed `p` as its `newV` and may still store it. -/
def Pc.fresh : Pc K → Nat → Bool
  | .getLoadOrStore _ n _ _, p => decide (n = p)
  | .getRetry _ n _ _ _, p => decide (n = p)
  | _, _ => false

/-- The thread holds the lock of `p` between two atomic steps. -/
def Pc.locks : Pc K → Nat → Bool
  | .releaseDelete v, p => decide (v = p)
  | _, _ => false

/-- The number of threads with the given relation to the counter `p`. -/
def Conc.count (c : Conc K V) (f : Pc K → Nat → Bool) (p : Nat) : Nat :=
  c.threads.countP (fun pc => f pc p)

/-- The number of returned and uncalled handles bound to the counter `p`. -/
def Conc.handed (c : Conc K V) (p : Nat) : Nat :=
  c.handles.countP (fun h => decide (h.ptr = p) && decide (h.called = 0))

/-- The lock of the counter `p` is held by a thread that is between the
decrement and the `Delete` of a `release`. -/
def Conc.locked (c : Conc K V) (p : Nat) : Bool :=
  decide (1 ≤ c.count Pc.locks p)

/-- The state before any call: the map `New(newValue)`, no thread. -/
def Conc.init (newValue : Nat → V) : Conc K V :=
  { m := New newValue, threads := [], handles := [] }

/-- The atomic step of thread `t`, which stands at `pc`. A thread that needs a
lock that is held does not move. -/
def Conc.stepThread (c : Conc K V) (t : Nat) : Pc K → Except Fault (Conc K V)
  | .getLoad k =>
    match SyncMap.Load c.m.SyncMap k with
    | some v => .ok { c with threads := c.threads.set t (.getAllocate k v) }
    | none => .ok { c with threads := c.threads.set t (.getConstruct k) }
  | .getAllocate k v =>
    if c.locked v then .ok c
    else
      match allocate c.m v with
      | .error e => .error e
      | .ok (m1, true) =>
        .ok { c with m := m1, threads := c.threads.set t (.getReturn k v true 0 0) }
      | .ok (m1, false) => .ok { c with m := m1, threads := c.threads.set t (.getConstruct k) }
  | .getConstruct k =>
    .ok { c with
          m := { c.m with
                 heap := c.m.heap ++
                   [{ value := c.m.makeNew c.m.calls, references := 1, k := k }]
                 calls := c.m.calls + 1 }
          threads := c.threads.set t (.getLoadOrStore k c.m.heap.length 0 1) }
  | .getLoadOrStore k newV rounds made =>
    match SyncMap.LoadOrStore c.m.SyncMap k newV with
    | (sm, v, true) =>
      .ok { c with m := { c.m with SyncMap := sm }
                   threads := c.threads.set t (.getRetry k newV v (rounds + 1) made) }
    | (sm, v, false) =>
      .ok { c with m := { c.m with SyncMap := sm }
                   threads := c.threads.set t (.getReturn k v false (rounds + 1) made) }
  | .getRetry k newV v rounds made =>
    if c.locked v then .ok c
    else
      match allocate c.m v with
      | .error e => .error e
      | .ok (m1, true) =>
        .ok { c with m := m1, threads := c.threads.set t (.getReturn k v true rounds made) }
      | .ok (m1, false) =>
        .ok { c with m := m1, threads := c.threads.set t (.getLoadOrStore k newV rounds made) }
  | .getReturn k v loaded rounds made =>
    match c.m.heap[v]? with
    | none => .error .dangling
    | some d =>
      .ok { c with
            threads := c.threads.set t .done
            handles := c.handles ++
              [{ key := k, value := d.value, ptr := v, loaded := loaded, rounds := rounds,
                 made := made, called := 0 }] }
  | .releaseLock v =>
    if c.locked v then .ok c
    else
      match c.m.heap[v]? with
      | none => .error .dangling
      | some d =>
        let m1 : Map K V :=
          { c.m with heap := c.m.heap.set v { d with references := d.references - 1 } }
        if d.references - 1 ≤ 0 then
          .ok { c with m := m1, threads := c.threads.set t (.releaseDelete v) }
        else .ok { c with m := m1, threads := c.threads.set t .done }
  | .releaseDelete v =>
    match c.m.heap[v]? with
    | none => .error .dangling
    | some d =>
      .ok { c with m := { c.m with SyncMap := SyncMap.Delete c.m.SyncMap d.k }
                   threads := c.threads.set t .done }
  | .done => .ok c

/-- One choice of the scheduler. A choice that is not available (no such
thread, no such handle, or a handle that was called before: each handle is
called at most once) leaves the state as it is. -/
def Conc.step (c : Conc K V) : Sched K → Except Fault (Conc K V)
  | .callGet k => .ok { c with threads := c.threads ++ [.getLoad k] }
  | .callRelease i =>
    match c.handles[i]? with
    | none => .ok c
    | some h =>
      if h.called = 0 then
        .ok { c with
              threads := c.threads ++ [.releaseLock h.ptr]
              handles := c.handles.set i { h with called := h.called + 1 } }
      else .ok c
  | .run t =>
    match c.threads[t]? with
    | none => .ok c
    | some pc => c.stepThread t pc

/-- An interleaving: the choices of the scheduler, from the state `c`. -/
def Conc.run : Conc K V → List (Sched K) → Except Fault (Conc K V)
  | c, [] => .ok c
  | c, x :: xs =>
    match c.step x with
    | .error f => .error f
    | .ok c1 => Conc.run c1 xs

end conc
section concinv

variable {K V : Type} [DecidableEq K]

/-- The pointers that a thread carries are allocated counters, and those it
got for the key `k` of its `Get` have `k` in their field `k`. -/
def Pc.keyed (heap : List (counter K V)) : Pc K → Prop
  | .getAllocate k v => ∃ d, heap[v]? = some d ∧ d.k = k
  | .getLoadOrStore k n _ _ => ∃ d, heap[n]? = some d ∧ d.k = k
  | .getRetry k n v _ _ => (∃ d, heap[n]? = some d ∧ d.k = k) ∧ ∃ d, heap[v]? = some d ∧ d.k = k
  | .getReturn k v _ _ _ => ∃ d, heap[v]? = some d ∧ d.k = k
  | .releaseLock v => ∃ d, heap[v]? = some d
  | .releaseDelete v => ∃ d, heap[v]? = some d
  | _ => True

/-- The tally of a `Get` in flight: once it has constructed `newV` it has
invoked the factory exactly once, however many `LoadOrStore` steps it made. -/
def Pc.tally : Pc K → Prop
  | .getLoadOrStore _ _ _ made => made = 1
  | .getRetry _ _ _ rounds made => 1 ≤ rounds ∧ made = 1
  | .getReturn _ _ loaded rounds made =>
    (rounds = 0 ∧ made = 0 ∧ loaded = true) ∨ (1 ≤ rounds ∧ made = 1)
  | _ => True

/-- The counter `p` has been stored: its count is the number of references
handed out or held by threads, no thread treats it as its unpublished `newV`,
its lock is held by at most one releasing thread and only when the count is
`<= 0`, and while the count is positive or the lock is held it is the entry
stored under its key. -/
def Conc.Published (c : Conc K V) (p : Nat) (d : counter K V) : Prop :=
  d.references = ((c.handed p + c.count Pc.holds p : Nat) : Int) ∧
  c.count Pc.fresh p = 0 ∧
  c.count Pc.locks p ≤ 1 ∧
  (1 ≤ c.count Pc.locks p → d.references ≤ 0) ∧
  ((1 ≤ d.references ∨ 1 ≤ c.count Pc.locks p) → c.m.SyncMap.lookup d.k = some p)

/-- The counter `p` was constructed by a `Get` and never stored: its count is
the initial 1, it is not in the store, no handle and no other thread refers to
it, and at most one thread may still store it. -/
def Conc.Private (c : Conc K V) (p : Nat) (d : counter K V) : Prop :=
  d.references = 1 ∧ c.handed p = 0 ∧ c.count Pc.holds p = 0 ∧ c.count Pc.reads p = 0 ∧
  c.count Pc.fresh p ≤ 1 ∧ c.count Pc.locks p = 0 ∧ ∀ k, c.m.SyncMap.lookup k ≠ some p

/-- The invariant of the interleavings. -/
structure Conc.Inv (c : Conc K V) : Prop where
  entry : ∀ p d, c.m.heap[p]? = some d → c.Published p d ∨ c.Private p d
  threads : ∀ pc ∈ c.threads, pc.keyed c.m.heap
  handles : ∀ h ∈ c.handles, h.called = 0 →
    ∃ d, c.m.heap[h.ptr]? = some d ∧ d.k = h.key ∧ d.value = h.value
  stored : ∀ k p, c.m.SyncMap.lookup k = some p → ∃ d, c.m.heap[p]? = some d ∧ d.k = k
  tally : ∀ pc ∈ c.threads, pc.tally
  tallied : ∀ h ∈ c.handles, (h.rounds = 0 ∧ h.made = 0 ∧ h.loaded = true) ∨
    (1 ≤ h.rounds ∧ h.made = 1)

end concinv
/-- An interleaving of two `Get(7)` and one release in which the first `Get`
loses the race of `LoadOrStore`, finds the winner retired when it calls
`allocate`, and stores its own entry in the second round of the loop. -/
def retrySchedule : List (Sched Nat) :=
  [.callGet 7, .run 0, .run 0, .callGet 7, .run 1, .run 1, .run 1, .run 1, .run 0,
   .callRelease 0, .run 2, .run 2, .run 0, .run 0, .run 0]

/-- The state at the end of `retrySchedule`, for the factory whose `i`-th
result is `i`. -/
def afterRetry : Conc Nat Nat :=
  { m := { SyncMap := [(7, 0)]
           heap := [{ value := 0, references := 1, k := 7 },
                    { value := 1, references := 0, k := 7 }]
           makeNew := fun i => i, calls := 2 }
    threads := [.done, .done, .done]
    handles := [{ key := 7, value := 1, ptr := 1, loaded := false, rounds := 1, made := 1,
                  called := 1 },
                { key := 7, value := 0, ptr := 0, loaded := false, rounds := 2, made := 1,
                  called := 0 }] }

/-! ## Go's `int` arithmetic

The operations above compute with `references` as a mathematical integer. The
operations of this section are the same statements of `map.go` with the
arithmetic of Go's `int` on a 64-bit platform: `v.references++` and
`v.references--` wrap around at the bounds of the type. -/

/-- The largest value of Go's `int` on a 64-bit platform (`math.MaxInt64`). -/
def maxInt : Int := 9223372036854775807

/-- The smallest value of Go's `int` on a 64-bit platform (`math.MinInt64`). -/
def minInt : Int := -9223372036854775808

/-- The value that Go's `int` arithmetic gives for the mathematical result `x`:
the representative of `x` modulo `2^64` between `minInt` and `maxInt`. -/
def wrapInt (x : Int) : Int :=
  (x + 9223372036854775808) % 18446744073709551616 - 9223372036854775808

namespace Wrapping

section ops

variable {K V : Type} [DecidableEq K]

/-- The method `counter.allocate()` with Go's `int` arithmetic:
```go
if v.references <= 0 { return false }
v.references++
return true
``` -/
def allocate (s : Map K V) (v : Nat) : Except Fault (Map K V × Bool) :=
  match s.heap[v]? with
  | none => .error .dangling
  | some c =>
    if c.references ≤ 0 then .ok (s, false)
    else
      .ok ({ s with heap := s.heap.set v { c with references := wrapInt (c.references + 1) } },
           true)

/-- The retry loop of `Get`, with Go's `int` arithmetic in `allocate`:
```go
for {
    v, loaded = m.SyncMap.LoadOrStore(k, newV)
    if loaded && !v.allocate() { continue }
    return v.value, v.release, loaded
}
``` -/
def Get.loop (k : K) (newV : Nat) : Nat → Nat → Map K V → Except Fault (Map K V × GetResult V)
  | 0, _, _ => .error .outOfFuel
  | fuel + 1, n, s =>
    match SyncMap.LoadOrStore s.SyncMap k newV with
    | (sm, v, loaded) =>
      let s1 : Map K V := { s with SyncMap := sm }
      if loaded then
        match allocate s1 v with
        | .error e => .error e
        | .ok (s2, false) => Get.loop k newV fuel (n + 1) s2
        | .ok (s2, true) => refcountmap.Get.ret s2 v loaded (n + 1)
      else refcountmap.Get.ret s1 v loaded (n + 1)

/-- The part of `Get` after the first lookup failed: construct
`newV := &counter{k: k, value: m.makeNew(), m: m, references: 1}` and enter the
retry loop. -/
def Get.slow (fuel : Nat) (s : Map K V) (k : K) : Except Fault (Map K V × GetResult V) :=
  let newV : Nat := s.heap.length
  let s1 : Map K V :=
    { s with
      heap := s.heap ++ [{ value := s.makeNew s.calls, references := 1, k := k }]
      calls := s.calls + 1 }
  Get.loop k newV fuel 0 s1

/-- The method `Map.Get(k)`, with Go's `int` arithmetic in `allocate`:
```go
v, ok := m.SyncMap.Load(k)
if ok {
    if v.allocate() { return v.value, v.release, true }
}
newV := ...
for { ... }
``` -/
def Get (fuel : Nat) (s : Map K V) (k : K) : Except Fault (Map K V × GetResult V) :=
  match SyncMap.Load s.SyncMap k with
  | some v =>
    match allocate s v with
    | .error e => .error e
    | .ok (s1, true) => refcountmap.Get.ret s1 v true 0
    | .ok (s1, false) => Get.slow fuel s1 k
  | none => Get.slow fuel s k

/-- The method `counter.release()` with Go's `int` arithmetic:
```go
v.references--
if v.references <= 0 { v.m.Delete(v.k) }
``` -/
def release (s : Map K V) (v : Nat) : Except Fault (Map K V) :=
  match s.heap[v]? with
  | none => .error .dangling
  | some c =>
    let c1 : counter K V := { c with references := wrapInt (c.references - 1) }
    let s1 : Map K V := { s with heap := s.heap.set v c1 }
    if c1.references ≤ 0 then .ok { s1 with SyncMap := SyncMap.Delete s1.SyncMap c1.k }
    else .ok s1

/-- One action of a sequential client, with Go's `int` arithmetic. -/
def step (fuel : Nat) (e : Exec K V) : Action K → Except Fault (Exec K V)
  | .get k =>
    match Get fuel e.m k with
    | .error f => .error f
    | .ok (m1, r) =>
      .ok { m := m1
            handles := e.handles ++
              [{ key := k, value := r.value, ptr := r.release, loaded := r.loaded, called := 0 }] }
  | .call i =>
    match e.handles[i]? with
    | none => .error .noHandle
    | some h =>
      match release e.m h.ptr with
      | .error f => .error f
      | .ok m1 => .ok { m := m1, handles := e.handles.set i { h with called := h.called + 1 } }

/-- A sequence of actions, with Go's `int` arithmetic, from the state `e`. -/
def run (fuel : Nat) : Exec K V → List (Action K) → Except Fault (Exec K V)
  | e, [] => .ok e
  | e, a :: as =>
    match step fuel e a with
    | .error f => .error f
    | .ok e1 => run fuel e1 as

end ops

end Wrapping

section bounded

variable {K V : Type}

/-- Every counter of the heap has a count between `-n` and `n`. -/
def Bounded (n : Nat) (s : Map K V) : Prop :=
  ∀ (p : Nat) (d : counter K V), s.heap[p]? = some d →
    -(n : Int) ≤ d.references ∧ d.references ≤ (n : Int)

end bounded

/-- A map state whose entry, stored under key 7, has the largest count that
Go's `int` holds. -/
def atMaxInt : Map Nat Nat :=
  { SyncMap := [(7, 0)], heap := [{ value := 5, references := maxInt, k := 7 }],
    makeNew := fun i => i, calls := 1 }

/-- A map state whose entry, stored under key 7, has the smallest count that
Go's `int` holds. -/
def atMinInt : Map Nat Nat :=
  { SyncMap := [(7, 0)], heap := [{ value := 5, references := minInt, k := 7 }],
    makeNew := fun i => i, calls := 1 }

/-- A map state whose entry, stored under key 7, has two references handed
out. -/
def twoHeld : Map Nat Nat :=
  { SyncMap := [(7, 0)], heap := [{ value := 5, references := 2, k := 7 }],
    makeNew := fun i => i, calls := 1 }

/-- A map state whose entry, stored under key 7, has one reference handed
out. -/
def oneHeld : Map Nat Nat :=
  { SyncMap := [(7, 0)], heap := [{ value := 5, references := 1, k := 7 }],
    makeNew := fun i => i, calls := 1 }

section accounting

variable {K V : Type}

/-- The number of invocations of the factory made so far by the call that a
thread executes, as recorded in its local state; a thread that is not inside
the loop of a `Get` or at its return has none to its name. -/
def Pc.made : Pc K → Nat
  | .getLoadOrStore _ _ _ made => made
  | .getRetry _ _ _ _ made => made
  | .getReturn _ _ _ _ made => made
  | _ => 0

/-- The invocations recorded for the `Get` calls are all the invocations of the
factory: the counter `calls` of the map is the sum of the `made` of the threads
and of the returned handles. Every invocation constructed one counter: the heap
has `calls` counters, and the counter at address `p` holds the result of
invocation number `p` of the factory `newValue`. -/
structure Conc.Accounted (newValue : Nat → V) (c : Conc K V) : Prop where
  calls : c.m.calls = (c.threads.map Pc.made).sum + (c.handles.map Returned.made).sum
  heap : c.m.heap.length = c.m.calls
  factory : c.m.makeNew = newValue
  values : ∀ (p : Nat) (d : counter K V), c.m.heap[p]? = some d → d.value = newValue p

end accounting

section entered

variable {K : Type}

/-- The call that the thread executes is a `Get` that has passed its
construction step: it stands in its loop, or at its return after at least one
`LoadOrStore` step. -/
def Pc.entered : Pc K → Bool
  | .getLoadOrStore _ _ _ _ => true
  | .getRetry _ _ _ _ _ => true
  | .getReturn _ _ _ rounds _ => decide (1 ≤ rounds)
  | _ => false

end entered

section lemmas
set_option linter.unusedSectionVars false
variable {K V : Type} [DecidableEq K]

theorem lookup_append_single (m : List (K × Nat)) (k k' : K) (v : Nat) :
    (m ++ [(k, v)]).lookup k' =
      match m.lookup k' with
      | some q => some q
      | none => if k' = k then some v else none := by
  induction m with
  | nil =>
    by_cases h : k' = k
    · subst h; simp [List.lookup]
    · have : (k' == k) = false := by simpa using h
      simp [List.lookup, this, h]
  | cons a m ih =>
    obtain ⟨a1, a2⟩ := a
    by_cases h : k' = a1
    · subst h; simp [List.lookup]
    · have : (k' == a1) = false := by simpa using h
      simp only [List.cons_append, List.lookup, this]
      exact ih

theorem lookup_Delete (m : List (K × Nat)) (k k' : K) :
    (SyncMap.Delete m k).lookup k' = if k' = k then none else m.lookup k' := by
  induction m with
  | nil => simp [SyncMap.Delete]
  | cons a m ih =>
    obtain ⟨a1, a2⟩ := a
    unfold SyncMap.Delete at ih ⊢
    by_cases h1 : a1 = k
    · subst h1
      simp only [List.filter, bne_self_eq_false]
      rw [ih]
      by_cases h2 : k' = a1
      · simp [h2]
      · have : (k' == a1) = false := by simpa using h2
        simp [h2, List.lookup, this]
    · have hb : (a1 != k) = true := by simpa using h1
      simp only [List.filter, hb]
      by_cases h2 : k' = a1
      · subst h2; simp [List.lookup, h1]
      · have : (k' == a1) = false := by simpa using h2
        simp only [List.lookup, this]
        exact ih

theorem getElem?_lt_of_some {α : Type} (l : List α) (p : Nat) (c : α) (h : l[p]? = some c) :
    p < l.length := by
  by_contra hn
  rw [List.getElem?_eq_none (by omega)] at h
  cases h

theorem allocate_live (s : Map K V) (p : Nat) (c : counter K V)
    (hc : s.heap[p]? = some c) (hpos : 1 ≤ c.references) :
    allocate s p =
      .ok ({ s with heap := s.heap.set p { c with references := c.references + 1 } }, true) := by
  have : ¬ c.references ≤ 0 := by omega
  simp [allocate, hc, this]

theorem allocate_retired (s : Map K V) (p : Nat) (c : counter K V)
    (hc : s.heap[p]? = some c) (hpos : c.references ≤ 0) :
    allocate s p = .ok (s, false) := by
  simp [allocate, hc, hpos]

theorem Get_present (fuel : Nat) (s : Map K V) (k : K) (p : Nat) (c : counter K V)
    (hk : s.SyncMap.lookup k = some p) (hc : s.heap[p]? = some c) (hpos : 1 ≤ c.references) :
    Get fuel s k =
      .ok ({ s with heap := s.heap.set p { c with references := c.references + 1 } },
           { value := c.value, release := p, loaded := true, rounds := 0 }) := by
  have hlt := getElem?_lt_of_some _ _ _ hc
  simp [Get, SyncMap.Load, hk, allocate_live s p c hc hpos, Get.ret, hlt]

theorem Get_absent (fuel : Nat) (s : Map K V) (k : K) (hk : s.SyncMap.lookup k = none) :
    Get (fuel + 1) s k =
      .ok ({ SyncMap := s.SyncMap ++ [(k, s.heap.length)]
             heap := s.heap ++ [{ value := s.makeNew s.calls, references := 1, k := k }]
             makeNew := s.makeNew
             calls := s.calls + 1 },
           { value := s.makeNew s.calls, release := s.heap.length, loaded := false, rounds := 1 }) := by
  simp [Get, SyncMap.Load, hk, Get.slow, Get.loop, SyncMap.LoadOrStore, Get.ret]

theorem release_eq (s : Map K V) (p : Nat) (c : counter K V) (hc : s.heap[p]? = some c) :
    release s p =
      .ok { SyncMap := if c.references - 1 ≤ 0 then SyncMap.Delete s.SyncMap c.k else s.SyncMap
            heap := s.heap.set p { c with references := c.references - 1 }
            makeNew := s.makeNew
            calls := s.calls } := by
  by_cases h : c.references - 1 ≤ 0 <;> simp [release, hc, h]

/-! ### One step of an execution -/

theorem step_get_present (fuel : Nat) (e : Exec K V) (k : K) (p : Nat) (c : counter K V)
    (hk : e.m.SyncMap.lookup k = some p) (hc : e.m.heap[p]? = some c) (hpos : 1 ≤ c.references) :
    step fuel e (.get k) =
      .ok { m := { e.m with heap := e.m.heap.set p { c with references := c.references + 1 } }
            handles := e.handles ++
              [{ key := k, value := c.value, ptr := p, loaded := true, called := 0 }] } := by
  simp [step, Get_present fuel e.m k p c hk hc hpos]

theorem step_get_absent (fuel : Nat) (e : Exec K V) (k : K)
    (hk : e.m.SyncMap.lookup k = none) :
    step (fuel + 1) e (.get k) =
      .ok { m := { SyncMap := e.m.SyncMap ++ [(k, e.m.heap.length)]
                   heap := e.m.heap ++
                     [{ value := e.m.makeNew e.m.calls, references := 1, k := k }]
                   makeNew := e.m.makeNew
                   calls := e.m.calls + 1 }
            handles := e.handles ++
              [{ key := k, value := e.m.makeNew e.m.calls, ptr := e.m.heap.length,
                 loaded := false, called := 0 }] } := by
  simp [step, Get_absent fuel e.m k hk]

theorem step_call (fuel : Nat) (e : Exec K V) (i : Nat) (h : Handle K V) (c : counter K V)
    (hi : e.handles[i]? = some h) (hc : e.m.heap[h.ptr]? = some c) :
    step fuel e (.call i) =
      .ok { m := { SyncMap :=
                     if c.references - 1 ≤ 0 then SyncMap.Delete e.m.SyncMap c.k else e.m.SyncMap
                   heap := e.m.heap.set h.ptr { c with references := c.references - 1 }
                   makeNew := e.m.makeNew
                   calls := e.m.calls }
            handles := e.handles.set i { h with called := h.called + 1 } } := by
  simp [step, hi, release_eq e.m h.ptr c hc]

/-- The three ways a step can go in a state that satisfies the structural
invariant. -/
theorem step_cases (fuel : Nat) (e e' : Exec K V) (he : e.Inv) (a : Action K)
    (h : step (fuel + 1) e a = .ok e') :
    (∃ k p c, a = .get k ∧ e.m.SyncMap.lookup k = some p ∧ e.m.heap[p]? = some c ∧ c.k = k ∧
        1 ≤ c.references ∧
        e' = { m := { e.m with heap := e.m.heap.set p { c with references := c.references + 1 } }
               handles := e.handles ++
                 [{ key := k, value := c.value, ptr := p, loaded := true, called := 0 }] }) ∨
    (∃ k, a = .get k ∧ e.m.SyncMap.lookup k = none ∧
        e' = { m := { SyncMap := e.m.SyncMap ++ [(k, e.m.heap.length)]
                      heap := e.m.heap ++
                        [{ value := e.m.makeNew e.m.calls, references := 1, k := k }]
                      makeNew := e.m.makeNew
                      calls := e.m.calls + 1 }
               handles := e.handles ++
                 [{ key := k, value := e.m.makeNew e.m.calls, ptr := e.m.heap.length,
                    loaded := false, called := 0 }] }) ∨
    (∃ i hd c, a = .call i ∧ e.handles[i]? = some hd ∧ e.m.heap[hd.ptr]? = some c ∧
        c.k = hd.key ∧ c.value = hd.value ∧
        e' = { m := { SyncMap :=
                        if c.references - 1 ≤ 0 then SyncMap.Delete e.m.SyncMap c.k
                        else e.m.SyncMap
                      heap := e.m.heap.set hd.ptr { c with references := c.references - 1 }
                      makeNew := e.m.makeNew
                      calls := e.m.calls }
               handles := e.handles.set i { hd with called := hd.called + 1 } }) := by
  cases a with
  | get k =>
    cases hk : e.m.SyncMap.lookup k with
    | none =>
      right; left
      rw [step_get_absent fuel e k hk] at h
      exact ⟨k, rfl, hk, (Except.ok.inj h).symm⟩
    | some p =>
      left
      obtain ⟨c, hc, hck, hpos⟩ := he.map.stored k p hk
      rw [step_get_present (fuel + 1) e k p c hk hc hpos] at h
      exact ⟨k, p, c, rfl, hk, hc, hck, hpos, (Except.ok.inj h).symm⟩
  | call i =>
    right; right
    cases hi : e.handles[i]? with
    | none => simp [step, hi] at h
    | some hd =>
      obtain ⟨c, hc, hck, hcv⟩ := he.bound hd (List.mem_iff_getElem?.mpr ⟨i, hi⟩)
      rw [step_call (fuel + 1) e i hd c hi hc] at h
      exact ⟨i, hd, c, rfl, hi, hc, hck, hcv, (Except.ok.inj h).symm⟩

/-- Writing a counter that keeps `k` and `value` keeps every handle bound. -/
theorem bound_of_set (heap : List (counter K V)) (p : Nat) (c c1 : counter K V)
    (hc : heap[p]? = some c) (hk : c1.k = c.k) (hv : c1.value = c.value)
    (q : Nat) (d : counter K V) (hd : heap[q]? = some d) :
    ∃ d1, (heap.set p c1)[q]? = some d1 ∧ d1.k = d.k ∧ d1.value = d.value := by
  have hlt := getElem?_lt_of_some _ _ _ hc
  by_cases hpq : p = q
  · subst hpq
    rw [hc] at hd
    cases hd
    exact ⟨c1, List.getElem?_set_self hlt, hk, hv⟩
  · exact ⟨d, by rw [List.getElem?_set_ne hpq]; exact hd, rfl, rfl⟩

theorem step_Inv (fuel : Nat) (e e' : Exec K V) (he : e.Inv) (a : Action K)
    (h : step (fuel + 1) e a = .ok e') : e'.Inv := by
  rcases step_cases fuel e e' he a h with
    ⟨k, p, c, -, hk, hc, hck, hpos, rfl⟩ | ⟨k, -, hk, rfl⟩ | ⟨i, hd, c, -, hi, hc, hck, hcv, rfl⟩
  · -- Get on a stored key
    have hlt := getElem?_lt_of_some _ _ _ hc
    refine ⟨⟨?_⟩, ?_⟩
    · intro k' p' hk'
      dsimp only at hk' ⊢
      obtain ⟨c', hc', hck', hpos'⟩ := he.map.stored k' p' hk'
      by_cases hpp : p = p'
      · subst hpp
        rw [hc] at hc'
        cases hc'
        exact ⟨_, List.getElem?_set_self hlt, hck', by dsimp only; omega⟩
      · exact ⟨c', by rw [List.getElem?_set_ne hpp]; exact hc', hck', hpos'⟩
    · intro h' hmem
      dsimp only at hmem ⊢
      rcases List.mem_append.mp hmem with hold | hnew
      · obtain ⟨d, hd, hdk, hdv⟩ := he.bound h' hold
        obtain ⟨d1, h1, h2, h3⟩ := bound_of_set e.m.heap p c
          { c with references := c.references + 1 } hc rfl rfl h'.ptr d hd
        exact ⟨d1, h1, h2.trans hdk, h3.trans hdv⟩
      · rw [List.mem_singleton] at hnew
        subst hnew
        exact ⟨_, List.getElem?_set_self hlt, hck, rfl⟩
  · -- Get on an absent key
    refine ⟨⟨?_⟩, ?_⟩
    · intro k' p' hk'
      dsimp only at hk' ⊢
      rw [lookup_append_single] at hk'
      cases hold : e.m.SyncMap.lookup k' with
      | some q =>
        rw [hold] at hk'
        obtain rfl : q = p' := by simpa using hk'
        obtain ⟨c', hc', hck', hpos'⟩ := he.map.stored k' q hold
        have hlt := getElem?_lt_of_some _ _ _ hc'
        exact ⟨c', by rw [List.getElem?_append_left hlt]; exact hc', hck', hpos'⟩
      | none =>
        rw [hold] at hk'
        by_cases hkk : k' = k
        · subst hkk
          obtain rfl : e.m.heap.length = p' := by simpa using hk'
          exact ⟨{ value := e.m.makeNew e.m.calls, references := 1, k := k' }, by simp, rfl,
            le_refl _⟩
        · simp [hkk] at hk'
    · intro h' hmem
      dsimp only at hmem ⊢
      rcases List.mem_append.mp hmem with hold | hnew
      · obtain ⟨d, hd, hdk, hdv⟩ := he.bound h' hold
        have hlt := getElem?_lt_of_some _ _ _ hd
        exact ⟨d, by rw [List.getElem?_append_left hlt]; exact hd, hdk, hdv⟩
      · rw [List.mem_singleton] at hnew
        subst hnew
        exact ⟨{ value := e.m.makeNew e.m.calls, references := 1, k := k }, by simp, rfl, rfl⟩
  · -- a release handle is called
    have hlt := getElem?_lt_of_some _ _ _ hc
    refine ⟨⟨?_⟩, ?_⟩
    · intro k' p' hk'
      dsimp only at hk' ⊢
      by_cases hz : c.references - 1 ≤ 0
      · rw [if_pos hz, lookup_Delete] at hk'
        by_cases hkk : k' = c.k
        · simp [hkk] at hk'
        · rw [if_neg hkk] at hk'
          obtain ⟨c', hc', hck', hpos'⟩ := he.map.stored k' p' hk'
          have hpp : hd.ptr ≠ p' := by
            intro hpp
            rw [hpp, hc'] at hc
            cases hc
            exact hkk hck'.symm
          exact ⟨c', by rw [List.getElem?_set_ne hpp]; exact hc', hck', hpos'⟩
      · rw [if_neg hz] at hk'
        obtain ⟨c', hc', hck', hpos'⟩ := he.map.stored k' p' hk'
        by_cases hpp : hd.ptr = p'
        · rw [hpp] at hc hlt
          rw [hc] at hc'
          cases hc'
          exact ⟨{ c with references := c.references - 1 },
            by rw [hpp]; exact List.getElem?_set_self hlt, hck', by dsimp only; omega⟩
        · exact ⟨c', by rw [List.getElem?_set_ne hpp]; exact hc', hck', hpos'⟩
    · intro h' hmem
      dsimp only at hmem ⊢
      have hb : ∃ d, e.m.heap[h'.ptr]? = some d ∧ d.k = h'.key ∧ d.value = h'.value := by
        rcases List.mem_or_eq_of_mem_set hmem with hold | hnew
        · exact he.bound h' hold
        · subst hnew
          exact ⟨c, hc, hck, hcv⟩
      obtain ⟨d, hd', hdk, hdv⟩ := hb
      obtain ⟨d1, h1, h2, h3⟩ := bound_of_set e.m.heap hd.ptr c
        { c with references := c.references - 1 } hc rfl rfl h'.ptr d hd'
      exact ⟨d1, h1, h2.trans hdk, h3.trans hdv⟩

/-! ### The counting invariant -/

theorem holders_append (e : Exec K V) (m1 : Map K V) (h : Handle K V) (q : Nat) :
    holders { m := m1, handles := e.handles ++ [h] } q =
      holders e q + if h.ptr = q ∧ h.called = 0 then 1 else 0 := by
  unfold holders
  simp only [List.countP_append, List.countP_cons, List.countP_nil, Bool.and_eq_true,
    decide_eq_true_eq, zero_add]

theorem holders_set (e : Exec K V) (m1 : Map K V) (i : Nat) (h : Handle K V)
    (hi : e.handles[i]? = some h) (h0 : h.called = 0) (q : Nat) :
    holders e q =
      holders { m := m1, handles := e.handles.set i { h with called := h.called + 1 } } q +
        if h.ptr = q then 1 else 0 := by
  obtain ⟨hlt, hget⟩ := List.getElem?_eq_some.mp hi
  unfold holders
  dsimp only
  rw [List.countP_set _ _ _ _ hlt, hget]
  have hmem : h ∈ e.handles := List.mem_iff_getElem?.mpr ⟨i, hi⟩
  by_cases hq : h.ptr = q
  · have hpos : 0 < e.handles.countP (fun h => decide (h.ptr = q) && decide (h.called = 0)) :=
      List.countP_pos_iff.mpr ⟨h, hmem, by simp [hq, h0]⟩
    simp [hq, h0]
    omega
  · simp [hq]

theorem holders_eq_zero (e : Exec K V) (q : Nat) (hq : ∀ h ∈ e.handles, h.ptr ≠ q) :
    holders e q = 0 := by
  unfold holders
  rw [List.countP_eq_zero]
  intro h hmem
  simp [hq h hmem]

theorem step_Counted (fuel : Nat) (e e' : Exec K V) (he : e.Inv) (hcnt : e.Counted)
    (a : Action K) (h : step (fuel + 1) e a = .ok e') (ho : e'.once) : e'.Counted := by
  rcases step_cases fuel e e' he a h with
    ⟨k, p, c, -, hk, hc, hck, hpos, rfl⟩ | ⟨k, -, hk, rfl⟩ | ⟨i, hd, c, -, hi, hc, hck, hcv, rfl⟩
  · -- Get on a stored key
    have hlt := getElem?_lt_of_some _ _ _ hc
    refine ⟨?_, ?_⟩
    · intro q d hd
      dsimp only at hd
      rw [holders_append e]
      by_cases hpq : p = q
      · subst hpq
        rw [List.getElem?_set_self hlt] at hd
        cases hd
        have := hcnt.count p c hc
        simp
        omega
      · rw [List.getElem?_set_ne hpq] at hd
        have := hcnt.count q d hd
        simp [hpq]
        exact this
    · intro q d hd hdpos
      dsimp only at hd ⊢
      by_cases hpq : p = q
      · subst hpq
        rw [List.getElem?_set_self hlt] at hd
        cases hd
        dsimp only
        rw [hck]
        exact hk
      · rw [List.getElem?_set_ne hpq] at hd
        exact hcnt.live q d hd hdpos
  · -- Get on an absent key
    refine ⟨?_, ?_⟩
    · intro q d hd
      dsimp only at hd
      rw [holders_append e]
      by_cases hq : q < e.m.heap.length
      · rw [List.getElem?_append_left hq] at hd
        have := hcnt.count q d hd
        have hne : ¬ e.m.heap.length = q := by omega
        simp [hne]
        exact this
      · have hz : holders e q = 0 := by
          apply holders_eq_zero
          intro h' hmem heq
          obtain ⟨d', hd', -, -⟩ := he.bound h' hmem
          have := getElem?_lt_of_some _ _ _ hd'
          omega
        by_cases hql : q = e.m.heap.length
        · subst hql
          have hd2 : d = { value := e.m.makeNew e.m.calls, references := 1, k := k } := by
            simpa using hd.symm
          subst hd2
          rw [hz]
          simp
        · rw [List.getElem?_eq_none (by simp; omega)] at hd
          cases hd
    · intro q d hd hdpos
      dsimp only at hd ⊢
      rw [lookup_append_single]
      by_cases hq : q < e.m.heap.length
      · rw [List.getElem?_append_left hq] at hd
        rw [hcnt.live q d hd hdpos]
      · by_cases hql : q = e.m.heap.length
        · subst hql
          have hd2 : d = { value := e.m.makeNew e.m.calls, references := 1, k := k } := by
            simpa using hd.symm
          subst hd2
          dsimp only
          rw [hk]
          simp
        · rw [List.getElem?_eq_none (by simp; omega)] at hd
          cases hd
  · -- a release handle is called
    have hlt := getElem?_lt_of_some _ _ _ hc
    have h0 : hd.called = 0 := by
      have := ho { hd with called := hd.called + 1 }
        (List.mem_set _ _ (List.getElem?_eq_some.mp hi).1 _)
      dsimp only at this
      omega
    have hcc := hcnt.count hd.ptr c hc
    refine ⟨?_, ?_⟩
    · intro q d hdq
      dsimp only at hdq
      have hs := holders_set e
        { SyncMap := if c.references - 1 ≤ 0 then SyncMap.Delete e.m.SyncMap c.k else e.m.SyncMap
          heap := e.m.heap.set hd.ptr { c with references := c.references - 1 }
          makeNew := e.m.makeNew
          calls := e.m.calls } i hd hi h0 q
      by_cases hpq : hd.ptr = q
      · subst hpq
        rw [List.getElem?_set_self hlt] at hdq
        cases hdq
        rw [if_pos rfl] at hs
        dsimp only
        omega
      · rw [List.getElem?_set_ne hpq] at hdq
        rw [if_neg hpq] at hs
        have := hcnt.count q d hdq
        omega
    · intro q d hdq hdpos
      dsimp only at hdq ⊢
      have hpos1 : 1 ≤ c.references := by
        have hmem : hd ∈ e.handles := List.mem_iff_getElem?.mpr ⟨i, hi⟩
        have : 0 < holders e hd.ptr :=
          List.countP_pos_iff.mpr ⟨hd, hmem, by simp [h0]⟩
        omega
      have hlive := hcnt.live hd.ptr c hc hpos1
      by_cases hpq : hd.ptr = q
      · subst hpq
        rw [List.getElem?_set_self hlt] at hdq
        cases hdq
        dsimp only at hdpos ⊢
        have hz : ¬ c.references - 1 ≤ 0 := by omega
        rw [if_neg hz]
        exact hlive
      · rw [List.getElem?_set_ne hpq] at hdq
        have hl := hcnt.live q d hdq hdpos
        by_cases hz : c.references - 1 ≤ 0
        · rw [if_pos hz, lookup_Delete]
          have hkk : ¬ d.k = c.k := by
            intro hkk
            rw [hkk, hlive] at hl
            exact hpq (Option.some.inj hl)
          rw [if_neg hkk]
          exact hl
        · rw [if_neg hz]
          exact hl

/-! ### Whole executions -/

theorem step_once (fuel : Nat) (e e' : Exec K V) (he : e.Inv) (a : Action K)
    (h : step (fuel + 1) e a = .ok e') (ho : e'.once) : e.once := by
  rcases step_cases fuel e e' he a h with
    ⟨k, p, c, -, -, -, -, -, rfl⟩ | ⟨k, -, -, rfl⟩ | ⟨i, hd, c, -, hi, -, -, -, rfl⟩
  · intro h' hmem
    exact ho h' (List.mem_append_left _ hmem)
  · intro h' hmem
    exact ho h' (List.mem_append_left _ hmem)
  · intro h' hmem
    obtain ⟨j, hj⟩ := List.mem_iff_getElem?.mp hmem
    have hlt := (List.getElem?_eq_some.mp hi).1
    by_cases hij : i = j
    · subst hij
      rw [hi] at hj
      cases hj
      have := ho { hd with called := hd.called + 1 } (List.mem_set _ _ hlt _)
      dsimp only at this
      omega
    · apply ho h'
      apply List.mem_iff_getElem?.mpr
      exact ⟨j, by dsimp only; rw [List.getElem?_set_ne hij]; exact hj⟩

theorem init_Inv (newValue : Nat → V) : (Exec.init newValue : Exec K V).Inv := by
  refine ⟨⟨?_⟩, ?_⟩
  · intro k p hk
    simp [Exec.init, New] at hk
  · intro h hmem
    simp [Exec.init] at hmem

theorem init_Counted (newValue : Nat → V) : (Exec.init newValue : Exec K V).Counted := by
  refine ⟨?_, ?_⟩
  · intro p c hc
    simp [Exec.init, New] at hc
  · intro p c hc
    simp [Exec.init, New] at hc

theorem run_cons (fuel : Nat) (e e' : Exec K V) (a : Action K) (as : List (Action K))
    (h : run fuel e (a :: as) = .ok e') :
    ∃ e1, step fuel e a = .ok e1 ∧ run fuel e1 as = .ok e' := by
  cases hs : step fuel e a with
  | error f => simp [run, hs] at h
  | ok e1 => exact ⟨e1, rfl, by simpa [run, hs] using h⟩

theorem run_append (fuel : Nat) (e e' : Exec K V) (pre post : List (Action K))
    (h : run fuel e (pre ++ post) = .ok e') :
    ∃ e1, run fuel e pre = .ok e1 ∧ run fuel e1 post = .ok e' := by
  induction pre generalizing e with
  | nil => exact ⟨e, rfl, h⟩
  | cons a as ih =>
    obtain ⟨e1, hs, hr⟩ := run_cons fuel e e' a (as ++ post) h
    obtain ⟨e2, h1, h2⟩ := ih e1 hr
    exact ⟨e2, by simp [run, hs, h1], h2⟩

theorem run_Inv (fuel : Nat) (e e' : Exec K V) (he : e.Inv) (acts : List (Action K))
    (h : run (fuel + 1) e acts = .ok e') : e'.Inv := by
  induction acts generalizing e with
  | nil => cases h; exact he
  | cons a as ih =>
    obtain ⟨e1, hs, hr⟩ := run_cons _ e e' a as h
    exact ih e1 (step_Inv fuel e e1 he a hs) hr

theorem run_once (fuel : Nat) (e e' : Exec K V) (he : e.Inv) (acts : List (Action K))
    (h : run (fuel + 1) e acts = .ok e') (ho : e'.once) : e.once := by
  induction acts generalizing e with
  | nil => cases h; exact ho
  | cons a as ih =>
    obtain ⟨e1, hs, hr⟩ := run_cons _ e e' a as h
    exact step_once fuel e e1 he a hs (ih e1 (step_Inv fuel e e1 he a hs) hr)

theorem run_Counted (fuel : Nat) (e e' : Exec K V) (he : e.Inv) (hc : e.Counted)
    (acts : List (Action K)) (h : run (fuel + 1) e acts = .ok e') (ho : e'.once) :
    e'.Counted := by
  induction acts generalizing e with
  | nil => cases h; exact hc
  | cons a as ih =>
    obtain ⟨e1, hs, hr⟩ := run_cons _ e e' a as h
    have he1 := step_Inv fuel e e1 he a hs
    exact ih e1 he1 (step_Counted fuel e e1 he hc a hs (run_once fuel e1 e' he1 as hr ho)) hr

/-- An execution whose calls all name existing handles runs to the end: `Get`
never faults and never runs out of fuel. -/
theorem run_total (fuel : Nat) (e : Exec K V) (he : e.Inv) (acts : List (Action K))
    (hs : ScopedFrom e.handles.length acts) : ∃ e', run (fuel + 1) e acts = .ok e' := by
  induction acts generalizing e with
  | nil => exact ⟨e, rfl⟩
  | cons a as ih =>
    have key : ∃ e1, step (fuel + 1) e a = .ok e1 ∧ ScopedFrom e1.handles.length as := by
      cases a with
      | get k =>
        cases hk : e.m.SyncMap.lookup k with
        | none =>
          exact ⟨_, step_get_absent fuel e k hk, by simpa [ScopedFrom] using hs⟩
        | some p =>
          obtain ⟨c, hc, -, hpos⟩ := he.map.stored k p hk
          exact ⟨_, step_get_present _ e k p c hk hc hpos, by simpa [ScopedFrom] using hs⟩
      | call i =>
        obtain ⟨hi, hs'⟩ := hs
        have hget : e.handles[i]? = some e.handles[i] := List.getElem?_eq_getElem hi
        obtain ⟨c, hc, -, -⟩ := he.bound _ (List.mem_iff_getElem?.mpr ⟨i, hget⟩)
        exact ⟨_, step_call _ e i _ c hget hc, by simpa using hs'⟩
    obtain ⟨e1, h1, hs1⟩ := key
    obtain ⟨e', h'⟩ := ih e1 (step_Inv fuel e e1 he a h1) hs1
    exact ⟨e', by simp [run, h1, h']⟩

/-- An execution from the empty map whose calls all name existing handles runs
to the end, in a state that satisfies the structural invariant, and the
counting invariant too when no handle was called twice. -/
theorem reach (fuel : Nat) (newValue : Nat → V) (acts : List (Action K))
    (hs : ScopedFrom 0 acts) :
    ∃ e, run (fuel + 1) (Exec.init newValue) acts = .ok e ∧ e.Inv ∧ (e.once → e.Counted) := by
  obtain ⟨e, h⟩ := run_total fuel (Exec.init newValue) (init_Inv newValue) acts hs
  have he := run_Inv fuel _ e (init_Inv newValue) acts h
  exact ⟨e, h, he, fun ho =>
    run_Counted fuel _ e (init_Inv newValue) (init_Counted newValue) acts h ho⟩

/-! ### What the invariants say about one key -/

theorem holders_pos_of_mem (e : Exec K V) (h : Handle K V) (hmem : h ∈ e.handles)
    (h0 : h.called = 0) : 0 < holders e h.ptr :=
  List.countP_pos_iff.mpr ⟨h, hmem, by simp [h0]⟩

/-- An uncalled handle is bound to the counter stored under its key. -/
theorem uncalled_stored (e : Exec K V) (he : e.Inv) (hc : e.Counted) (h : Handle K V)
    (hmem : h ∈ e.handles) (h0 : h.called = 0) : e.m.SyncMap.lookup h.key = some h.ptr := by
  obtain ⟨d, hd, hdk, -⟩ := he.bound h hmem
  have hcount := hc.count h.ptr d hd
  have hpos := holders_pos_of_mem e h hmem h0
  have := hc.live h.ptr d hd (by omega)
  rw [hdk] at this
  exact this

theorem outstanding_eq_holders (e : Exec K V) (he : e.Inv) (hc : e.Counted) (k : K) (p : Nat)
    (hk : e.m.SyncMap.lookup k = some p) : outstanding e k = holders e p := by
  unfold outstanding holders
  apply List.countP_congr
  intro h hmem
  simp only [Bool.and_eq_true, decide_eq_true_eq]
  constructor
  · rintro ⟨hkey, h0⟩
    have := uncalled_stored e he hc h hmem h0
    rw [hkey, hk] at this
    exact ⟨(Option.some.inj this).symm, h0⟩
  · rintro ⟨hptr, h0⟩
    have := uncalled_stored e he hc h hmem h0
    obtain ⟨c, hc1, hck, -⟩ := he.map.stored k p hk
    obtain ⟨d, hd, hdk, -⟩ := he.bound h hmem
    rw [hptr, hc1] at hd
    cases hd
    exact ⟨hdk.symm.trans hck, h0⟩

theorem outstanding_absent (e : Exec K V) (he : e.Inv) (hc : e.Counted) (k : K)
    (hk : e.m.SyncMap.lookup k = none) : outstanding e k = 0 := by
  unfold outstanding
  rw [List.countP_eq_zero]
  intro h hmem
  simp only [Bool.and_eq_true, decide_eq_true_eq, not_and]
  intro hkey h0
  have := uncalled_stored e he hc h hmem h0
  rw [hkey, hk] at this
  cases this

theorem lookup_nil_of_forall (m : List (K × Nat)) (h : ∀ k, m.lookup k = none) : m = [] := by
  cases m with
  | nil => rfl
  | cons a m =>
    have := h a.1
    simp [List.lookup] at this

/-! ### Deleting from the store -/

theorem Delete_eq_self (m : List (K × Nat)) (k : K) (h : m.lookup k = none) :
    SyncMap.Delete m k = m := by
  induction m with
  | nil => rfl
  | cons a m ih =>
    obtain ⟨a1, a2⟩ := a
    by_cases hk : k = a1
    · subst hk
      simp [List.lookup] at h
    · have hb : (k == a1) = false := by simpa using hk
      simp only [List.lookup, hb] at h
      have hne : (a1 != k) = true := by simpa using Ne.symm hk
      unfold SyncMap.Delete at ih ⊢
      simp only [List.filter, hne]
      rw [ih h]

theorem Delete_append_single (m : List (K × Nat)) (k : K) (v : Nat) :
    SyncMap.Delete (m ++ [(k, v)]) k = SyncMap.Delete m k := by
  simp [SyncMap.Delete, List.filter_append]

/-! ### The keys of the store are distinct -/

theorem not_mem_keys_of_lookup_none (m : List (K × Nat)) (k : K) (h : m.lookup k = none) :
    k ∉ m.map Prod.fst := by
  induction m with
  | nil => simp
  | cons a m ih =>
    obtain ⟨a1, a2⟩ := a
    by_cases hk : k = a1
    · subst hk
      simp [List.lookup] at h
    · have hb : (k == a1) = false := by simpa using hk
      simp only [List.lookup, hb] at h
      simp only [List.map_cons, List.mem_cons, not_or]
      exact ⟨hk, ih h⟩

theorem lookup_of_mem_nodup (m : List (K × Nat)) (k : K) (p : Nat)
    (hn : (m.map Prod.fst).Nodup) (hmem : (k, p) ∈ m) : m.lookup k = some p := by
  induction m with
  | nil => cases hmem
  | cons a m ih =>
    obtain ⟨a1, a2⟩ := a
    rw [List.map_cons, List.nodup_cons] at hn
    rcases List.mem_cons.mp hmem with heq | htail
    · cases heq
      simp [List.lookup]
    · have hne : k ≠ a1 := by
        intro hk
        subst hk
        exact hn.1 (List.mem_map.mpr ⟨(k, p), htail, rfl⟩)
      have hb : (k == a1) = false := by simpa using hne
      simp only [List.lookup, hb]
      exact ih hn.2 htail

theorem step_nodup (fuel : Nat) (e e' : Exec K V) (he : e.Inv) (a : Action K)
    (h : step (fuel + 1) e a = .ok e') (hn : (e.m.SyncMap.map Prod.fst).Nodup) :
    (e'.m.SyncMap.map Prod.fst).Nodup := by
  rcases step_cases fuel e e' he a h with
    ⟨k, p, c, -, -, -, -, -, rfl⟩ | ⟨k, -, hk, rfl⟩ | ⟨i, hd, c, -, -, -, -, -, rfl⟩
  · exact hn
  · dsimp only
    rw [List.map_append, List.nodup_append]
    refine ⟨hn, by simp, ?_⟩
    intro x hx hy
    simp only [List.map_cons, List.map_nil, List.mem_singleton] at hy
    subst hy
    exact not_mem_keys_of_lookup_none _ _ hk hx
  · dsimp only
    by_cases hz : c.references - 1 ≤ 0
    · rw [if_pos hz]
      exact hn.sublist ((List.filter_sublist _).map _)
    · rw [if_neg hz]
      exact hn

theorem run_nodup (fuel : Nat) (e e' : Exec K V) (he : e.Inv) (acts : List (Action K))
    (h : run (fuel + 1) e acts = .ok e') (hn : (e.m.SyncMap.map Prod.fst).Nodup) :
    (e'.m.SyncMap.map Prod.fst).Nodup := by
  induction acts generalizing e with
  | nil => cases h; exact hn
  | cons a as ih =>
    obtain ⟨e1, hs, hr⟩ := run_cons _ e e' a as h
    exact ih e1 (step_Inv fuel e e1 he a hs) hr (step_nodup fuel e e1 he a hs hn)

/-! ### Other keys -/

theorem sameAt_trans (s s1 s2 : Map K V) (k' : K) (h1 : sameAt s s1 k') (h2 : sameAt s1 s2 k') :
    sameAt s s2 k' := by
  refine ⟨h2.1.trans h1.1, ?_⟩
  intro p hp
  rw [h2.2 p (h1.1.trans hp), h1.2 p hp]

theorem release_sameAt (s : Map K V) (p : Nat) (c : counter K V) (k' : K)
    (hc : s.heap[p]? = some c) (hne : k' ≠ c.k)
    (hown : ∀ q, s.SyncMap.lookup k' = some q → ∃ d, s.heap[q]? = some d ∧ d.k = k') :
    ∃ s2, release s p = .ok s2 ∧ sameAt s s2 k' := by
  refine ⟨_, release_eq s p c hc, ?_, ?_⟩
  · unfold SyncMap.Load
    dsimp only
    by_cases hz : c.references - 1 ≤ 0
    · rw [if_pos hz, lookup_Delete, if_neg hne]
    · rw [if_neg hz]
  · intro q hq
    obtain ⟨d, hd, hdk⟩ := hown q hq
    have hpq : p ≠ q := by
      intro hpq
      rw [hpq, hd] at hc
      cases hc
      exact hne hdk.symm
    exact List.getElem?_set_ne hpq

theorem Get_sameAt (fuel : Nat) (s : Map K V) (hs : s.Inv) (k k' : K) (hne : k' ≠ k) :
    ∃ s1 r c, Get (fuel + 1) s k = .ok (s1, r) ∧ sameAt s s1 k' ∧
      s1.heap[r.release]? = some c ∧ c.k = k := by
  cases hk : s.SyncMap.lookup k with
  | none =>
    refine ⟨_, _, { value := s.makeNew s.calls, references := 1, k := k },
      Get_absent fuel s k hk, ⟨?_, ?_⟩, by simp, rfl⟩
    · unfold SyncMap.Load
      dsimp only
      rw [lookup_append_single]
      cases s.SyncMap.lookup k' with
      | none => simp [hne]
      | some q => rfl
    · intro q hq
      obtain ⟨d, hd, -, -⟩ := hs.stored k' q hq
      exact List.getElem?_append_left (getElem?_lt_of_some _ _ _ hd)
  | some p =>
    obtain ⟨c, hcp, hck, hpos⟩ := hs.stored k p hk
    refine ⟨_, _, { c with references := c.references + 1 },
      Get_present (fuel + 1) s k p c hk hcp hpos, ⟨rfl, ?_⟩,
      List.getElem?_set_self (getElem?_lt_of_some _ _ _ hcp), hck⟩
    intro q hq
    obtain ⟨d, hd, hdk, -⟩ := hs.stored k' q hq
    have hpq : p ≠ q := by
      intro hpq
      rw [hpq, hd] at hcp
      cases hcp
      exact hne (hdk.symm.trans hck)
    exact List.getElem?_set_ne hpq

/-! ### Range -/

theorem Range_loop {σ : Type} (s : Map K V) (f : σ → K → V → σ × Bool) (m : List (K × Nat))
    (hv : ∀ e ∈ m, e.2 < s.heap.length) (st0 : σ) (log0 : List (Visit K V)) :
    ∃ st1 ext, SyncMap.Range (Range.callback s f) m (st0, log0) = .ok (st1, log0 ++ ext) ∧
      (∃ rest, ext.map (fun v => (v.key, v.value)) ++ rest = entriesOf s m) ∧
      (∀ i v, ext[i]? = some v →
        v.result = (f (visitorState f st0 (ext.take i)) v.key v.value).2) ∧
      st1 = visitorState f st0 ext ∧
      (∀ i v, ext[i]? = some v → i + 1 < ext.length → v.result = true) ∧
      ((∀ v ∈ ext, v.result = true) → ext.map (fun v => (v.key, v.value)) = entriesOf s m) := by
  induction m generalizing st0 log0 with
  | nil =>
    exact ⟨st0, [], by simp [SyncMap.Range], ⟨[], rfl⟩, by simp, rfl, by simp,
      fun _ => rfl⟩
  | cons a m ih =>
    obtain ⟨k, p⟩ := a
    have hp : p < s.heap.length := hv (k, p) (List.mem_cons_self _ _)
    have hc : s.heap[p]? = some s.heap[p] := List.getElem?_eq_getElem hp
    have hent : entriesOf s ((k, p) :: m) = (k, s.heap[p].value) :: entriesOf s m := by
      simp [entriesOf, List.filterMap_cons, hc]
    cases hb : (f st0 k s.heap[p].value).2 with
    | false =>
      refine ⟨(f st0 k s.heap[p].value).1,
        [{ key := k, value := s.heap[p].value, result := false }], ?_, ?_, ?_, ?_, ?_, ?_⟩
      · simp [SyncMap.Range, Range.callback, hc, hb]
      · exact ⟨entriesOf s m, by rw [hent]; rfl⟩
      · intro i v hi
        cases i with
        | zero =>
          simp only [List.getElem?_cons_zero, Option.some.injEq] at hi
          subst hi
          simp [visitorState, hb]
        | succ i => simp at hi
      · simp [visitorState]
      · intro i v hi hlt
        simp at hlt
      · intro hall
        have := hall _ (List.mem_singleton.mpr rfl)
        simp at this
    | true =>
      obtain ⟨st1, ext, hrun, ⟨rest, hrest⟩, hgen, hst, hmid, hfull⟩ :=
        ih (fun e he => hv e (List.mem_cons_of_mem _ he)) (f st0 k s.heap[p].value).1
          (log0 ++ [{ key := k, value := s.heap[p].value, result := true }])
      refine ⟨st1, { key := k, value := s.heap[p].value, result := true } :: ext,
        ?_, ?_, ?_, ?_, ?_, ?_⟩
      · simp only [SyncMap.Range, Range.callback, hc, hb]
        rw [hrun]
        simp
      · exact ⟨rest, by rw [hent, ← hrest]; rfl⟩
      · intro i v hi
        cases i with
        | zero =>
          simp only [List.getElem?_cons_zero, Option.some.injEq] at hi
          subst hi
          simp [visitorState, hb]
        | succ i =>
          simp only [List.getElem?_cons_succ] at hi
          have := hgen i v hi
          simpa [visitorState] using this
      · rw [hst]
        simp [visitorState]
      · intro i v hi hlt
        cases i with
        | zero =>
          simp only [List.getElem?_cons_zero, Option.some.injEq] at hi
          subst hi
          rfl
        | succ i =>
          simp only [List.getElem?_cons_succ] at hi
          exact hmid i v hi (by simpa using hlt)
      · intro hall
        rw [hent, List.map_cons, hfull (fun v hv' => hall v (List.mem_cons_of_mem _ hv'))]

/-! ## Interleavings: the invariant -/

/-! ### Counting threads and handles -/

theorem countP_set_add {α : Type} (q : α → Bool) (l : List α) (t : Nat) (old new : α)
    (h : l[t]? = some old) :
    (l.set t new).countP q + (if q old = true then 1 else 0) =
      l.countP q + (if q new = true then 1 else 0) := by
  obtain ⟨hlt, hget⟩ := List.getElem?_eq_some.mp h
  rw [List.countP_set _ _ _ _ hlt, hget]
  have hmem : old ∈ l := List.mem_iff_getElem?.mpr ⟨t, h⟩
  by_cases hq : q old = true
  · have hpos : 0 < l.countP q := List.countP_pos_iff.mpr ⟨old, hmem, hq⟩
    rw [if_pos hq]
    omega
  · rw [if_neg hq]
    omega

theorem count_set (c : Conc K V) (m1 : Map K V) (hs1 : List (Returned K V)) (t : Nat)
    (old new : Pc K) (ht : c.threads[t]? = some old) (f : Pc K → Nat → Bool) (p : Nat) :
    Conc.count { m := m1, threads := c.threads.set t new, handles := hs1 } f p +
        (if f old p = true then 1 else 0) =
      c.count f p + (if f new p = true then 1 else 0) :=
  countP_set_add (fun pc => f pc p) c.threads t old new ht

theorem count_append (c : Conc K V) (m1 : Map K V) (hs1 : List (Returned K V))
    (new : Pc K) (f : Pc K → Nat → Bool) (p : Nat) :
    Conc.count { m := m1, threads := c.threads ++ [new], handles := hs1 } f p =
      c.count f p + (if f new p = true then 1 else 0) := by
  simp [Conc.count, List.countP_append, List.countP_cons]

theorem count_same (c : Conc K V) (m1 : Map K V) (hs1 : List (Returned K V))
    (f : Pc K → Nat → Bool) (p : Nat) :
    Conc.count { m := m1, threads := c.threads, handles := hs1 } f p = c.count f p := rfl

theorem handed_same (c : Conc K V) (m1 : Map K V) (ts1 : List (Pc K)) (p : Nat) :
    Conc.handed { m := m1, threads := ts1, handles := c.handles } p = c.handed p := rfl

theorem handed_append (c : Conc K V) (m1 : Map K V) (ts1 : List (Pc K)) (h : Returned K V)
    (p : Nat) :
    Conc.handed { m := m1, threads := ts1, handles := c.handles ++ [h] } p =
      c.handed p + (if h.ptr = p ∧ h.called = 0 then 1 else 0) := by
  simp [Conc.handed, List.countP_append, List.countP_cons]

theorem handed_set (c : Conc K V) (m1 : Map K V) (ts1 : List (Pc K)) (i : Nat)
    (h : Returned K V) (hi : c.handles[i]? = some h) (h0 : h.called = 0) (p : Nat) :
    Conc.handed { m := m1, threads := ts1,
                  handles := c.handles.set i { h with called := h.called + 1 } } p +
        (if h.ptr = p then 1 else 0) = c.handed p := by
  have := countP_set_add (fun (x : Returned K V) => decide (x.ptr = p) && decide (x.called = 0))
    c.handles i h { h with called := h.called + 1 } hi
  unfold Conc.handed
  simp only [Bool.and_eq_true, decide_eq_true_eq, h0, and_true, Nat.add_eq_zero, one_ne_zero,
    and_false, if_false, add_zero] at this ⊢
  exact this

/-- A counter that some thread refers to is allocated. -/
theorem count_eq_zero_of_keyed (c : Conc K V) (heap : List (counter K V))
    (hk : ∀ pc ∈ c.threads, Pc.keyed heap pc) (p : Nat) (hp : heap.length ≤ p) :
    c.count Pc.holds p = 0 ∧ c.count Pc.reads p = 0 ∧ c.count Pc.fresh p = 0 ∧
      c.count Pc.locks p = 0 := by
  have hnone : ∀ d : counter K V, heap[p]? ≠ some d := by
    intro d hd
    have := getElem?_lt_of_some _ _ _ hd
    omega
  refine ⟨?_, ?_, ?_, ?_⟩ <;>
  · unfold Conc.count
    rw [List.countP_eq_zero]
    intro pc hmem
    have hkey := hk pc hmem
    cases pc <;> simp only [Pc.holds, Pc.reads, Pc.fresh, Pc.locks, Pc.keyed, decide_eq_true_eq,
      Bool.false_eq_true, not_false_eq_true] at hkey ⊢
    all_goals
      intro heq
      subst heq
      first
        | exact hnone _ hkey.choose_spec.1
        | exact hnone _ hkey.choose_spec
        | exact hnone _ hkey.1.choose_spec.1
        | exact hnone _ hkey.2.choose_spec.1

/-! ### Frame lemmas for the invariant of the interleavings -/

theorem Published_frame (c c1 : Conc K V) (p : Nat) (d : counter K V)
    (hHR : c1.handed p + c1.count Pc.holds p = c.handed p + c.count Pc.holds p)
    (hF : c1.count Pc.fresh p ≤ c.count Pc.fresh p)
    (hL : c1.count Pc.locks p = c.count Pc.locks p)
    (hfwd : c.m.SyncMap.lookup d.k = some p → c1.m.SyncMap.lookup d.k = some p)
    (h : c.Published p d) : c1.Published p d := by
  obtain ⟨h1, h2, h3, h4, h5⟩ := h
  refine ⟨by rw [hHR]; exact h1, by omega, by rw [hL]; exact h3, ?_, ?_⟩
  · rw [hL]
    exact h4
  · rw [hL]
    exact fun hx => hfwd (h5 hx)

theorem Private_frame (c c1 : Conc K V) (p : Nat) (d : counter K V)
    (hH : c1.handed p = c.handed p) (hR : c1.count Pc.holds p = c.count Pc.holds p)
    (hU : c1.count Pc.reads p ≤ c.count Pc.reads p)
    (hF : c1.count Pc.fresh p ≤ c.count Pc.fresh p)
    (hL : c1.count Pc.locks p = c.count Pc.locks p)
    (hbwd : ∀ k, c1.m.SyncMap.lookup k = some p → c.m.SyncMap.lookup k = some p)
    (h : c.Private p d) : c1.Private p d := by
  obtain ⟨h1, h2, h3, h4, h5, h6, h7⟩ := h
  exact ⟨h1, by rw [hH]; exact h2, by rw [hR]; exact h3, by omega,
    by omega, by rw [hL]; exact h6, fun k hk => h7 k (hbwd k hk)⟩

theorem entry_frame (c c1 : Conc K V) (p : Nat) (d : counter K V)
    (hH : c1.handed p = c.handed p) (hR : c1.count Pc.holds p = c.count Pc.holds p)
    (hU : c1.count Pc.reads p ≤ c.count Pc.reads p)
    (hF : c1.count Pc.fresh p ≤ c.count Pc.fresh p)
    (hL : c1.count Pc.locks p = c.count Pc.locks p)
    (hfwd : c.m.SyncMap.lookup d.k = some p → c1.m.SyncMap.lookup d.k = some p)
    (hbwd : ∀ k, c1.m.SyncMap.lookup k = some p → c.m.SyncMap.lookup k = some p)
    (h : c.Published p d ∨ c.Private p d) : c1.Published p d ∨ c1.Private p d := by
  rcases h with h | h
  · exact Or.inl (Published_frame c c1 p d (by rw [hH, hR]) hF hL hfwd h)
  · exact Or.inr (Private_frame c c1 p d hH hR hU hF hL hbwd h)

theorem keyed_mono (heap heap1 : List (counter K V))
    (hmono : ∀ (p : Nat) (d : counter K V), heap[p]? = some d →
      ∃ d1, heap1[p]? = some d1 ∧ d1.k = d.k)
    (pc : Pc K) (h : Pc.keyed heap pc) : Pc.keyed heap1 pc := by
  have key : ∀ (k : K) (v : Nat), (∃ d, heap[v]? = some d ∧ d.k = k) →
      ∃ d, heap1[v]? = some d ∧ d.k = k := by
    rintro k v ⟨d, hd, hk⟩
    obtain ⟨d1, hd1, hk1⟩ := hmono v d hd
    exact ⟨d1, hd1, hk1.trans hk⟩
  have key2 : ∀ (v : Nat), (∃ d, heap[v]? = some d) → ∃ d, heap1[v]? = some d := by
    rintro v ⟨d, hd⟩
    obtain ⟨d1, hd1, -⟩ := hmono v d hd
    exact ⟨d1, hd1⟩
  cases pc with
  | getLoad k => trivial
  | getAllocate k v => exact key k v h
  | getConstruct k => trivial
  | getLoadOrStore k n r m => exact key k n h
  | getRetry k n v r m => exact ⟨key k n h.1, key k v h.2⟩
  | getReturn k v l r m => exact key k v h
  | releaseLock v => exact key2 v h
  | releaseDelete v => exact key2 v h
  | done => trivial

/-- Writing a counter that keeps the key: the pointers stay allocated with
their keys. -/
theorem heap_set_mono (heap : List (counter K V)) (v : Nat) (d d1 : counter K V)
    (hd : heap[v]? = some d) (hk : d1.k = d.k) :
    ∀ (p : Nat) (e : counter K V), heap[p]? = some e →
      ∃ e1, (heap.set v d1)[p]? = some e1 ∧ e1.k = e.k := by
  intro p e he
  have hlt := getElem?_lt_of_some _ _ _ hd
  by_cases hvp : v = p
  · subst hvp
    rw [hd] at he
    cases he
    exact ⟨d1, List.getElem?_set_self hlt, hk⟩
  · exact ⟨e, by rw [List.getElem?_set_ne hvp]; exact he, rfl⟩

theorem heap_append_mono (heap : List (counter K V)) (d1 : counter K V) :
    ∀ (p : Nat) (e : counter K V), heap[p]? = some e →
      ∃ e1, (heap ++ [d1])[p]? = some e1 ∧ e1.k = e.k := by
  intro p e he
  exact ⟨e, by rw [List.getElem?_append_left (getElem?_lt_of_some _ _ _ he)]; exact he, rfl⟩

/-- A stored counter is published. -/
theorem Published_of_stored (c : Conc K V) (hi : c.Inv) (k : K) (p : Nat) (d : counter K V)
    (hk : c.m.SyncMap.lookup k = some p) (hd : c.m.heap[p]? = some d) : c.Published p d := by
  rcases hi.entry p d hd with h | h
  · exact h
  · exact absurd hk (h.2.2.2.2.2.2 k)

/-- A counter that a thread holds, reads or locks, or that a handle is bound to,
is published. -/
theorem Published_of_pos (c : Conc K V) (hi : c.Inv) (p : Nat) (d : counter K V)
    (hd : c.m.heap[p]? = some d)
    (hpos : 1 ≤ c.handed p ∨ 1 ≤ c.count Pc.holds p ∨ 1 ≤ c.count Pc.reads p ∨
      1 ≤ c.count Pc.locks p) : c.Published p d := by
  rcases hi.entry p d hd with h | h
  · exact h
  · obtain ⟨-, h2, h3, h4, -, h6, -⟩ := h
    omega

theorem count_pos_of_mem (c : Conc K V) (f : Pc K → Nat → Bool) (p : Nat) (pc : Pc K)
    (hmem : pc ∈ c.threads) (hf : f pc p = true) : 1 ≤ c.count f p :=
  List.countP_pos_iff.mpr ⟨pc, hmem, hf⟩

theorem mem_of_getElem? {α : Type} (l : List α) (t : Nat) (a : α) (h : l[t]? = some a) : a ∈ l :=
  List.mem_iff_getElem?.mpr ⟨t, h⟩

theorem count_set_eq (c : Conc K V) (m1 : Map K V) (hs1 : List (Returned K V)) (t : Nat)
    (old new : Pc K) (ht : c.threads[t]? = some old) (f : Pc K → Nat → Bool) (p : Nat)
    (h : f new p = f old p) :
    Conc.count { m := m1, threads := c.threads.set t new, handles := hs1 } f p = c.count f p := by
  have e := count_set c m1 hs1 t old new ht f p
  rw [h] at e
  omega

theorem count_set_le (c : Conc K V) (m1 : Map K V) (hs1 : List (Returned K V)) (t : Nat)
    (old new : Pc K) (ht : c.threads[t]? = some old) (f : Pc K → Nat → Bool) (p : Nat)
    (h : f new p = true → f old p = true) :
    Conc.count { m := m1, threads := c.threads.set t new, handles := hs1 } f p ≤ c.count f p := by
  have e := count_set c m1 hs1 t old new ht f p
  by_cases hn : f new p = true
  · rw [if_pos hn, if_pos (h hn)] at e
    omega
  · rw [if_neg hn] at e
    omega

theorem forall_mem_set {α : Type} (P : α → Prop) (l : List α) (t : Nat) (new : α)
    (hold : ∀ x ∈ l, P x) (hnew : P new) : ∀ x ∈ l.set t new, P x := by
  intro x hx
  rcases List.mem_or_eq_of_mem_set hx with h | h
  · exact hold x h
  · rw [h]
    exact hnew

/-! ### Each atomic step keeps the invariant -/

/-- A step that changes only the position of thread `t`, which keeps what it
holds and locks, forgets pointers, or starts to read a published pointer. -/
theorem inv_thread_only (c : Conc K V) (hi : c.Inv) (t : Nat) (old new : Pc K)
    (ht : c.threads[t]? = some old)
    (hholds : ∀ p, Pc.holds new p = Pc.holds old p)
    (hlocks : ∀ p, Pc.locks new p = Pc.locks old p)
    (hfresh : ∀ p, Pc.fresh new p = true → Pc.fresh old p = true)
    (hreads : ∀ p, Pc.reads new p = true →
      Pc.reads old p = true ∨ ∀ d, c.m.heap[p]? = some d → c.Published p d)
    (hkeyed : new.keyed c.m.heap) (htally : new.tally) :
    Conc.Inv { c with threads := c.threads.set t new } := by
  refine ⟨?_, forall_mem_set _ _ _ _ hi.threads hkeyed, hi.handles, hi.stored,
    forall_mem_set _ _ _ _ hi.tally htally, hi.tallied⟩
  intro p d hd
  have eR := count_set_eq c c.m c.handles t old new ht Pc.holds p (hholds p)
  have eL := count_set_eq c c.m c.handles t old new ht Pc.locks p (hlocks p)
  have eF := count_set_le c c.m c.handles t old new ht Pc.fresh p (hfresh p)
  by_cases hr : Pc.reads new p = true
  · rcases hreads p hr with h | h
    · exact entry_frame c _ p d rfl eR
        (count_set_le c c.m c.handles t old new ht Pc.reads p (fun _ => h)) eF eL
        (fun h => h) (fun _ h => h) (hi.entry p d hd)
    · exact Or.inl (Published_frame c _ p d (by rw [eR]; rfl) eF eL (fun h => h) (h d hd))
  · exact entry_frame c _ p d rfl eR
      (count_set_le c c.m c.handles t old new ht Pc.reads p (fun h => absurd h hr)) eF eL
      (fun h => h) (fun _ h => h) (hi.entry p d hd)

theorem inv_getLoad (c c1 : Conc K V) (hi : c.Inv) (t : Nat) (k : K)
    (ht : c.threads[t]? = some (.getLoad k)) (h : c.stepThread t (.getLoad k) = .ok c1) :
    c1.Inv := by
  cases hk : c.m.SyncMap.lookup k with
  | none =>
    simp only [Conc.stepThread, SyncMap.Load, hk] at h
    cases h
    exact inv_thread_only c hi t _ _ ht (fun _ => rfl) (fun _ => rfl) (fun _ h => h)
      (fun _ h => Or.inl h) trivial trivial
  | some v =>
    simp only [Conc.stepThread, SyncMap.Load, hk] at h
    cases h
    obtain ⟨dv, hdv, hdk⟩ := hi.stored k v hk
    refine inv_thread_only c hi t _ _ ht (fun _ => rfl) (fun _ => rfl) (fun _ h => h)
      ?_ ⟨dv, hdv, hdk⟩ trivial
    intro p hp
    right
    intro d hd
    have hvp : v = p := by simpa [Pc.reads] using hp
    subst hvp
    exact Published_of_stored c hi k v d hk hd

theorem locks_zero_of_unlocked (c : Conc K V) (v : Nat) (h : c.locked v = false) :
    c.count Pc.locks v = 0 := by
  simp only [Conc.locked, decide_eq_false_iff_not] at h
  omega

/-- The invariant components that only need the heap to keep its pointers,
keys and values, when a counter is overwritten. -/
theorem handles_heap_set (c : Conc K V) (hi : c.Inv) (v : Nat) (dv d1 : counter K V)
    (hdv : c.m.heap[v]? = some dv) (hk : d1.k = dv.k) (hv : d1.value = dv.value) :
    ∀ h ∈ c.handles, h.called = 0 →
      ∃ d, (c.m.heap.set v d1)[h.ptr]? = some d ∧ d.k = h.key ∧ d.value = h.value := by
  intro h hmem h0
  obtain ⟨d, hd, hdk, hdval⟩ := hi.handles h hmem h0
  obtain ⟨e, he, hek, hev⟩ := bound_of_set c.m.heap v dv d1 hdv hk hv h.ptr d hd
  exact ⟨e, he, hek.trans hdk, hev.trans hdval⟩

theorem stored_heap_mono (c : Conc K V) (hi : c.Inv) (heap1 : List (counter K V))
    (hmono : ∀ (p : Nat) (d : counter K V), c.m.heap[p]? = some d →
      ∃ d1, heap1[p]? = some d1 ∧ d1.k = d.k) :
    ∀ k p, c.m.SyncMap.lookup k = some p → ∃ d, heap1[p]? = some d ∧ d.k = k := by
  intro k p hk
  obtain ⟨d, hd, hdk⟩ := hi.stored k p hk
  obtain ⟨d1, hd1, hk1⟩ := hmono p d hd
  exact ⟨d1, hd1, hk1.trans hdk⟩

/-- A successful `allocate` on `v` by thread `t`, which goes on to return `v`. -/
theorem inv_allocated (c : Conc K V) (hi : c.Inv) (t : Nat) (old : Pc K) (k : K) (v : Nat)
    (dv : counter K V) (r m : Nat)
    (ht : c.threads[t]? = some old) (hdv : c.m.heap[v]? = some dv) (hk : dv.k = k)
    (hpos : 1 ≤ dv.references) (hunl : c.locked v = false)
    (hreads : Pc.reads old v = true)
    (hholds : ∀ p, Pc.holds old p = false) (hlocks : ∀ p, Pc.locks old p = false)
    (htally : (Pc.getReturn k v true r m).tally) :
    Conc.Inv { c with
               m := { c.m with
                      heap := c.m.heap.set v { dv with references := dv.references + 1 } }
               threads := c.threads.set t (.getReturn k v true r m) } := by
  have hlt := getElem?_lt_of_some _ _ _ hdv
  have hmono := heap_set_mono c.m.heap v dv { dv with references := dv.references + 1 } hdv rfl
  have hpub := Published_of_pos c hi v dv hdv
    (Or.inr (Or.inr (Or.inl (count_pos_of_mem c Pc.reads v old (mem_of_getElem? _ _ _ ht) hreads))))
  refine ⟨?_, forall_mem_set _ _ _ _ (fun pc hpc => keyed_mono _ _ hmono pc (hi.threads pc hpc))
      ⟨_, List.getElem?_set_self hlt, hk⟩,
    handles_heap_set c hi v dv _ hdv rfl rfl, stored_heap_mono c hi _ hmono,
    forall_mem_set _ _ _ _ hi.tally htally, hi.tallied⟩
  intro p d hd
  dsimp only at hd
  by_cases hvp : v = p
  · subst hvp
    rw [List.getElem?_set_self hlt] at hd
    cases hd
    obtain ⟨h1, h2, h3, h4, h5⟩ := hpub
    have eR := count_set c
      { c.m with heap := c.m.heap.set v { dv with references := dv.references + 1 } }
      c.handles t old (.getReturn k v true r m) ht Pc.holds v
    have eF := count_set_le c
      { c.m with heap := c.m.heap.set v { dv with references := dv.references + 1 } }
      c.handles t old (.getReturn k v true r m) ht Pc.fresh v (fun h => by simp [Pc.fresh] at h)
    have eL := count_set_eq c
      { c.m with heap := c.m.heap.set v { dv with references := dv.references + 1 } }
      c.handles t old (.getReturn k v true r m) ht Pc.locks v (by rw [hlocks]; rfl)
    have hL0 := locks_zero_of_unlocked c v hunl
    rw [hholds] at eR
    simp only [Pc.holds, decide_True, if_true, Bool.false_eq_true, if_false] at eR
    left
    refine ⟨?_, by omega, by omega, ?_, ?_⟩
    · have hH : Conc.handed { c with
               m := { c.m with
                      heap := c.m.heap.set v { dv with references := dv.references + 1 } }
               threads := c.threads.set t (.getReturn k v true r m) } v = c.handed v := rfl
      rw [hH]
      dsimp only
      omega
    · intro hl
      omega
    · intro _
      exact h5 (Or.inl hpos)
  · rw [List.getElem?_set_ne hvp] at hd
    exact entry_frame c _ p d rfl
      (count_set_eq c _ _ t _ _ ht Pc.holds p (by rw [hholds]; simp [Pc.holds, hvp]))
      (count_set_le c _ _ t _ _ ht Pc.reads p (fun h => by simp [Pc.reads] at h))
      (count_set_le c _ _ t _ _ ht Pc.fresh p (fun h => by simp [Pc.fresh] at h))
      (count_set_eq c _ _ t _ _ ht Pc.locks p (by rw [hlocks]; rfl))
      (fun h => h) (fun _ h => h) (hi.entry p d hd)

theorem inv_getAllocate (c c1 : Conc K V) (hi : c.Inv) (t : Nat) (k : K) (v : Nat)
    (ht : c.threads[t]? = some (.getAllocate k v))
    (h : c.stepThread t (.getAllocate k v) = .ok c1) : c1.Inv := by
  obtain ⟨dv, hdv, hdk⟩ := hi.threads _ (mem_of_getElem? _ _ _ ht)
  cases hl : c.locked v with
  | true =>
    simp only [Conc.stepThread, hl, if_true] at h
    cases h
    exact hi
  | false =>
    by_cases hpos : 1 ≤ dv.references
    · simp only [Conc.stepThread, hl, Bool.false_eq_true, if_false,
        allocate_live c.m v dv hdv hpos] at h
      cases h
      exact inv_allocated c hi t _ k v dv 0 0 ht hdv hdk hpos hl (by simp [Pc.reads])
        (fun _ => rfl) (fun _ => rfl) (Or.inl ⟨rfl, rfl, rfl⟩)
    · simp only [Conc.stepThread, hl, Bool.false_eq_true, if_false,
        allocate_retired c.m v dv hdv (by omega)] at h
      cases h
      exact inv_thread_only c hi t _ _ ht (fun _ => rfl) (fun _ => rfl)
        (fun _ h => h) (fun _ h => by simp [Pc.reads] at h) trivial trivial

theorem inv_getRetry (c c1 : Conc K V) (hi : c.Inv) (t : Nat) (k : K) (n v r m : Nat)
    (ht : c.threads[t]? = some (.getRetry k n v r m))
    (h : c.stepThread t (.getRetry k n v r m) = .ok c1) : c1.Inv := by
  obtain ⟨hn, dv, hdv, hdk⟩ := hi.threads _ (mem_of_getElem? _ _ _ ht)
  have htl := hi.tally _ (mem_of_getElem? _ _ _ ht)
  cases hl : c.locked v with
  | true =>
    simp only [Conc.stepThread, hl, if_true] at h
    cases h
    exact hi
  | false =>
    by_cases hpos : 1 ≤ dv.references
    · simp only [Conc.stepThread, hl, Bool.false_eq_true, if_false,
        allocate_live c.m v dv hdv hpos] at h
      cases h
      exact inv_allocated c hi t _ k v dv r m ht hdv hdk hpos hl (by simp [Pc.reads])
        (fun _ => rfl) (fun _ => rfl) (Or.inr htl)
    · simp only [Conc.stepThread, hl, Bool.false_eq_true, if_false,
        allocate_retired c.m v dv hdv (by omega)] at h
      cases h
      exact inv_thread_only c hi t _ _ ht (fun _ => rfl) (fun _ => rfl)
        (fun _ h => by simpa [Pc.fresh] using h) (fun _ h => by simp [Pc.reads] at h) hn htl.2

theorem handed_eq_zero_of_invalid (c : Conc K V) (hi : c.Inv) (p : Nat)
    (hp : c.m.heap.length ≤ p) : c.handed p = 0 := by
  unfold Conc.handed
  rw [List.countP_eq_zero]
  intro h hmem
  simp only [Bool.and_eq_true, decide_eq_true_eq, not_and]
  intro hptr h0
  obtain ⟨d, hd, -, -⟩ := hi.handles h hmem h0
  have := getElem?_lt_of_some _ _ _ hd
  omega

theorem inv_getConstruct (c c1 : Conc K V) (hi : c.Inv) (t : Nat) (k : K)
    (ht : c.threads[t]? = some (.getConstruct k))
    (h : c.stepThread t (.getConstruct k) = .ok c1) : c1.Inv := by
  simp only [Conc.stepThread] at h
  cases h
  have hmono := heap_append_mono c.m.heap
    { value := c.m.makeNew c.m.calls, references := 1, k := k }
  have hnew : (c.m.heap ++ [({ value := c.m.makeNew c.m.calls, references := 1, k := k } :
      counter K V)])[c.m.heap.length]? =
      some { value := c.m.makeNew c.m.calls, references := 1, k := k } := by simp
  refine ⟨?_, forall_mem_set _ _ _ _ (fun pc hpc => keyed_mono _ _ hmono pc (hi.threads pc hpc))
      ⟨_, hnew, rfl⟩, ?_, stored_heap_mono c hi _ hmono,
    forall_mem_set _ _ _ _ hi.tally rfl, hi.tallied⟩
  · intro p d hd
    dsimp only at hd
    by_cases hp : p < c.m.heap.length
    · rw [List.getElem?_append_left hp] at hd
      have hne : ¬ c.m.heap.length = p := by omega
      exact entry_frame c _ p d rfl
        (count_set_eq c _ _ t _ _ ht Pc.holds p rfl)
        (count_set_le c _ _ t _ _ ht Pc.reads p (fun h => by simp [Pc.reads] at h))
        (count_set_le c _ _ t _ _ ht Pc.fresh p (fun h => by simp [Pc.fresh, hne] at h))
        (count_set_eq c _ _ t _ _ ht Pc.locks p rfl)
        (fun h => h) (fun _ h => h) (hi.entry p d hd)
    · by_cases hpl : p = c.m.heap.length
      · subst hpl
        rw [hnew] at hd
        cases hd
        obtain ⟨z1, z2, z3, z4⟩ := count_eq_zero_of_keyed c c.m.heap hi.threads
          c.m.heap.length (le_refl _)
        have zH := handed_eq_zero_of_invalid c hi c.m.heap.length (le_refl _)
        have eR := count_set_eq c
          { c.m with
            heap := c.m.heap ++ [{ value := c.m.makeNew c.m.calls, references := 1, k := k }]
            calls := c.m.calls + 1 } c.handles t _
          (.getLoadOrStore k c.m.heap.length 0 1) ht Pc.holds c.m.heap.length rfl
        have eU := count_set_eq c
          { c.m with
            heap := c.m.heap ++ [{ value := c.m.makeNew c.m.calls, references := 1, k := k }]
            calls := c.m.calls + 1 } c.handles t _
          (.getLoadOrStore k c.m.heap.length 0 1) ht Pc.reads c.m.heap.length rfl
        have eL := count_set_eq c
          { c.m with
            heap := c.m.heap ++ [{ value := c.m.makeNew c.m.calls, references := 1, k := k }]
            calls := c.m.calls + 1 } c.handles t _
          (.getLoadOrStore k c.m.heap.length 0 1) ht Pc.locks c.m.heap.length rfl
        have eF := count_set c
          { c.m with
            heap := c.m.heap ++ [{ value := c.m.makeNew c.m.calls, references := 1, k := k }]
            calls := c.m.calls + 1 } c.handles t _
          (.getLoadOrStore k c.m.heap.length 0 1) ht Pc.fresh c.m.heap.length
        simp only [Pc.fresh, decide_True, if_true, Bool.false_eq_true, if_false] at eF
        dsimp only at eR eU eL
        right
        refine ⟨rfl, zH, by omega, by omega, by omega, by omega, ?_⟩
        intro k' hk'
        obtain ⟨d, hd, -⟩ := hi.stored k' _ hk'
        have := getElem?_lt_of_some _ _ _ hd
        omega
      · rw [List.getElem?_eq_none (by simp; omega)] at hd
        cases hd
  · intro h hmem h0
    obtain ⟨d, hd, hdk, hdv⟩ := hi.handles h hmem h0
    exact ⟨d, by dsimp only
                 rw [List.getElem?_append_left (getElem?_lt_of_some _ _ _ hd)]
                 exact hd, hdk, hdv⟩

theorem inv_getLoadOrStore (c c1 : Conc K V) (hi : c.Inv) (t : Nat) (k : K) (n r m : Nat)
    (ht : c.threads[t]? = some (.getLoadOrStore k n r m))
    (h : c.stepThread t (.getLoadOrStore k n r m) = .ok c1) : c1.Inv := by
  obtain ⟨dn, hdn, hdnk⟩ := hi.threads _ (mem_of_getElem? _ _ _ ht)
  have htl : m = 1 := hi.tally _ (mem_of_getElem? _ _ _ ht)
  cases hk : c.m.SyncMap.lookup k with
  | some v =>
    simp only [Conc.stepThread, SyncMap.LoadOrStore, hk] at h
    cases h
    obtain ⟨dv, hdv, hdvk⟩ := hi.stored k v hk
    refine inv_thread_only c hi t _ _ ht (fun _ => rfl) (fun _ => rfl)
      (fun _ h => by simpa [Pc.fresh] using h) ?_ ⟨⟨dn, hdn, hdnk⟩, dv, hdv, hdvk⟩
      ⟨Nat.succ_le_succ (Nat.zero_le _), htl⟩
    intro p hp
    right
    intro d hd
    have hvp : v = p := by simpa [Pc.reads] using hp
    subst hvp
    exact Published_of_stored c hi k v d hk hd
  | none =>
    simp only [Conc.stepThread, SyncMap.LoadOrStore, hk] at h
    cases h
    have hfpos := count_pos_of_mem c Pc.fresh n _ (mem_of_getElem? _ _ _ ht)
      (by simp [Pc.fresh])
    refine ⟨?_, forall_mem_set _ _ _ _ hi.threads ⟨dn, hdn, hdnk⟩, hi.handles, ?_,
      forall_mem_set _ _ _ _ hi.tally (Or.inr ⟨Nat.succ_le_succ (Nat.zero_le _), htl⟩),
      hi.tallied⟩
    · intro p d hd
      dsimp only at hd
      by_cases hnp : n = p
      · subst hnp
        rw [hdn] at hd
        cases hd
        rcases hi.entry n dn hdn with hP | hQ
        · have := hP.2.1
          omega
        · obtain ⟨q1, q2, q3, q4, q5, q6, q7⟩ := hQ
          have eR := count_set c { c.m with SyncMap := c.m.SyncMap ++ [(k, n)] } c.handles t _
            (.getReturn k n false (r + 1) m) ht Pc.holds n
          have eF := count_set c { c.m with SyncMap := c.m.SyncMap ++ [(k, n)] } c.handles t _
            (.getReturn k n false (r + 1) m) ht Pc.fresh n
          have eL := count_set_eq c { c.m with SyncMap := c.m.SyncMap ++ [(k, n)] } c.handles t
            _ (.getReturn k n false (r + 1) m) ht Pc.locks n rfl
          simp only [Pc.holds, Pc.fresh, decide_True, if_true, Bool.false_eq_true,
            if_false] at eR eF
          dsimp only at eL
          left
          refine ⟨?_, by omega, by omega, fun hl => by omega, fun _ => ?_⟩
          · have hH : Conc.handed { c with
                m := { c.m with SyncMap := c.m.SyncMap ++ [(k, n)] }
                threads := c.threads.set t (.getReturn k n false (r + 1) m) } n =
                c.handed n := rfl
            rw [hH, q1]
            omega
          · dsimp only
            rw [hdnk, lookup_append_single, hk]
            simp
      · have hfwd : ∀ (k' : K) (q : Nat), c.m.SyncMap.lookup k' = some q →
            (c.m.SyncMap ++ [(k, n)]).lookup k' = some q := by
          intro k' q hq
          rw [lookup_append_single, hq]
        have hbwd : ∀ (k' : K), (c.m.SyncMap ++ [(k, n)]).lookup k' = some p →
            c.m.SyncMap.lookup k' = some p := by
          intro k' hq
          rw [lookup_append_single] at hq
          cases hold : c.m.SyncMap.lookup k' with
          | some q =>
            rw [hold] at hq
            exact hq
          | none =>
            rw [hold] at hq
            by_cases hkk : k' = k
            · simp only [hkk, if_true, Option.some.injEq] at hq
              exact absurd hq hnp
            · simp [hkk] at hq
        exact entry_frame c _ p d rfl
          (count_set_eq c _ _ t _ _ ht Pc.holds p (by simp [Pc.holds, hnp]))
          (count_set_le c _ _ t _ _ ht Pc.reads p (fun h => by simp [Pc.reads] at h))
          (count_set_le c _ _ t _ _ ht Pc.fresh p (fun h => by simp [Pc.fresh] at h))
          (count_set_eq c _ _ t _ _ ht Pc.locks p rfl)
          (hfwd d.k p) hbwd (hi.entry p d hd)
    · intro k' p hk'
      dsimp only at hk' ⊢
      rw [lookup_append_single] at hk'
      cases hold : c.m.SyncMap.lookup k' with
      | some q =>
        rw [hold] at hk'
        obtain rfl : q = p := by simpa using hk'
        exact hi.stored k' q hold
      | none =>
        rw [hold] at hk'
        by_cases hkk : k' = k
        · subst hkk
          obtain rfl : n = p := by simpa using hk'
          exact ⟨dn, hdn, hdnk⟩
        · simp [hkk] at hk'

theorem inv_getReturn (c c1 : Conc K V) (hi : c.Inv) (t : Nat) (k : K) (v : Nat) (l : Bool)
    (r m : Nat) (ht : c.threads[t]? = some (.getReturn k v l r m))
    (h : c.stepThread t (.getReturn k v l r m) = .ok c1) : c1.Inv := by
  obtain ⟨dv, hdv, hdvk⟩ := hi.threads _ (mem_of_getElem? _ _ _ ht)
  have htl := hi.tally _ (mem_of_getElem? _ _ _ ht)
  simp only [Conc.stepThread, hdv] at h
  cases h
  refine ⟨?_, forall_mem_set _ _ _ _ hi.threads trivial, ?_, hi.stored,
    forall_mem_set _ _ _ _ hi.tally trivial, ?_⟩
  · intro p d hd
    dsimp only at hd
    have eH := handed_append c c.m (c.threads.set t .done)
      { key := k, value := dv.value, ptr := v, loaded := l, rounds := r, made := m, called := 0 }
      p
    have eR := count_set c c.m
      (c.handles ++ [{ key := k, value := dv.value, ptr := v, loaded := l, rounds := r,
                       made := m, called := 0 }]) t _ .done ht Pc.holds p
    have eU := count_set_le c c.m
      (c.handles ++ [{ key := k, value := dv.value, ptr := v, loaded := l, rounds := r,
                       made := m, called := 0 }]) t _ .done ht Pc.reads p
      (fun h => by simp [Pc.reads] at h)
    have eF := count_set_le c c.m
      (c.handles ++ [{ key := k, value := dv.value, ptr := v, loaded := l, rounds := r,
                       made := m, called := 0 }]) t _ .done ht Pc.fresh p
      (fun h => by simp [Pc.fresh] at h)
    have eL := count_set_eq c c.m
      (c.handles ++ [{ key := k, value := dv.value, ptr := v, loaded := l, rounds := r,
                       made := m, called := 0 }]) t _ .done ht Pc.locks p rfl
    by_cases hvp : v = p
    · subst hvp
      simp only [Pc.holds, decide_True, if_true, Bool.false_eq_true, if_false, and_self] at eR eH
      have hpub := Published_of_pos c hi v d hd (Or.inr (Or.inl (by omega)))
      exact Or.inl (Published_frame c _ v d (by omega) eF eL (fun h => h) hpub)
    · simp only [Pc.holds, hvp, decide_False, Bool.false_eq_true, if_false, false_and,
        add_zero] at eR eH
      exact entry_frame c _ p d eH eR eU eF eL (fun h => h) (fun _ h => h) (hi.entry p d hd)
  · intro h hmem h0
    rcases List.mem_append.mp hmem with hold | hnew
    · exact hi.handles h hold h0
    · rw [List.mem_singleton] at hnew
      subst hnew
      exact ⟨dv, hdv, hdvk, rfl⟩
  · intro h hmem
    rcases List.mem_append.mp hmem with hold | hnew
    · exact hi.tallied h hold
    · rw [List.mem_singleton] at hnew
      subst hnew
      exact htl

theorem inv_releaseLock (c c1 : Conc K V) (hi : c.Inv) (t : Nat) (v : Nat)
    (ht : c.threads[t]? = some (.releaseLock v))
    (h : c.stepThread t (.releaseLock v) = .ok c1) : c1.Inv := by
  obtain ⟨dv, hdv⟩ := hi.threads _ (mem_of_getElem? _ _ _ ht)
  cases hl : c.locked v with
  | true =>
    simp only [Conc.stepThread, hl, if_true] at h
    cases h
    exact hi
  | false =>
    have hlt := getElem?_lt_of_some _ _ _ hdv
    have hmono := heap_set_mono c.m.heap v dv { dv with references := dv.references - 1 } hdv rfl
    have hRpos := count_pos_of_mem c Pc.holds v _ (mem_of_getElem? _ _ _ ht) (by simp [Pc.holds])
    have hpub := Published_of_pos c hi v dv hdv (Or.inr (Or.inl hRpos))
    have hL0 := locks_zero_of_unlocked c v hl
    -- what does not depend on the branch
    have hentry : ∀ (new : Pc K), (∀ q, Pc.holds new q = false) →
        (∀ q, Pc.reads new q = false) → (∀ q, Pc.fresh new q = false) →
        (∀ q, q ≠ v → Pc.locks new q = false) →
        (Pc.locks new v = true → dv.references - 1 ≤ 0) →
        ∀ p d, (c.m.heap.set v { dv with references := dv.references - 1 })[p]? = some d →
          Conc.Published { c with
              m := { c.m with
                     heap := c.m.heap.set v { dv with references := dv.references - 1 } }
              threads := c.threads.set t new } p d ∨
          Conc.Private { c with
              m := { c.m with
                     heap := c.m.heap.set v { dv with references := dv.references - 1 } }
              threads := c.threads.set t new } p d := by
      intro new nh nr nf nl nlv p d hd
      by_cases hvp : v = p
      · subst hvp
        rw [List.getElem?_set_self hlt] at hd
        cases hd
        obtain ⟨h1, h2, h3, h4, h5⟩ := hpub
        have eR := count_set c
          { c.m with heap := c.m.heap.set v { dv with references := dv.references - 1 } }
          c.handles t _ new ht Pc.holds v
        have eF := count_set_le c
          { c.m with heap := c.m.heap.set v { dv with references := dv.references - 1 } }
          c.handles t _ new ht Pc.fresh v (fun h => by rw [nf] at h; cases h)
        have eL := count_set c
          { c.m with heap := c.m.heap.set v { dv with references := dv.references - 1 } }
          c.handles t _ new ht Pc.locks v
        have hol : Pc.locks (.releaseLock v : Pc K) v = false := rfl
        rw [nh] at eR
        rw [hol] at eL
        simp only [Pc.holds, decide_True, if_true, Bool.false_eq_true, if_false] at eR eL
        dsimp only at eR eF eL
        left
        unfold Conc.Published Conc.handed
        dsimp only
        have hH : c.handles.countP (fun h => decide (h.ptr = v) && decide (h.called = 0)) =
            c.handed v := rfl
        rw [hH]
        refine ⟨by omega, by omega, ?_, ?_, fun _ => h5 (Or.inl (by omega))⟩
        · by_cases hnl : Pc.locks new v = true
          · rw [if_pos hnl] at eL
            omega
          · rw [if_neg hnl] at eL
            omega
        · intro hl1
          apply nlv
          by_contra hnl
          rw [if_neg hnl] at eL
          omega
      · rw [List.getElem?_set_ne hvp] at hd
        exact entry_frame c _ p d rfl
          (count_set_eq c _ _ t _ _ ht Pc.holds p (by rw [nh]; simp [Pc.holds, hvp]))
          (count_set_le c _ _ t _ _ ht Pc.reads p (fun h => by rw [nr] at h; cases h))
          (count_set_le c _ _ t _ _ ht Pc.fresh p (fun h => by rw [nf] at h; cases h))
          (count_set_eq c _ _ t _ _ ht Pc.locks p (by rw [nl p (Ne.symm hvp)]; rfl))
          (fun h => h) (fun _ h => h) (hi.entry p d hd)
    by_cases hz : dv.references - 1 ≤ 0
    · simp only [Conc.stepThread, hl, Bool.false_eq_true, if_false, hdv, hz, if_true] at h
      cases h
      exact ⟨hentry (.releaseDelete v) (fun _ => rfl) (fun _ => rfl) (fun _ => rfl)
          (fun q hq => by simp [Pc.locks, Ne.symm hq]) (fun _ => hz),
        forall_mem_set _ _ _ _ (fun pc hpc => keyed_mono _ _ hmono pc (hi.threads pc hpc))
          ⟨_, List.getElem?_set_self hlt⟩,
        handles_heap_set c hi v dv _ hdv rfl rfl, stored_heap_mono c hi _ hmono,
        forall_mem_set _ _ _ _ hi.tally trivial, hi.tallied⟩
    · simp only [Conc.stepThread, hl, Bool.false_eq_true, if_false, hdv, hz] at h
      cases h
      exact ⟨hentry .done (fun _ => rfl) (fun _ => rfl) (fun _ => rfl)
          (fun _ _ => rfl) (fun h => by cases h),
        forall_mem_set _ _ _ _ (fun pc hpc => keyed_mono _ _ hmono pc (hi.threads pc hpc))
          trivial,
        handles_heap_set c hi v dv _ hdv rfl rfl, stored_heap_mono c hi _ hmono,
        forall_mem_set _ _ _ _ hi.tally trivial, hi.tallied⟩

theorem inv_releaseDelete (c c1 : Conc K V) (hi : c.Inv) (t : Nat) (v : Nat)
    (ht : c.threads[t]? = some (.releaseDelete v))
    (h : c.stepThread t (.releaseDelete v) = .ok c1) : c1.Inv := by
  obtain ⟨dv, hdv⟩ := hi.threads _ (mem_of_getElem? _ _ _ ht)
  simp only [Conc.stepThread, hdv] at h
  cases h
  have hLpos := count_pos_of_mem c Pc.locks v _ (mem_of_getElem? _ _ _ ht) (by simp [Pc.locks])
  have hpub := Published_of_pos c hi v dv hdv (Or.inr (Or.inr (Or.inr hLpos)))
  obtain ⟨h1, h2, h3, h4, h5⟩ := hpub
  have hstored := h5 (Or.inr hLpos)
  refine ⟨?_, forall_mem_set _ _ _ _ hi.threads trivial, hi.handles, ?_,
    forall_mem_set _ _ _ _ hi.tally trivial, hi.tallied⟩
  · intro p d hd
    dsimp only at hd
    have eR := count_set_eq c { c.m with SyncMap := SyncMap.Delete c.m.SyncMap dv.k } c.handles
      t _ .done ht Pc.holds p rfl
    have eU := count_set_le c { c.m with SyncMap := SyncMap.Delete c.m.SyncMap dv.k } c.handles
      t _ .done ht Pc.reads p (fun h => by simp [Pc.reads] at h)
    have eF := count_set_le c { c.m with SyncMap := SyncMap.Delete c.m.SyncMap dv.k } c.handles
      t _ .done ht Pc.fresh p (fun h => by simp [Pc.fresh] at h)
    have eL := count_set c { c.m with SyncMap := SyncMap.Delete c.m.SyncMap dv.k } c.handles
      t _ .done ht Pc.locks p
    dsimp only at eR eU eF eL
    by_cases hvp : v = p
    · subst hvp
      rw [hdv] at hd
      cases hd
      simp only [Pc.locks, decide_True, if_true, Bool.false_eq_true, if_false] at eL
      left
      unfold Conc.Published Conc.handed
      dsimp only
      have hH : c.handles.countP (fun h => decide (h.ptr = v) && decide (h.called = 0)) =
          c.handed v := rfl
      rw [hH]
      have hz := h4 hLpos
      refine ⟨by omega, by omega, by omega, fun hl => by omega, fun hl => ?_⟩
      omega
    · simp only [Pc.locks, hvp, decide_False, Bool.false_eq_true, if_false, add_zero] at eL
      have hbwd : ∀ (k' : K), (SyncMap.Delete c.m.SyncMap dv.k).lookup k' = some p →
          c.m.SyncMap.lookup k' = some p := by
        intro k' hk'
        rw [lookup_Delete] at hk'
        by_cases hkk : k' = dv.k
        · simp [hkk] at hk'
        · rw [if_neg hkk] at hk'
          exact hk'
      have hfwd : c.m.SyncMap.lookup d.k = some p →
          (SyncMap.Delete c.m.SyncMap dv.k).lookup d.k = some p := by
        intro hk'
        rw [lookup_Delete]
        have hkk : ¬ d.k = dv.k := by
          intro hkk
          rw [hkk, hstored] at hk'
          exact hvp (Option.some.inj hk')
        rw [if_neg hkk]
        exact hk'
      exact entry_frame c _ p d rfl eR eU eF eL hfwd hbwd (hi.entry p d hd)
  · intro k' p hk'
    dsimp only at hk' ⊢
    rw [lookup_Delete] at hk'
    by_cases hkk : k' = dv.k
    · simp [hkk] at hk'
    · rw [if_neg hkk] at hk'
      exact hi.stored k' p hk'

theorem inv_callGet (c : Conc K V) (hi : c.Inv) (k : K) :
    Conc.Inv { c with threads := c.threads ++ [.getLoad k] } := by
  have hmem : ∀ (P : Pc K → Prop), (∀ pc ∈ c.threads, P pc) → P (.getLoad k) →
      ∀ pc ∈ c.threads ++ [.getLoad k], P pc := by
    intro P hold hnew pc hpc
    rcases List.mem_append.mp hpc with h | h
    · exact hold pc h
    · rw [List.mem_singleton] at h
      rw [h]
      exact hnew
  refine ⟨?_, hmem _ hi.threads trivial, hi.handles, hi.stored, hmem _ hi.tally trivial,
    hi.tallied⟩
  intro p d hd
  exact entry_frame c _ p d rfl
    (by rw [count_append]; rfl) (by rw [count_append]; exact le_refl _)
    (by rw [count_append]; exact le_refl _) (by rw [count_append]; rfl)
    (fun h => h) (fun _ h => h) (hi.entry p d hd)

theorem inv_callRelease (c : Conc K V) (hi : c.Inv) (i : Nat) (h : Returned K V)
    (hget : c.handles[i]? = some h) (h0 : h.called = 0) :
    Conc.Inv { c with
               threads := c.threads ++ [.releaseLock h.ptr]
               handles := c.handles.set i { h with called := h.called + 1 } } := by
  have hmemh := mem_of_getElem? _ _ _ hget
  obtain ⟨dh, hdh, -, -⟩ := hi.handles h hmemh h0
  have hmem : ∀ (P : Pc K → Prop), (∀ pc ∈ c.threads, P pc) → P (.releaseLock h.ptr) →
      ∀ pc ∈ c.threads ++ [.releaseLock h.ptr], P pc := by
    intro P hold hnew pc hpc
    rcases List.mem_append.mp hpc with h | h
    · exact hold pc h
    · rw [List.mem_singleton] at h
      rw [h]
      exact hnew
  refine ⟨?_, hmem _ hi.threads ⟨dh, hdh⟩, ?_, hi.stored, hmem _ hi.tally trivial, ?_⟩
  · intro p d hd
    dsimp only at hd
    have eH := handed_set c c.m (c.threads ++ [.releaseLock h.ptr]) i h hget h0 p
    have eR := count_append c c.m (c.handles.set i { h with called := h.called + 1 })
      (.releaseLock h.ptr) Pc.holds p
    have eU := count_append c c.m (c.handles.set i { h with called := h.called + 1 })
      (.releaseLock h.ptr) Pc.reads p
    have eF := count_append c c.m (c.handles.set i { h with called := h.called + 1 })
      (.releaseLock h.ptr) Pc.fresh p
    have eL := count_append c c.m (c.handles.set i { h with called := h.called + 1 })
      (.releaseLock h.ptr) Pc.locks p
    simp only [Pc.reads, Pc.fresh, Pc.locks, Bool.false_eq_true, if_false, add_zero]
      at eU eF eL
    by_cases hvp : h.ptr = p
    · subst hvp
      simp only [Pc.holds, decide_True, if_true] at eR eH
      have hHpos : 1 ≤ c.handed h.ptr :=
        List.countP_pos_iff.mpr ⟨h, hmemh, by simp [h0]⟩
      have hpub := Published_of_pos c hi h.ptr d hd (Or.inl hHpos)
      exact Or.inl (Published_frame c _ h.ptr d (by omega) (le_of_eq eF) eL (fun h => h) hpub)
    · simp only [Pc.holds, hvp, decide_False, Bool.false_eq_true, if_false, add_zero]
        at eR eH
      exact entry_frame c _ p d eH eR (le_of_eq eU) (le_of_eq eF) eL (fun h => h) (fun _ h => h)
        (hi.entry p d hd)
  · intro h' hmem' h0'
    rcases List.mem_or_eq_of_mem_set hmem' with hold | hnew
    · exact hi.handles h' hold h0'
    · subst hnew
      simp at h0'
  · intro h' hmem'
    rcases List.mem_or_eq_of_mem_set hmem' with hold | hnew
    · exact hi.tallied h' hold
    · subst hnew
      exact hi.tallied h hmemh

theorem conc_init_Inv (newValue : Nat → V) : (Conc.init newValue : Conc K V).Inv := by
  refine ⟨?_, ?_, ?_, ?_, ?_, ?_⟩
  · intro p d hd
    simp [Conc.init, New] at hd
  · intro pc hpc
    simp [Conc.init] at hpc
  · intro h hh
    simp [Conc.init] at hh
  · intro k p hk
    simp [Conc.init, New] at hk
  · intro pc hpc
    simp [Conc.init] at hpc
  · intro h hh
    simp [Conc.init] at hh

theorem conc_step_Inv (c c1 : Conc K V) (hi : c.Inv) (x : Sched K) (h : c.step x = .ok c1) :
    c1.Inv := by
  cases x with
  | callGet k =>
    simp only [Conc.step] at h
    cases h
    exact inv_callGet c hi k
  | callRelease i =>
    cases hget : c.handles[i]? with
    | none =>
      simp only [Conc.step, hget] at h
      cases h
      exact hi
    | some hd =>
      by_cases h0 : hd.called = 0
      · simp only [Conc.step, hget, h0, if_true] at h
        cases h
        have := inv_callRelease c hi i hd hget h0
        simpa only [h0] using this
      · simp only [Conc.step, hget, h0, if_false] at h
        cases h
        exact hi
  | run t =>
    cases ht : c.threads[t]? with
    | none =>
      simp only [Conc.step, ht] at h
      cases h
      exact hi
    | some pc =>
      simp only [Conc.step, ht] at h
      cases pc with
      | getLoad k => exact inv_getLoad c c1 hi t k ht h
      | getAllocate k v => exact inv_getAllocate c c1 hi t k v ht h
      | getConstruct k => exact inv_getConstruct c c1 hi t k ht h
      | getLoadOrStore k n r m => exact inv_getLoadOrStore c c1 hi t k n r m ht h
      | getRetry k n v r m => exact inv_getRetry c c1 hi t k n v r m ht h
      | getReturn k v l r m => exact inv_getReturn c c1 hi t k v l r m ht h
      | releaseLock v => exact inv_releaseLock c c1 hi t v ht h
      | releaseDelete v => exact inv_releaseDelete c c1 hi t v ht h
      | done =>
        simp only [Conc.stepThread] at h
        cases h
        exact hi

/-! ### Interleavings run without fault -/

theorem conc_step_total (c : Conc K V) (hi : c.Inv) (x : Sched K) :
    ∃ c1, c.step x = .ok c1 := by
  cases x with
  | callGet k => exact ⟨_, rfl⟩
  | callRelease i =>
    cases hget : c.handles[i]? with
    | none => exact ⟨_, by simp only [Conc.step, hget]; rfl⟩
    | some hd =>
      by_cases h0 : hd.called = 0
      · exact ⟨_, by simp only [Conc.step, hget, h0, if_true]; rfl⟩
      · exact ⟨_, by simp only [Conc.step, hget, h0, if_false]; rfl⟩
  | run t =>
    cases ht : c.threads[t]? with
    | none => exact ⟨_, by simp only [Conc.step, ht]; rfl⟩
    | some pc =>
      have hkey := hi.threads pc (mem_of_getElem? _ _ _ ht)
      simp only [Conc.step, ht]
      cases pc with
      | getLoad k =>
        cases hk : c.m.SyncMap.lookup k with
        | none => exact ⟨_, by simp only [Conc.stepThread, SyncMap.Load, hk]; rfl⟩
        | some v => exact ⟨_, by simp only [Conc.stepThread, SyncMap.Load, hk]; rfl⟩
      | getAllocate k v =>
        obtain ⟨dv, hdv, -⟩ := hkey
        cases hl : c.locked v with
        | true => exact ⟨_, by simp only [Conc.stepThread, hl, if_true]; rfl⟩
        | false =>
          by_cases hpos : 1 ≤ dv.references
          · apply Exists.intro
            simp only [Conc.stepThread, hl, Bool.false_eq_true, if_false,
              allocate_live c.m v dv hdv hpos]
            rfl
          · apply Exists.intro
            simp only [Conc.stepThread, hl, Bool.false_eq_true, if_false,
              allocate_retired c.m v dv hdv (by omega)]
            rfl
      | getConstruct k => exact ⟨_, by simp only [Conc.stepThread]; rfl⟩
      | getLoadOrStore k n r m =>
        cases hk : c.m.SyncMap.lookup k with
        | none => exact ⟨_, by simp only [Conc.stepThread, SyncMap.LoadOrStore, hk]; rfl⟩
        | some v => exact ⟨_, by simp only [Conc.stepThread, SyncMap.LoadOrStore, hk]; rfl⟩
      | getRetry k n v r m =>
        obtain ⟨-, dv, hdv, -⟩ := hkey
        cases hl : c.locked v with
        | true => exact ⟨_, by simp only [Conc.stepThread, hl, if_true]; rfl⟩
        | false =>
          by_cases hpos : 1 ≤ dv.references
          · apply Exists.intro
            simp only [Conc.stepThread, hl, Bool.false_eq_true, if_false,
              allocate_live c.m v dv hdv hpos]
            rfl
          · apply Exists.intro
            simp only [Conc.stepThread, hl, Bool.false_eq_true, if_false,
              allocate_retired c.m v dv hdv (by omega)]
            rfl
      | getReturn k v l r m =>
        obtain ⟨dv, hdv, -⟩ := hkey
        exact ⟨_, by simp only [Conc.stepThread, hdv]; rfl⟩
      | releaseLock v =>
        obtain ⟨dv, hdv⟩ := hkey
        cases hl : c.locked v with
        | true => exact ⟨_, by simp only [Conc.stepThread, hl, if_true]; rfl⟩
        | false =>
          by_cases hz : dv.references - 1 ≤ 0
          · apply Exists.intro
            simp only [Conc.stepThread, hl, Bool.false_eq_true, if_false, hdv, hz, if_true]
            rfl
          · exact ⟨_, by simp only [Conc.stepThread, hl, Bool.false_eq_true, if_false, hdv, hz]; rfl⟩
      | releaseDelete v =>
        obtain ⟨dv, hdv⟩ := hkey
        exact ⟨_, by simp only [Conc.stepThread, hdv]; rfl⟩
      | done => exact ⟨_, by simp only [Conc.stepThread]; rfl⟩

/-- Every interleaving of calls from the empty map runs without fault and ends
in a state that satisfies the invariant. -/
theorem conc_reach (c : Conc K V) (hi : c.Inv) (sched : List (Sched K)) :
    ∃ c1, Conc.run c sched = .ok c1 ∧ c1.Inv := by
  induction sched generalizing c with
  | nil => exact ⟨c, rfl, hi⟩
  | cons x xs ih =>
    obtain ⟨c1, h1⟩ := conc_step_total c hi x
    obtain ⟨c2, h2, hi2⟩ := ih c1 (conc_step_Inv c c1 hi x h1)
    exact ⟨c2, by simp only [Conc.run, h1, h2], hi2⟩

/-- A thread that holds a counted reference to `v`, or an uncalled handle bound
to `v`: the counter `v` has a positive count and is stored under its key. -/
theorem live_of_pos (c : Conc K V) (hi : c.Inv) (v : Nat) (d : counter K V)
    (hd : c.m.heap[v]? = some d) (hpos : 1 ≤ c.handed v ∨ 1 ≤ c.count Pc.holds v) :
    1 ≤ d.references ∧ c.m.SyncMap.lookup d.k = some v := by
  have hpub := Published_of_pos c hi v d hd (by omega)
  obtain ⟨h1, -, -, -, h5⟩ := hpub
  have : 1 ≤ d.references := by omega
  exact ⟨this, h5 (Or.inl this)⟩

theorem getElem?_set_of_some {α : Type} (l : List α) (t : Nat) (old new : α)
    (h : l[t]? = some old) : (l.set t new)[t]? = some new :=
  List.getElem?_set_self (getElem?_lt_of_some _ _ _ h)

/-- The two ways in which a step of thread `t` brings its `Get` to the return
statement: its `LoadOrStore` stored the `newV` it had constructed, whose count
is the initial 1, or `allocate` succeeded on a counter with a positive count. -/
theorem enters_return (c c1 : Conc K V) (hi : c.Inv) (t : Nat) (k : K) (v : Nat) (l : Bool)
    (r m : Nat) (h : c.step (.run t) = .ok c1)
    (h1 : c1.threads[t]? = some (.getReturn k v l r m)) :
    (l = false ∧ (∃ r0, c.threads[t]? = some (.getLoadOrStore k v r0 m) ∧ r = r0 + 1) ∧
      SyncMap.Load c.m.SyncMap k = none ∧ SyncMap.Load c1.m.SyncMap k = some v ∧
      ∃ d, c1.m.heap[v]? = some d ∧ d.references = 1 ∧ d.k = k) ∨
    (l = true ∧
      (c.threads[t]? = some (.getAllocate k v) ∨
        ∃ n, c.threads[t]? = some (.getRetry k n v r m)) ∧
      ∃ d, c.m.heap[v]? = some d ∧ d.k = k ∧ 1 ≤ d.references ∧
        c1.m.heap[v]? = some { value := d.value, references := d.references + 1, k := d.k } ∧
        c1.m.SyncMap = c.m.SyncMap) := by
  cases ht : c.threads[t]? with
  | none =>
    simp only [Conc.step, ht] at h
    cases h
    rw [ht] at h1
    cases h1
  | some pc =>
    have hkey := hi.threads pc (mem_of_getElem? _ _ _ ht)
    simp only [Conc.step, ht] at h
    cases pc with
    | getLoad k' =>
      cases hk : c.m.SyncMap.lookup k' with
      | none =>
        simp only [Conc.stepThread, SyncMap.Load, hk] at h
        cases h
        rw [getElem?_set_of_some _ _ _ _ ht] at h1
        cases h1
      | some v' =>
        simp only [Conc.stepThread, SyncMap.Load, hk] at h
        cases h
        rw [getElem?_set_of_some _ _ _ _ ht] at h1
        cases h1
    | getAllocate k' v' =>
      obtain ⟨dv, hdv, hdk⟩ := hkey
      cases hl : c.locked v' with
      | true =>
        simp only [Conc.stepThread, hl, if_true] at h
        cases h
        rw [ht] at h1
        cases h1
      | false =>
        by_cases hpos : 1 ≤ dv.references
        · simp only [Conc.stepThread, hl, Bool.false_eq_true, if_false,
            allocate_live c.m v' dv hdv hpos] at h
          cases h
          rw [getElem?_set_of_some _ _ _ _ ht] at h1
          cases h1
          exact Or.inr ⟨rfl, Or.inl rfl, dv, hdv, hdk, hpos,
            List.getElem?_set_self (getElem?_lt_of_some _ _ _ hdv), rfl⟩
        · simp only [Conc.stepThread, hl, Bool.false_eq_true, if_false,
            allocate_retired c.m v' dv hdv (by omega)] at h
          cases h
          rw [getElem?_set_of_some _ _ _ _ ht] at h1
          cases h1
    | getConstruct k' =>
      simp only [Conc.stepThread] at h
      cases h
      rw [getElem?_set_of_some _ _ _ _ ht] at h1
      cases h1
    | getLoadOrStore k' n r0 m0 =>
      obtain ⟨dn, hdn, hdnk⟩ := hkey
      cases hk : c.m.SyncMap.lookup k' with
      | none =>
        simp only [Conc.stepThread, SyncMap.LoadOrStore, hk] at h
        cases h
        rw [getElem?_set_of_some _ _ _ _ ht] at h1
        cases h1
        have hfpos := count_pos_of_mem c Pc.fresh v _ (mem_of_getElem? _ _ _ ht)
          (by simp [Pc.fresh])
        have hone : dn.references = 1 := by
          rcases hi.entry v dn hdn with hP | hQ
          · have := hP.2.1
            omega
          · exact hQ.1
        refine Or.inl ⟨rfl, ⟨r0, rfl, rfl⟩, hk, ?_, dn, hdn, hone, hdnk⟩
        unfold SyncMap.Load
        dsimp only
        rw [lookup_append_single, hk]
        simp
      | some v' =>
        simp only [Conc.stepThread, SyncMap.LoadOrStore, hk] at h
        cases h
        rw [getElem?_set_of_some _ _ _ _ ht] at h1
        cases h1
    | getRetry k' n v' r0 m0 =>
      obtain ⟨-, dv, hdv, hdk⟩ := hkey
      cases hl : c.locked v' with
      | true =>
        simp only [Conc.stepThread, hl, if_true] at h
        cases h
        rw [ht] at h1
        cases h1
      | false =>
        by_cases hpos : 1 ≤ dv.references
        · simp only [Conc.stepThread, hl, Bool.false_eq_true, if_false,
            allocate_live c.m v' dv hdv hpos] at h
          cases h
          rw [getElem?_set_of_some _ _ _ _ ht] at h1
          cases h1
          exact Or.inr ⟨rfl, Or.inr ⟨n, rfl⟩, dv, hdv, hdk, hpos,
            List.getElem?_set_self (getElem?_lt_of_some _ _ _ hdv), rfl⟩
        · simp only [Conc.stepThread, hl, Bool.false_eq_true, if_false,
            allocate_retired c.m v' dv hdv (by omega)] at h
          cases h
          rw [getElem?_set_of_some _ _ _ _ ht] at h1
          cases h1
    | getReturn k' v' l' r' m' =>
      obtain ⟨dv, hdv, -⟩ := hkey
      simp only [Conc.stepThread, hdv] at h
      cases h
      rw [getElem?_set_of_some _ _ _ _ ht] at h1
      cases h1
    | releaseLock v' =>
      obtain ⟨dv, hdv⟩ := hkey
      cases hl : c.locked v' with
      | true =>
        simp only [Conc.stepThread, hl, if_true] at h
        cases h
        rw [ht] at h1
        cases h1
      | false =>
        by_cases hz : dv.references - 1 ≤ 0
        · simp only [Conc.stepThread, hl, Bool.false_eq_true, if_false, hdv, hz, if_true] at h
          cases h
          rw [getElem?_set_of_some _ _ _ _ ht] at h1
          cases h1
        · simp only [Conc.stepThread, hl, Bool.false_eq_true, if_false, hdv, hz] at h
          cases h
          rw [getElem?_set_of_some _ _ _ _ ht] at h1
          cases h1
    | releaseDelete v' =>
      obtain ⟨dv, hdv⟩ := hkey
      simp only [Conc.stepThread, hdv] at h
      cases h
      rw [getElem?_set_of_some _ _ _ _ ht] at h1
      cases h1
    | done =>
      simp only [Conc.stepThread] at h
      cases h
      rw [ht] at h1
      cases h1

/-- A retry of the loop of `Get`: when `allocate` fails on the loaded entry, the
thread goes back to `LoadOrStore` with the same `newV`; the map (store, heap and
the number of factory invocations) is unchanged. -/
theorem retry_keeps_newV (c : Conc K V) (t : Nat) (k : K) (n v r m : Nat) (d : counter K V)
    (hd : c.m.heap[v]? = some d) (hz : d.references ≤ 0) (hl : c.locked v = false) :
    c.stepThread t (.getRetry k n v r m) =
      .ok { c with threads := c.threads.set t (.getLoadOrStore k n r m) } := by
  simp only [Conc.stepThread, hl, Bool.false_eq_true, if_false, allocate_retired c.m v d hd hz]

/-! ### Go's `int` arithmetic agrees with the integers within the bounds -/

theorem wrapInt_eq (x : Int) (h1 : minInt ≤ x) (h2 : x ≤ maxInt) : wrapInt x = x := by
  unfold wrapInt
  unfold minInt at h1
  unfold maxInt at h2
  omega

theorem wrapInt_max : wrapInt (maxInt + 1) = minInt := by
  decide

theorem wrapInt_min : wrapInt (minInt - 1) = maxInt := by
  decide

theorem wrapping_allocate_eq (s : Map K V) (v : Nat)
    (h : ∀ c, s.heap[v]? = some c → c.references < maxInt) :
    Wrapping.allocate s v = allocate s v := by
  unfold Wrapping.allocate allocate
  cases hc : s.heap[v]? with
  | none => rfl
  | some c =>
    dsimp only
    by_cases hz : c.references ≤ 0
    · rw [if_pos hz, if_pos hz]
    · rw [if_neg hz, if_neg hz, wrapInt_eq _ (by unfold minInt; omega) (by have := h c hc; omega)]

theorem wrapping_release_eq (s : Map K V) (v : Nat)
    (h : ∀ c, s.heap[v]? = some c → minInt < c.references ∧ c.references ≤ maxInt) :
    Wrapping.release s v = release s v := by
  unfold Wrapping.release release
  cases hc : s.heap[v]? with
  | none => rfl
  | some c =>
    obtain ⟨h1, h2⟩ := h c hc
    dsimp only
    rw [wrapInt_eq _ (by omega) (by omega)]

theorem wrapping_Get_eq (fuel : Nat) (s : Map K V) (hs : s.Inv) (k : K)
    (h : ∀ (p : Nat) (c : counter K V), s.heap[p]? = some c → c.references < maxInt) :
    Wrapping.Get (fuel + 1) s k = Get (fuel + 1) s k := by
  cases hk : s.SyncMap.lookup k with
  | none =>
    rw [Get_absent fuel s k hk]
    simp [Wrapping.Get, SyncMap.Load, hk, Wrapping.Get.slow, Wrapping.Get.loop,
      SyncMap.LoadOrStore, Get.ret]
  | some p =>
    obtain ⟨c, hc, -, hpos⟩ := hs.stored k p hk
    have hlt := getElem?_lt_of_some _ _ _ hc
    rw [Get_present (fuel + 1) s k p c hk hc hpos]
    simp [Wrapping.Get, SyncMap.Load, hk, wrapping_allocate_eq s p (fun c hc => h p c hc),
      allocate_live s p c hc hpos, Get.ret, hlt]

theorem wrapping_step_eq (fuel : Nat) (n : Nat) (e : Exec K V) (he : e.Inv)
    (hb : Bounded n e.m) (hn : (n : Int) < maxInt) (a : Action K) :
    Wrapping.step (fuel + 1) e a = step (fuel + 1) e a := by
  cases a with
  | get k =>
    simp only [Wrapping.step, step]
    rw [wrapping_Get_eq fuel e.m he.map k (fun p c hc => by have := (hb p c hc).2; omega)]
  | call i =>
    simp only [Wrapping.step, step]
    cases hi : e.handles[i]? with
    | none => rfl
    | some h =>
      dsimp only
      rw [wrapping_release_eq e.m h.ptr (fun c hc => by
        have := hb h.ptr c hc
        unfold maxInt at hn
        unfold minInt maxInt
        constructor <;> omega)]

theorem step_Bounded (fuel : Nat) (n : Nat) (e e' : Exec K V) (he : e.Inv)
    (hb : Bounded n e.m) (a : Action K) (h : step (fuel + 1) e a = .ok e') :
    Bounded (n + 1) e'.m := by
  rcases step_cases fuel e e' he a h with
    ⟨k, p, c, -, hk, hc, hck, hpos, rfl⟩ | ⟨k, -, hk, rfl⟩ | ⟨i, hd, c, -, hi, hc, hck, hcv, rfl⟩
  · intro q d hq
    dsimp only at hq
    have hlt := getElem?_lt_of_some _ _ _ hc
    by_cases hpq : p = q
    · subst hpq
      rw [List.getElem?_set_self hlt] at hq
      cases hq
      have := hb p c hc
      dsimp only
      push_cast
      constructor <;> omega
    · rw [List.getElem?_set_ne hpq] at hq
      have := hb q d hq
      push_cast
      constructor <;> omega
  · intro q d hq
    dsimp only at hq
    by_cases hlt : q < e.m.heap.length
    · rw [List.getElem?_append_left hlt] at hq
      have := hb q d hq
      push_cast
      constructor <;> omega
    · by_cases hql : q = e.m.heap.length
      · subst hql
        have hd2 : d = { value := e.m.makeNew e.m.calls, references := 1, k := k } := by
          simpa using hq.symm
        subst hd2
        dsimp only
        push_cast
        constructor <;> omega
      · rw [List.getElem?_eq_none (by simp; omega)] at hq
        cases hq
  · intro q d hq
    dsimp only at hq
    have hlt := getElem?_lt_of_some _ _ _ hc
    by_cases hpq : hd.ptr = q
    · subst hpq
      rw [List.getElem?_set_self hlt] at hq
      cases hq
      have := hb hd.ptr c hc
      dsimp only
      push_cast
      constructor <;> omega
    · rw [List.getElem?_set_ne hpq] at hq
      have := hb q d hq
      push_cast
      constructor <;> omega

/-- On an execution whose number of actions is within the bounds of Go's
`int`, the operations with Go's arithmetic and those with mathematical
integers give the same result: no count wraps around. -/
theorem wrapping_run_eq_from (fuel : Nat) (n : Nat) (e : Exec K V) (he : e.Inv)
    (hb : Bounded n e.m) (acts : List (Action K))
    (hlen : (n : Int) + acts.length ≤ maxInt) :
    Wrapping.run (fuel + 1) e acts = run (fuel + 1) e acts := by
  induction acts generalizing e n with
  | nil => rfl
  | cons a as ih =>
    simp only [List.length_cons, Nat.cast_add, Nat.cast_one] at hlen
    simp only [Wrapping.run, run]
    rw [wrapping_step_eq fuel n e he hb (by omega) a]
    cases hs : step (fuel + 1) e a with
    | error f => rfl
    | ok e1 =>
      dsimp only
      exact ih (n + 1) e1 (step_Inv fuel e e1 he a hs) (step_Bounded fuel n e e1 he hb a hs)
        (by push_cast; omega)

theorem wrapping_run_eq (fuel : Nat) (newValue : Nat → V) (acts : List (Action K))
    (hlen : (acts.length : Int) ≤ maxInt) :
    Wrapping.run (fuel + 1) (Exec.init newValue) acts =
      run (fuel + 1) (Exec.init newValue) acts := by
  apply wrapping_run_eq_from fuel 0 _ (init_Inv newValue) _ acts (by simpa using hlen)
  intro p d hd
  simp [Exec.init, New] at hd

/-! ### The invocations of the factory under interleavings -/

theorem sum_map_set {α : Type} (f : α → Nat) (l : List α) (t : Nat) (a b : α)
    (h : l[t]? = some a) : ((l.set t b).map f).sum + f a = (l.map f).sum + f b := by
  induction l generalizing t with
  | nil => simp at h
  | cons x xs ih =>
    cases t with
    | zero =>
      simp only [List.getElem?_cons_zero, Option.some.injEq] at h
      subst h
      simp only [List.set_cons_zero, List.map_cons, List.sum_cons]
      omega
    | succ t =>
      simp only [List.getElem?_cons_succ] at h
      have := ih t h
      simp only [List.set_cons_succ, List.map_cons, List.sum_cons]
      omega

theorem values_set (nv : Nat → V) (heap : List (counter K V)) (v : Nat) (d d1 : counter K V)
    (hd : heap[v]? = some d) (hv : d1.value = d.value)
    (h : ∀ (p : Nat) (e : counter K V), heap[p]? = some e → e.value = nv p) :
    ∀ (p : Nat) (e : counter K V), (heap.set v d1)[p]? = some e → e.value = nv p := by
  intro p e he
  have hlt := getElem?_lt_of_some _ _ _ hd
  by_cases hvp : v = p
  · subst hvp
    rw [List.getElem?_set_self hlt] at he
    cases he
    rw [hv]
    exact h v d hd
  · rw [List.getElem?_set_ne hvp] at he
    exact h p e he

/-- A step that replaces the position of thread `t` by one with the same
record of invocations, and changes neither the factory, its counter, nor the
length and the values of the heap, keeps the accounting. -/
theorem accounted_set (nv : Nat → V) (c : Conc K V) (ha : c.Accounted nv) (m1 : Map K V)
    (t : Nat) (old new : Pc K) (ht : c.threads[t]? = some old)
    (hm : Pc.made new = Pc.made old) (hcalls : m1.calls = c.m.calls)
    (hf : m1.makeNew = c.m.makeNew) (hlen : m1.heap.length = c.m.heap.length)
    (hv : ∀ (p : Nat) (e : counter K V), m1.heap[p]? = some e → e.value = nv p) :
    Conc.Accounted nv { m := m1, threads := c.threads.set t new, handles := c.handles } := by
  have hs := sum_map_set Pc.made c.threads t old new ht
  have h1 := ha.calls
  refine ⟨?_, ?_, ?_, hv⟩
  · dsimp only
    omega
  · dsimp only
    rw [hlen, hcalls]
    exact ha.heap
  · dsimp only
    rw [hf]
    exact ha.factory

theorem accounted_allocated (nv : Nat → V) (c : Conc K V) (ha : c.Accounted nv)
    (t : Nat) (old new : Pc K) (ht : c.threads[t]? = some old)
    (hm : Pc.made new = Pc.made old) (v : Nat) (d : counter K V) (x : Int)
    (hd : c.m.heap[v]? = some d) :
    Conc.Accounted nv
      { m := { SyncMap := c.m.SyncMap
               heap := c.m.heap.set v { value := d.value, references := x, k := d.k }
               makeNew := c.m.makeNew
               calls := c.m.calls }
        threads := c.threads.set t new, handles := c.handles } :=
  accounted_set nv c ha
    { SyncMap := c.m.SyncMap
      heap := c.m.heap.set v { value := d.value, references := x, k := d.k }
      makeNew := c.m.makeNew
      calls := c.m.calls } t old new ht hm rfl rfl (List.length_set _ _ _)
    (values_set nv c.m.heap v d _ hd rfl ha.values)

theorem accounted_init (newValue : Nat → V) :
    (Conc.init newValue : Conc K V).Accounted newValue := by
  refine ⟨rfl, rfl, rfl, ?_⟩
  intro p d hd
  simp [Conc.init, New] at hd

theorem accounted_step (nv : Nat → V) (c c1 : Conc K V) (hi : c.Inv) (ha : c.Accounted nv)
    (x : Sched K) (h : c.step x = .ok c1) : c1.Accounted nv := by
  cases x with
  | callGet k =>
    simp only [Conc.step] at h
    cases h
    refine ⟨?_, ha.heap, ha.factory, ha.values⟩
    have := ha.calls
    simp only [List.map_append, List.sum_append, List.map_cons, List.map_nil, List.sum_cons,
      List.sum_nil, Pc.made]
    omega
  | callRelease i =>
    cases hget : c.handles[i]? with
    | none =>
      simp only [Conc.step, hget] at h
      cases h
      exact ha
    | some hd =>
      by_cases h0 : hd.called = 0
      · simp only [Conc.step, hget, h0, if_true] at h
        cases h
        refine ⟨?_, ha.heap, ha.factory, ha.values⟩
        have := ha.calls
        have hs := sum_map_set Returned.made c.handles i hd
          { hd with called := 0 + 1 } hget
        simp only [List.map_append, List.sum_append, List.map_cons, List.map_nil, List.sum_cons,
          List.sum_nil, Pc.made]
        dsimp only at hs
        omega
      · simp only [Conc.step, hget, h0, if_false] at h
        cases h
        exact ha
  | run t =>
    cases ht : c.threads[t]? with
    | none =>
      simp only [Conc.step, ht] at h
      cases h
      exact ha
    | some pc =>
      have hkey := hi.threads pc (mem_of_getElem? _ _ _ ht)
      simp only [Conc.step, ht] at h
      cases pc with
      | getLoad k =>
        cases hk : c.m.SyncMap.lookup k with
        | none =>
          simp only [Conc.stepThread, SyncMap.Load, hk] at h
          cases h
          exact accounted_set nv c ha c.m t _ _ ht (by rfl) rfl rfl rfl ha.values
        | some v =>
          simp only [Conc.stepThread, SyncMap.Load, hk] at h
          cases h
          exact accounted_set nv c ha c.m t _ _ ht (by rfl) rfl rfl rfl ha.values
      | getAllocate k v =>
        obtain ⟨dv, hdv, -⟩ := hkey
        cases hl : c.locked v with
        | true =>
          simp only [Conc.stepThread, hl, if_true] at h
          cases h
          exact ha
        | false =>
          by_cases hpos : 1 ≤ dv.references
          · simp only [Conc.stepThread, hl, Bool.false_eq_true, if_false,
              allocate_live c.m v dv hdv hpos] at h
            cases h
            exact accounted_allocated nv c ha t _ _ ht (by rfl) v dv _ hdv
          · simp only [Conc.stepThread, hl, Bool.false_eq_true, if_false,
              allocate_retired c.m v dv hdv (by omega)] at h
            cases h
            exact accounted_set nv c ha c.m t _ _ ht (by rfl) rfl rfl rfl ha.values
      | getConstruct k =>
        simp only [Conc.stepThread] at h
        cases h
        have hs := sum_map_set Pc.made c.threads t (.getConstruct k)
          (.getLoadOrStore k c.m.heap.length 0 1) ht
        have h1 := ha.calls
        have h2 := ha.heap
        refine ⟨?_, ?_, ha.factory, ?_⟩
        · dsimp only
          simp only [Pc.made] at hs
          omega
        · dsimp only
          simp only [List.length_append, List.length_cons, List.length_nil]
          omega
        · intro p e he
          dsimp only at he
          by_cases hlt : p < c.m.heap.length
          · rw [List.getElem?_append_left hlt] at he
            exact ha.values p e he
          · by_cases hpl : p = c.m.heap.length
            · subst hpl
              have he2 : e = { value := c.m.makeNew c.m.calls, references := 1, k := k } := by
                simpa using he.symm
              subst he2
              dsimp only
              rw [ha.factory, h2]
            · rw [List.getElem?_eq_none (by simp; omega)] at he
              cases he
      | getLoadOrStore k n r m =>
        cases hk : c.m.SyncMap.lookup k with
        | none =>
          simp only [Conc.stepThread, SyncMap.LoadOrStore, hk] at h
          cases h
          exact accounted_set nv c ha _ t _ _ ht (by rfl) rfl rfl rfl ha.values
        | some v =>
          simp only [Conc.stepThread, SyncMap.LoadOrStore, hk] at h
          cases h
          exact accounted_set nv c ha _ t _ _ ht (by rfl) rfl rfl rfl ha.values
      | getRetry k n v r m =>
        obtain ⟨-, dv, hdv, -⟩ := hkey
        cases hl : c.locked v with
        | true =>
          simp only [Conc.stepThread, hl, if_true] at h
          cases h
          exact ha
        | false =>
          by_cases hpos : 1 ≤ dv.references
          · simp only [Conc.stepThread, hl, Bool.false_eq_true, if_false,
              allocate_live c.m v dv hdv hpos] at h
            cases h
            exact accounted_allocated nv c ha t _ _ ht (by rfl) v dv _ hdv
          · simp only [Conc.stepThread, hl, Bool.false_eq_true, if_false,
              allocate_retired c.m v dv hdv (by omega)] at h
            cases h
            exact accounted_set nv c ha c.m t _ _ ht (by rfl) rfl rfl rfl ha.values
      | getReturn k v l r m =>
        obtain ⟨dv, hdv, -⟩ := hkey
        simp only [Conc.stepThread, hdv] at h
        cases h
        have hs := sum_map_set Pc.made c.threads t (.getReturn k v l r m) .done ht
        have h1 := ha.calls
        refine ⟨?_, ha.heap, ha.factory, ha.values⟩
        dsimp only
        simp only [List.map_append, List.sum_append, List.map_cons, List.map_nil, List.sum_cons,
          List.sum_nil]
        simp only [Pc.made] at hs
        omega
      | releaseLock v =>
        obtain ⟨dv, hdv⟩ := hkey
        cases hl : c.locked v with
        | true =>
          simp only [Conc.stepThread, hl, if_true] at h
          cases h
          exact ha
        | false =>
          by_cases hz : dv.references - 1 ≤ 0
          · simp only [Conc.stepThread, hl, Bool.false_eq_true, if_false, hdv, hz, if_true] at h
            cases h
            exact accounted_allocated nv c ha t _ _ ht (by rfl) v dv _ hdv
          · simp only [Conc.stepThread, hl, Bool.false_eq_true, if_false, hdv, hz] at h
            cases h
            exact accounted_allocated nv c ha t _ _ ht (by rfl) v dv _ hdv
      | releaseDelete v =>
        obtain ⟨dv, hdv⟩ := hkey
        simp only [Conc.stepThread, hdv] at h
        cases h
        exact accounted_set nv c ha _ t _ _ ht (by rfl) rfl rfl rfl ha.values
      | done =>
        simp only [Conc.stepThread] at h
        cases h
        exact ha

/-- Every interleaving of calls from the empty map runs without fault and ends
in a state that satisfies the invariant and the accounting of the factory's
invocations. -/
theorem conc_reach_accounted (newValue : Nat → V) (c : Conc K V) (hi : c.Inv)
    (ha : c.Accounted newValue) (sched : List (Sched K)) :
    ∃ c1, Conc.run c sched = .ok c1 ∧ c1.Inv ∧ c1.Accounted newValue := by
  induction sched generalizing c with
  | nil => exact ⟨c, rfl, hi, ha⟩
  | cons x xs ih =>
    obtain ⟨c1, h1⟩ := conc_step_total c hi x
    obtain ⟨c2, h2, hi2, ha2⟩ :=
      ih c1 (conc_step_Inv c c1 hi x h1) (accounted_step newValue c c1 hi ha x h1)
    exact ⟨c2, by simp only [Conc.run, h1, h2], hi2, ha2⟩

/-- The entry that a `Get` constructed and may still store is as constructed:
its count is the initial 1, its key is the key of the `Get`, and its value is
the result of the one invocation of the factory that made it. -/
theorem newV_as_constructed (nv : Nat → V) (c : Conc K V) (hi : c.Inv) (ha : c.Accounted nv)
    (pc : Pc K) (hmem : pc ∈ c.threads) (k : K) (n : Nat) (hf : Pc.fresh pc n = true)
    (hk : ∃ d, c.m.heap[n]? = some d ∧ d.k = k) :
    ∃ d, c.m.heap[n]? = some d ∧ d.references = 1 ∧ d.k = k ∧ d.value = nv n := by
  obtain ⟨d, hd, hdk⟩ := hk
  have hpos := count_pos_of_mem c Pc.fresh n pc hmem hf
  rcases hi.entry n d hd with h | h
  · obtain ⟨-, h2, -⟩ := h
    omega
  · exact ⟨d, hd, h.1, hdk, ha.values n d hd⟩

/-- The construction step of `Get` is the one invocation of the factory: it
takes the next result of the factory, puts it in a new entry with count 1, and
enters the loop. -/
theorem construct_step (c : Conc K V) (t : Nat) (k : K)
    (ht : c.threads[t]? = some (.getConstruct k)) :
    ∃ c1, c.step (.run t) = .ok c1 ∧ c1.m.calls = c.m.calls + 1 ∧
      c1.m.heap =
        c.m.heap ++ [{ value := c.m.makeNew c.m.calls, references := 1, k := k }] ∧
      c1.m.SyncMap = c.m.SyncMap ∧
      c1.threads[t]? = some (.getLoadOrStore k c.m.heap.length 0 1) := by
  have hlt := getElem?_lt_of_some _ _ _ ht
  have hstep : c.step (.run t) =
      .ok { m := { SyncMap := c.m.SyncMap
                   heap := c.m.heap ++
                     [{ value := c.m.makeNew c.m.calls, references := 1, k := k }]
                   makeNew := c.m.makeNew
                   calls := c.m.calls + 1 }
            threads := c.threads.set t (.getLoadOrStore k c.m.heap.length 0 1)
            handles := c.handles } := by
    simp only [Conc.step, ht, Conc.stepThread]
  exact ⟨_, hstep, rfl, rfl, rfl, List.getElem?_set_self hlt⟩

/-- The `LoadOrStore` step of the loop of `Get` invokes no factory and
constructs nothing: the thread goes on to `allocate` on the entry it found,
or to the return with its own `newV`, now stored. -/
theorem loop_LoadOrStore_step (c : Conc K V) (t : Nat) (k : K) (n r m : Nat)
    (ht : c.threads[t]? = some (.getLoadOrStore k n r m)) :
    ∃ c1, c.step (.run t) = .ok c1 ∧ c1.m.calls = c.m.calls ∧ c1.m.heap = c.m.heap ∧
      ((∃ v, c1.threads[t]? = some (.getRetry k n v (r + 1) m)) ∨
       c1.threads[t]? = some (.getReturn k n false (r + 1) m)) := by
  have hlt := getElem?_lt_of_some _ _ _ ht
  cases hk : c.m.SyncMap.lookup k with
  | none =>
    have hstep : c.step (.run t) =
        .ok { m := { SyncMap := c.m.SyncMap ++ [(k, n)], heap := c.m.heap
                     makeNew := c.m.makeNew, calls := c.m.calls }
              threads := c.threads.set t (.getReturn k n false (r + 1) m)
              handles := c.handles } := by
      simp only [Conc.step, ht, Conc.stepThread, SyncMap.LoadOrStore, hk]
    exact ⟨_, hstep, rfl, rfl, Or.inr (List.getElem?_set_self hlt)⟩
  | some v =>
    have hstep : c.step (.run t) =
        .ok { m := { SyncMap := c.m.SyncMap, heap := c.m.heap
                     makeNew := c.m.makeNew, calls := c.m.calls }
              threads := c.threads.set t (.getRetry k n v (r + 1) m)
              handles := c.handles } := by
      simp only [Conc.step, ht, Conc.stepThread, SyncMap.LoadOrStore, hk]
    exact ⟨_, hstep, rfl, rfl, Or.inl ⟨v, List.getElem?_set_self hlt⟩⟩

/-- The `allocate` step of the loop of `Get` invokes no factory and constructs
nothing: the thread waits for the lock, goes on to the return, or goes back to
`LoadOrStore` with the `newV` it has. -/
theorem loop_allocate_step (c : Conc K V) (hi : c.Inv) (t : Nat) (k : K) (n v r m : Nat)
    (ht : c.threads[t]? = some (.getRetry k n v r m)) :
    ∃ c1, c.step (.run t) = .ok c1 ∧ c1.m.calls = c.m.calls ∧
      c1.m.heap.length = c.m.heap.length ∧
      (c1.threads[t]? = some (.getRetry k n v r m) ∨
       c1.threads[t]? = some (.getReturn k v true r m) ∨
       c1.threads[t]? = some (.getLoadOrStore k n r m)) := by
  have hlt := getElem?_lt_of_some _ _ _ ht
  obtain ⟨-, dv, hdv, -⟩ := hi.threads _ (mem_of_getElem? _ _ _ ht)
  cases hl : c.locked v with
  | true =>
    exact ⟨c, by simp only [Conc.step, ht, Conc.stepThread, hl, if_true], rfl, rfl, Or.inl ht⟩
  | false =>
    by_cases hpos : 1 ≤ dv.references
    · have hstep : c.step (.run t) =
          .ok { m := { SyncMap := c.m.SyncMap
                       heap := c.m.heap.set v
                         { value := dv.value, references := dv.references + 1, k := dv.k }
                       makeNew := c.m.makeNew, calls := c.m.calls }
                threads := c.threads.set t (.getReturn k v true r m)
                handles := c.handles } := by
        simp only [Conc.step, ht, Conc.stepThread, hl, Bool.false_eq_true, if_false,
          allocate_live c.m v dv hdv hpos]
      exact ⟨_, hstep, rfl, List.length_set _ _ _,
        Or.inr (Or.inl (List.getElem?_set_self hlt))⟩
    · have hstep : c.step (.run t) =
          .ok { m := c.m, threads := c.threads.set t (.getLoadOrStore k n r m)
                handles := c.handles } := by
        simp only [Conc.step, ht, Conc.stepThread, hl, Bool.false_eq_true, if_false,
          allocate_retired c.m v dv hdv (by omega)]
      exact ⟨_, hstep, rfl, rfl, Or.inr (Or.inr (List.getElem?_set_self hlt))⟩

theorem sum_eq_countP {α : Type} (f : α → Nat) (g : α → Bool) (l : List α)
    (h : ∀ x ∈ l, f x = if g x = true then 1 else 0) : (l.map f).sum = l.countP g := by
  induction l with
  | nil => rfl
  | cons x xs ih =>
    have hx := h x (List.mem_cons_self _ _)
    have hxs := ih (fun y hy => h y (List.mem_cons_of_mem _ hy))
    simp only [List.map_cons, List.sum_cons, List.countP_cons]
    rw [hxs, hx]
    omega

/-- The factory has been invoked once for each `Get` that has passed its
construction step, whatever number of `LoadOrStore` steps each has executed. -/
theorem calls_eq_entered (nv : Nat → V) (c : Conc K V) (hi : c.Inv) (ha : c.Accounted nv) :
    c.m.calls =
      c.threads.countP Pc.entered + c.handles.countP (fun h => decide (1 ≤ h.rounds)) := by
  have h1 : (c.threads.map Pc.made).sum = c.threads.countP Pc.entered := by
    apply sum_eq_countP
    intro pc hmem
    have ht := hi.tally pc hmem
    cases pc with
    | getLoadOrStore k n r m => simpa [Pc.made, Pc.entered, Pc.tally] using ht
    | getRetry k n v r m =>
      simp only [Pc.tally] at ht
      simp [Pc.made, Pc.entered, ht.2]
    | getReturn k v l r m =>
      simp only [Pc.tally] at ht
      rcases ht with ⟨h1, h2, -⟩ | ⟨h1, h2⟩
      · simp [Pc.made, Pc.entered, h1, h2]
      · simp [Pc.made, Pc.entered, h1, h2]
    | _ => simp [Pc.made, Pc.entered]
  have h2 : (c.handles.map Returned.made).sum =
      c.handles.countP (fun h => decide (1 ≤ h.rounds)) := by
    apply sum_eq_countP
    intro h hmem
    rcases hi.tallied h hmem with ⟨h1, h2, -⟩ | ⟨h1, h2⟩
    · simp [h1, h2]
    · simp [h1, h2]
  rw [ha.calls, h1, h2]

end lemmas

/-! ## The properties of the specification -/

section claims
variable {K V : Type} [DecidableEq K]

/-- C1: in every sequential execution from an empty map (a sequence of `Get`
calls and calls of returned handles), the execution runs to the end, and if no
handle was called more than once then for every key `k` the number of handles
for `k` returned and not yet called equals `references` of the entry stored
under `k` when there is one, that number is zero exactly when `k` is absent
from the store, and the store is empty once every handle was called. The
statement holds for every execution, hence after every step of one. -/
theorem outstanding_eq_references (fuel : Nat) (newValue : Nat → V) (acts : List (Action K))
    (hs : ScopedFrom 0 acts) (k : K) :
    ∃ e, run (fuel + 1) (Exec.init newValue) acts = .ok e ∧
      (e.once →
        (∀ p, SyncMap.Load e.m.SyncMap k = some p →
          ∃ c, e.m.heap[p]? = some c ∧ c.references = (outstanding e k : Int)) ∧
        (outstanding e k = 0 ↔ SyncMap.Load e.m.SyncMap k = none) ∧
        ((∀ h ∈ e.handles, h.called ≠ 0) → e.m.SyncMap = [])) := by
  obtain ⟨e, hrun, he, hcnt⟩ := reach fuel newValue acts hs
  refine ⟨e, hrun, fun ho => ?_⟩
  have hc := hcnt ho
  unfold SyncMap.Load
  refine ⟨?_, ?_, ?_⟩
  · intro p hk
    obtain ⟨c, hcp, -, -⟩ := he.map.stored k p hk
    exact ⟨c, hcp, by rw [hc.count p c hcp, outstanding_eq_holders e he hc k p hk]⟩
  · constructor
    · intro hz
      cases hk : e.m.SyncMap.lookup k with
      | none => rfl
      | some p =>
        obtain ⟨c, hcp, -, hpos⟩ := he.map.stored k p hk
        have h1 := hc.count p c hcp
        have h2 := outstanding_eq_holders e he hc k p hk
        omega
    · exact outstanding_absent e he hc k
  · intro hall
    apply lookup_nil_of_forall
    intro k'
    cases hk : e.m.SyncMap.lookup k' with
    | none => rfl
    | some p =>
      obtain ⟨c, hcp, -, hpos⟩ := he.map.stored k' p hk
      have h1 := hc.count p c hcp
      have h2 : holders e p = 0 := by
        unfold holders
        rw [List.countP_eq_zero]
        intro h hmem
        simp [hall h hmem]
      omega

theorem outstanding_eq_references_witness :
    ScopedFrom 0 [Action.get 7, .get 7, .call 0] ∧
    ∃ e, run 1 (Exec.init (fun i => i) : Exec Nat Nat) [.get 7, .get 7, .call 0] = .ok e ∧
      e.once ∧
      (∀ p, SyncMap.Load e.m.SyncMap 7 = some p →
        ∃ c, e.m.heap[p]? = some c ∧ c.references = (outstanding e 7 : Int)) ∧
      (outstanding e 7 = 0 ↔ SyncMap.Load e.m.SyncMap 7 = none) ∧
      ((∀ h ∈ e.handles, h.called ≠ 0) → e.m.SyncMap = []) := by
  obtain ⟨e, hrun, h⟩ := outstanding_eq_references 0 (fun i => i)
    [Action.get 7, .get 7, .call 0] ⟨by decide, trivial⟩ 7
  have h0 : run 1 (Exec.init (fun i => i) : Exec Nat Nat) [.get 7, .get 7, .call 0] =
      .ok afterGetGetCall := rfl
  rw [h0] at hrun
  cases hrun
  have ho : Exec.once afterGetGetCall := by
    simp [Exec.once, afterGetGetCall, afterGetGetCallOther]
  exact ⟨⟨by decide, trivial⟩, _, h0, ho, h ho⟩

/-- C2: in every map state in which key `k` is absent from the store, `Get(k)`
returns (one unit of fuel suffices), invokes the factory exactly once, returns
that factory result with `loaded = false` after one `LoadOrStore`, and leaves
under `k` a newly allocated entry with that value, key `k` and
`references = 1`. -/
theorem Get_absent_creates (fuel : Nat) (s : Map K V) (k : K)
    (hk : SyncMap.Load s.SyncMap k = none) :
    ∃ s1 r, Get (fuel + 1) s k = .ok (s1, r) ∧
      s1.calls = s.calls + 1 ∧
      r.value = s.makeNew s.calls ∧
      r.loaded = false ∧
      SyncMap.Load s1.SyncMap k = some r.release ∧
      s.heap[r.release]? = none ∧
      s1.heap[r.release]? = some { value := s.makeNew s.calls, references := 1, k := k } := by
  refine ⟨_, _, Get_absent fuel s k hk, rfl, rfl, rfl, ?_, ?_, ?_⟩
  · unfold SyncMap.Load at hk ⊢
    dsimp only
    rw [lookup_append_single, hk]
    simp
  · dsimp only
    exact List.getElem?_eq_none (le_refl _)
  · dsimp only
    simp

theorem Get_absent_creates_witness :
    SyncMap.Load (New (fun i => i + 40) : Map Nat Nat).SyncMap 3 = none ∧
    ∃ s1 r, Get 1 (New (fun i => i + 40) : Map Nat Nat) 3 = .ok (s1, r) ∧
      s1.calls = (New (fun i => i + 40) : Map Nat Nat).calls + 1 ∧
      r.value = 40 ∧
      r.loaded = false ∧
      SyncMap.Load s1.SyncMap 3 = some r.release ∧
      (New (fun i => i + 40) : Map Nat Nat).heap[r.release]? = none ∧
      s1.heap[r.release]? = some { value := 40, references := 1, k := 3 } :=
  ⟨rfl, Get_absent_creates 0 (New (fun i => i + 40)) 3 rfl⟩

/-- C3 as stated fails at the largest count of Go's `int`: in the state
`atMaxInt` the store holds under key 7 an entry with `references = maxInt > 0`;
`Get(7)` returns that entry's value with `loaded = true`, and `v.references++`
wraps around: the count is `minInt` afterwards, not `maxInt + 1`. -/
theorem Get_present_wraps_counterexample :
    SyncMap.Load atMaxInt.SyncMap 7 = some 0 ∧
    atMaxInt.heap[0]? = some { value := 5, references := maxInt, k := 7 } ∧
    0 < maxInt ∧
    ∃ s1 r, Wrapping.Get 0 atMaxInt 7 = .ok (s1, r) ∧
      r.value = 5 ∧
      r.loaded = true ∧
      s1.heap[0]? = some { value := 5, references := minInt, k := 7 } ∧
      s1.heap[0]? ≠ some { value := 5, references := maxInt + 1, k := 7 } :=
  ⟨rfl, rfl, by decide,
   { atMaxInt with heap := [{ value := 5, references := minInt, k := 7 }] },
   { value := 5, release := 0, loaded := true, rounds := 0 },
   rfl, rfl, rfl, rfl, by decide⟩

/-- C3, amended: in every map state in which the store holds under `k` an entry
with `references = n`, `0 < n < maxInt` (the largest value of Go's `int`),
`Get(k)`, computed with Go's arithmetic, returns (with any fuel) that entry's
value with `loaded = true`, does not invoke the factory, executes no
`LoadOrStore`, leaves the store as it is, and the entry is the same except that
its `references` is `n + 1`; every other counter is unchanged. -/
theorem Get_present_shares (fuel : Nat) (s : Map K V) (k : K) (p : Nat) (c : counter K V)
    (hk : SyncMap.Load s.SyncMap k = some p) (hc : s.heap[p]? = some c)
    (hn : 0 < c.references) (hmax : c.references < maxInt) :
    ∃ s1 r, Wrapping.Get fuel s k = .ok (s1, r) ∧
      r.value = c.value ∧
      r.loaded = true ∧
      r.release = p ∧
      s1.calls = s.calls ∧
      s1.SyncMap = s.SyncMap ∧
      s1.heap[p]? = some { value := c.value, references := c.references + 1, k := c.k } ∧
      (∀ q, q ≠ p → s1.heap[q]? = s.heap[q]?) := by
  have hlt := getElem?_lt_of_some _ _ _ hc
  have hw : Wrapping.allocate s p = allocate s p :=
    wrapping_allocate_eq s p (fun c1 hc1 => by rw [hc] at hc1; cases hc1; exact hmax)
  have hg : Wrapping.Get fuel s k =
      .ok ({ s with heap := s.heap.set p { c with references := c.references + 1 } },
           { value := c.value, release := p, loaded := true, rounds := 0 }) := by
    simp [Wrapping.Get, hk, hw, allocate_live s p c hc hn, Get.ret, hlt]
  refine ⟨_, _, hg, rfl, rfl, rfl, rfl, rfl, ?_, ?_⟩
  · exact List.getElem?_set_self hlt
  · intro q hq
    exact List.getElem?_set_ne (Ne.symm hq)

theorem Get_present_shares_witness :
    SyncMap.Load twoHeld.SyncMap 7 = some 0 ∧
    twoHeld.heap[0]? = some { value := 5, references := 2, k := 7 } ∧
    (0 : Int) < 2 ∧ (2 : Int) < maxInt ∧
    ∃ s1 r, Wrapping.Get 0 twoHeld 7 = .ok (s1, r) ∧
      r.value = 5 ∧
      r.loaded = true ∧
      r.release = 0 ∧
      s1.calls = twoHeld.calls ∧
      s1.SyncMap = twoHeld.SyncMap ∧
      s1.heap[0]? = some { value := 5, references := 2 + 1, k := 7 } ∧
      (∀ q, q ≠ 0 → s1.heap[q]? = twoHeld.heap[q]?) :=
  ⟨rfl, rfl, by decide, by decide,
   Get_present_shares 0 twoHeld 7 0 { value := 5, references := 2, k := 7 } rfl rfl
     (by decide) (by decide)⟩

/-- C4: in every sequential execution from an empty map, if no handle was
called more than once then every handle returned and not yet called is bound to
the entry currently stored under its key, `Load` of its key returns the value
it was returned with and `loaded = true`, and two uncalled handles for one key
are bound to the same entry and were returned with the same value. -/
theorem unreleased_handle_is_stored [Inhabited V] (fuel : Nat) (newValue : Nat → V)
    (acts : List (Action K)) (hs : ScopedFrom 0 acts) :
    ∃ e, run (fuel + 1) (Exec.init newValue) acts = .ok e ∧
      (e.once →
        (∀ h ∈ e.handles, h.called = 0 →
          SyncMap.Load e.m.SyncMap h.key = some h.ptr ∧
          (∃ c, e.m.heap[h.ptr]? = some c ∧ c.value = h.value ∧ c.k = h.key) ∧
          Load e.m h.key = .ok (e.m, h.value, true)) ∧
        (∀ h1 ∈ e.handles, ∀ h2 ∈ e.handles, h1.called = 0 → h2.called = 0 →
          h1.key = h2.key → h1.ptr = h2.ptr ∧ h1.value = h2.value)) := by
  obtain ⟨e, hrun, he, hcnt⟩ := reach fuel newValue acts hs
  refine ⟨e, hrun, fun ho => ?_⟩
  have hc := hcnt ho
  have key : ∀ h ∈ e.handles, h.called = 0 →
      e.m.SyncMap.lookup h.key = some h.ptr ∧
      ∃ c, e.m.heap[h.ptr]? = some c ∧ c.value = h.value ∧ c.k = h.key ∧ 0 < c.references := by
    intro h hmem h0
    obtain ⟨d, hd, hdk, hdv⟩ := he.bound h hmem
    have h1 := hc.count h.ptr d hd
    have h2 := holders_pos_of_mem e h hmem h0
    exact ⟨uncalled_stored e he hc h hmem h0, d, hd, hdv, hdk, by omega⟩
  refine ⟨?_, ?_⟩
  · intro h hmem h0
    obtain ⟨hst, c, hcp, hcv, hck, hpos⟩ := key h hmem h0
    refine ⟨hst, ⟨c, hcp, hcv, hck⟩, ?_⟩
    simp [Load, SyncMap.Load, hst, hcp, hcv, hpos]
  · intro h1 hm1 h2 hm2 h10 h20 hkey
    obtain ⟨hst1, c1, hcp1, hcv1, -, -⟩ := key h1 hm1 h10
    obtain ⟨hst2, c2, hcp2, hcv2, -, -⟩ := key h2 hm2 h20
    rw [hkey, hst2] at hst1
    have hp : h1.ptr = h2.ptr := (Option.some.inj hst1).symm
    rw [hp, hcp2] at hcp1
    cases hcp1
    exact ⟨hp, hcv1.symm.trans hcv2⟩

theorem unreleased_handle_is_stored_witness :
    ScopedFrom 0 [Action.get 7, .get 7, .call 0] ∧
    ∃ e, run 1 (Exec.init (fun i => i) : Exec Nat Nat) [.get 7, .get 7, .call 0] = .ok e ∧
      e.once ∧
      (∀ h ∈ e.handles, h.called = 0 →
        SyncMap.Load e.m.SyncMap h.key = some h.ptr ∧
        (∃ c, e.m.heap[h.ptr]? = some c ∧ c.value = h.value ∧ c.k = h.key) ∧
        Load e.m h.key = .ok (e.m, h.value, true)) ∧
      (∀ h1 ∈ e.handles, ∀ h2 ∈ e.handles, h1.called = 0 → h2.called = 0 →
        h1.key = h2.key → h1.ptr = h2.ptr ∧ h1.value = h2.value) := by
  obtain ⟨e, hrun, h⟩ := unreleased_handle_is_stored 0 (fun i => i)
    [Action.get 7, .get 7, .call 0] ⟨by decide, trivial⟩
  have h0 : run 1 (Exec.init (fun i => i) : Exec Nat Nat) [.get 7, .get 7, .call 0] =
      .ok afterGetGetCall := rfl
  rw [h0] at hrun
  cases hrun
  have ho : Exec.once afterGetGetCall := by
    simp [Exec.once, afterGetGetCall, afterGetGetCallOther]
  exact ⟨⟨by decide, trivial⟩, _, h0, ho, h ho⟩

/-- C5: in every sequential execution from an empty map, a further `Get(k)`
returns, and if no handle was called more than once then: it returns
`loaded = true` exactly when some handle returned for `k` is still uncalled,
and then the value is the one every such handle was returned with and the
factory is not invoked; it returns `loaded = false` exactly when no handle for
`k` is outstanding, and then the value is the result of the one factory call
this `Get` makes and is the value of the entry stored under `k` afterwards. -/
theorem Get_loaded_iff_outstanding (fuel : Nat) (newValue : Nat → V)
    (acts : List (Action K)) (hs : ScopedFrom 0 acts) (k : K) :
    ∃ e s1 r, run (fuel + 1) (Exec.init newValue) acts = .ok e ∧
      Get (fuel + 1) e.m k = .ok (s1, r) ∧
      (e.once →
        (r.loaded = true ↔ 0 < outstanding e k) ∧
        (r.loaded = true →
          s1.calls = e.m.calls ∧
          ∀ h ∈ e.handles, h.key = k → h.called = 0 → r.value = h.value) ∧
        (r.loaded = false ↔ outstanding e k = 0) ∧
        (r.loaded = false →
          r.value = e.m.makeNew e.m.calls ∧ s1.calls = e.m.calls + 1 ∧
          SyncMap.Load s1.SyncMap k = some r.release ∧
          ∃ c, s1.heap[r.release]? = some c ∧ c.value = r.value)) := by
  obtain ⟨e, hrun, he, hcnt⟩ := reach fuel newValue acts hs
  cases hk : e.m.SyncMap.lookup k with
  | none =>
    refine ⟨e, _, _, hrun, Get_absent fuel e.m k hk, fun ho => ?_⟩
    have hz := outstanding_absent e he (hcnt ho) k hk
    refine ⟨by simp [hz], by simp, by simp [hz], fun _ => ⟨rfl, rfl, ?_, ?_⟩⟩
    · unfold SyncMap.Load
      dsimp only
      rw [lookup_append_single, hk]
      simp
    · exact ⟨{ value := e.m.makeNew e.m.calls, references := 1, k := k }, by simp, rfl⟩
  | some p =>
    obtain ⟨c, hcp, hck, hpos⟩ := he.map.stored k p hk
    refine ⟨e, _, _, hrun, Get_present (fuel + 1) e.m k p c hk hcp hpos, fun ho => ?_⟩
    have hc := hcnt ho
    have h1 := hc.count p c hcp
    have h2 := outstanding_eq_holders e he hc k p hk
    have hpos2 : 0 < outstanding e k := by omega
    refine ⟨by simp [hpos2], fun _ => ⟨rfl, ?_⟩, ?_, by simp⟩
    · intro h hmem hkey h0
      have hst := uncalled_stored e he hc h hmem h0
      rw [hkey, hk] at hst
      obtain ⟨d, hd, -, hdv⟩ := he.bound h hmem
      rw [← Option.some.inj hst, hcp] at hd
      cases hd
      exact hdv
    · have : outstanding e k ≠ 0 := by omega
      simp [this]

theorem Get_loaded_iff_outstanding_witness :
    ScopedFrom 0 [Action.get 7, .get 8, .call 1] ∧
    ∃ e s1 r, run 1 (Exec.init (fun i => i) : Exec Nat Nat) [.get 7, .get 8, .call 1] = .ok e ∧
      Get 1 e.m 7 = .ok (s1, r) ∧
      e.once ∧
      (r.loaded = true ↔ 0 < outstanding e 7) ∧
      (r.loaded = true →
        s1.calls = e.m.calls ∧
        ∀ h ∈ e.handles, h.key = 7 → h.called = 0 → r.value = h.value) ∧
      (r.loaded = false ↔ outstanding e 7 = 0) ∧
      (r.loaded = false →
        r.value = e.m.makeNew e.m.calls ∧ s1.calls = e.m.calls + 1 ∧
        SyncMap.Load s1.SyncMap 7 = some r.release ∧
        ∃ c, s1.heap[r.release]? = some c ∧ c.value = r.value) := by
  obtain ⟨e, s1, r, hrun, hget, h⟩ := Get_loaded_iff_outstanding 0 (fun i => i)
    [Action.get 7, .get 8, .call 1] ⟨by decide, trivial⟩ 7
  have h0 : run 1 (Exec.init (fun i => i) : Exec Nat Nat) [.get 7, .get 8, .call 1] =
      .ok afterGetGetCallOther := rfl
  rw [h0] at hrun
  cases hrun
  have ho : Exec.once afterGetGetCallOther := by
    simp [Exec.once, afterGetGetCall, afterGetGetCallOther]
  exact ⟨⟨by decide, trivial⟩, _, s1, r, h0, hget, ho, h ho⟩

/-- C6 as stated fails: after one `Get(7)` whose handle is still uncalled, a
second `Get(7)` followed at once by the call of its handle leaves key 7 stored,
and `Load(7)` returns `loaded = true`. -/
theorem Get_release_leaves_absent_counterexample :
    ∃ e s1 r s2, run 1 (Exec.init (fun i => i) : Exec Nat Nat) [.get 7] = .ok e ∧
      Get 1 e.m 7 = .ok (s1, r) ∧
      release s1 r.release = .ok s2 ∧
      Load s2 7 = .ok (s2, 0, true) :=
  ⟨{ m := { SyncMap := [(7, 0)], heap := [{ value := 0, references := 1, k := 7 }],
            makeNew := fun i => i, calls := 1 }
     handles := [{ key := 7, value := 0, ptr := 0, loaded := false, called := 0 }] },
   { SyncMap := [(7, 0)], heap := [{ value := 0, references := 2, k := 7 }],
     makeNew := fun i => i, calls := 1 },
   { value := 0, release := 0, loaded := true, rounds := 0 },
   { SyncMap := [(7, 0)], heap := [{ value := 0, references := 1, k := 7 }],
     makeNew := fun i => i, calls := 1 },
   rfl, rfl, rfl, rfl⟩

/-- C6, amended: in every map state in which key `k` is absent from the store,
`Get(k)` followed immediately by the call of the handle it returned leaves `k`
absent: a subsequent `Load(k)` returns the zero value and `loaded = false`. -/
theorem Get_release_leaves_absent [Inhabited V] (fuel : Nat) (s : Map K V) (k : K)
    (hk : SyncMap.Load s.SyncMap k = none) :
    ∃ s1 r s2, Get (fuel + 1) s k = .ok (s1, r) ∧
      release s1 r.release = .ok s2 ∧
      SyncMap.Load s2.SyncMap k = none ∧
      Load s2 k = .ok (s2, default, false) := by
  have hrel := release_eq
    ({ SyncMap := s.SyncMap ++ [(k, s.heap.length)]
       heap := s.heap ++ [{ value := s.makeNew s.calls, references := 1, k := k }]
       makeNew := s.makeNew
       calls := s.calls + 1 } : Map K V) s.heap.length
    { value := s.makeNew s.calls, references := 1, k := k } (by simp)
  have habs : (SyncMap.Delete (s.SyncMap ++ [(k, s.heap.length)]) k).lookup k = none := by
    rw [lookup_Delete]
    simp
  refine ⟨_, _, _, Get_absent fuel s k hk, hrel, ?_, ?_⟩
  · simpa [SyncMap.Load] using habs
  · have : ((1 : Int) - 1 ≤ 0) := by decide
    simp only [Load, SyncMap.Load, this, if_true, habs]

theorem Get_release_leaves_absent_witness :
    SyncMap.Load (New (fun i => i) : Map Nat Nat).SyncMap 7 = none ∧
    ∃ s1 r s2, Get 1 (New (fun i => i) : Map Nat Nat) 7 = .ok (s1, r) ∧
      release s1 r.release = .ok s2 ∧
      SyncMap.Load s2.SyncMap 7 = none ∧
      Load s2 7 = .ok (s2, default, false) :=
  ⟨rfl, Get_release_leaves_absent 0 (New (fun i => i)) 7 rfl⟩

/-- C7: in every map state (the pointer stored under `k`, if any, being an
allocated counter), `Load(k)` returns; `loaded` is true exactly when the store
holds under `k` an entry whose `references` is greater than 0; when an entry
is stored under `k` the value is that entry's value; when none is stored the
value is the zero value of `V` and `loaded = false`. -/
theorem Load_loaded_iff_live [Inhabited V] (s : Map K V) (k : K)
    (hv : ∀ p, SyncMap.Load s.SyncMap k = some p → p < s.heap.length) :
    ∃ s1 v b, Load s k = .ok (s1, v, b) ∧
      (b = true ↔
        ∃ p c, SyncMap.Load s.SyncMap k = some p ∧ s.heap[p]? = some c ∧ 0 < c.references) ∧
      (∀ p c, SyncMap.Load s.SyncMap k = some p → s.heap[p]? = some c → v = c.value) ∧
      (SyncMap.Load s.SyncMap k = none → v = default ∧ b = false) := by
  cases hk : SyncMap.Load s.SyncMap k with
  | none =>
    refine ⟨s, default, false, by simp [Load, hk], by simp, ?_, fun _ => ⟨rfl, rfl⟩⟩
    intro p c hp
    cases hp
  | some p =>
    have hlt := hv p hk
    have hc : s.heap[p]? = some s.heap[p] := List.getElem?_eq_getElem hlt
    refine ⟨s, s.heap[p].value, decide (s.heap[p].references > 0), by simp [Load, hk, hc],
      ?_, ?_, by simp⟩
    · constructor
      · intro hb
        exact ⟨p, s.heap[p], rfl, hc, by simpa using hb⟩
      · rintro ⟨q, c, hq, hcq, hpos⟩
        cases hq
        rw [hc] at hcq
        cases hcq
        simpa using hpos
    · intro q c hq hcq
      cases hq
      rw [hc] at hcq
      cases hcq
      rfl

theorem Load_loaded_iff_live_witness :
    (∀ p, SyncMap.Load [(7, 0)] 7 = some p →
      p < [({ value := 5, references := 0, k := 7 } : counter Nat Nat)].length) ∧
    ∃ s1 v b,
      Load ({ SyncMap := [(7, 0)], heap := [{ value := 5, references := 0, k := 7 }],
              makeNew := fun i => i, calls := 1 } : Map Nat Nat) 7 = .ok (s1, v, b) ∧
      (b = true ↔
        ∃ p c, SyncMap.Load [(7, 0)] 7 = some p ∧
          [({ value := 5, references := 0, k := 7 } : counter Nat Nat)][p]? = some c ∧
          0 < c.references) ∧
      (∀ p c, SyncMap.Load [(7, 0)] 7 = some p →
        [({ value := 5, references := 0, k := 7 } : counter Nat Nat)][p]? = some c →
        v = c.value) ∧
      (SyncMap.Load [(7, 0)] 7 = none → v = default ∧ b = false) :=
  ⟨fun p hp => by cases hp; decide,
   Load_loaded_iff_live
     { SyncMap := [(7, 0)], heap := [{ value := 5, references := 0, k := 7 }],
       makeNew := fun i => i, calls := 1 } 7 (fun p hp => by cases hp; decide)⟩

/-- C8: in every map state (the pointer stored under `k`, if any, being an
allocated counter), `Load(k)` returns and leaves the state as it was: the
factory is not invoked, and the store and every counter (value, references,
key, that of `k` included) are the same after the call as before. -/
theorem Load_readonly [Inhabited V] (s : Map K V) (k : K)
    (hv : ∀ p, SyncMap.Load s.SyncMap k = some p → p < s.heap.length) :
    ∃ s1 v b, Load s k = .ok (s1, v, b) ∧
      s1.calls = s.calls ∧ s1.SyncMap = s.SyncMap ∧ s1.heap = s.heap ∧
      s1.makeNew = s.makeNew := by
  cases hk : SyncMap.Load s.SyncMap k with
  | none => exact ⟨s, default, false, by simp [Load, hk], rfl, rfl, rfl, rfl⟩
  | some p =>
    have hlt := hv p hk
    have hc : s.heap[p]? = some s.heap[p] := List.getElem?_eq_getElem hlt
    exact ⟨s, s.heap[p].value, decide (s.heap[p].references > 0), by simp [Load, hk, hc],
      rfl, rfl, rfl, rfl⟩

theorem Load_readonly_witness :
    (∀ p, SyncMap.Load [(7, 0)] 7 = some p →
      p < [({ value := 5, references := 3, k := 7 } : counter Nat Nat)].length) ∧
    ∃ s1 v b,
      Load ({ SyncMap := [(7, 0)], heap := [{ value := 5, references := 3, k := 7 }],
              makeNew := fun i => i, calls := 1 } : Map Nat Nat) 7 = .ok (s1, v, b) ∧
      s1.calls = 1 ∧ s1.SyncMap = [(7, 0)] ∧
      s1.heap = [{ value := 5, references := 3, k := 7 }] ∧
      s1.makeNew = fun i => i :=
  ⟨fun p hp => by cases hp; decide,
   Load_readonly
     { SyncMap := [(7, 0)], heap := [{ value := 5, references := 3, k := 7 }],
       makeNew := fun i => i, calls := 1 } 7 (fun p hp => by cases hp; decide)⟩

/-- C9 as stated fails: in the state after one `Get(7)`, a second `Get(7)`
returns from the first `Load` and `allocate` and never reaches the retry loop:
it executes the `LoadOrStore` step zero times, not once. -/
theorem Get_rounds_counterexample :
    ∃ e s1 r, run 1 (Exec.init (fun i => i) : Exec Nat Nat) [.get 7] = .ok e ∧
      Get 1 e.m 7 = .ok (s1, r) ∧ r.loaded = true ∧ r.rounds = 0 :=
  ⟨{ m := { SyncMap := [(7, 0)], heap := [{ value := 0, references := 1, k := 7 }],
            makeNew := fun i => i, calls := 1 }
     handles := [{ key := 7, value := 0, ptr := 0, loaded := false, called := 0 }] },
   { SyncMap := [(7, 0)], heap := [{ value := 0, references := 2, k := 7 }],
     makeNew := fun i => i, calls := 1 },
   { value := 0, release := 0, loaded := true, rounds := 0 },
   rfl, rfl, rfl, rfl⟩

/-- C9, amended: every sequential execution of `Get` and release calls from an
empty map runs to the end (handles may be called any number of times), and in
the state it reaches `Get(k)` terminates for every key `k` with a value and a
release handle: one unit of fuel suffices and more fuel gives the same result,
so the `continue` branch is never taken; the `LoadOrStore` step is executed at
most once, exactly once when `k` is absent from the store and not at all when
`k` is stored. -/
theorem Get_completes (fuel : Nat) (newValue : Nat → V) (acts : List (Action K))
    (hs : ScopedFrom 0 acts) (k : K) :
    ∃ e s1 r, run (fuel + 1) (Exec.init newValue) acts = .ok e ∧
      (∀ f, Get (f + 1) e.m k = .ok (s1, r)) ∧
      r.rounds ≤ 1 ∧
      (SyncMap.Load e.m.SyncMap k = none → r.rounds = 1 ∧ r.loaded = false) ∧
      (SyncMap.Load e.m.SyncMap k ≠ none → r.rounds = 0 ∧ r.loaded = true) ∧
      (∃ c, s1.heap[r.release]? = some c ∧ c.value = r.value ∧ c.k = k) := by
  obtain ⟨e, hrun, he, -⟩ := reach fuel newValue acts hs
  cases hk : e.m.SyncMap.lookup k with
  | none =>
    refine ⟨e, _, _, hrun, fun f => Get_absent f e.m k hk, le_refl _, fun _ => ⟨rfl, rfl⟩, ?_, ?_⟩
    · intro hne
      exact absurd hk hne
    · exact ⟨{ value := e.m.makeNew e.m.calls, references := 1, k := k }, by simp, rfl, rfl⟩
  | some p =>
    obtain ⟨c, hcp, hck, hpos⟩ := he.map.stored k p hk
    refine ⟨e, _, _, hrun, fun f => Get_present (f + 1) e.m k p c hk hcp hpos, Nat.zero_le _, ?_,
      fun _ => ⟨rfl, rfl⟩, ?_⟩
    · intro hnone
      rw [SyncMap.Load, hk] at hnone
      cases hnone
    · exact ⟨{ c with references := c.references + 1 },
        List.getElem?_set_self (getElem?_lt_of_some _ _ _ hcp), rfl, hck⟩

theorem Get_completes_witness :
    ScopedFrom 0 [Action.get 7, .call 0, .get 7, .call 0] ∧
    ∃ e s1 r,
      run 1 (Exec.init (fun i => i) : Exec Nat Nat) [.get 7, .call 0, .get 7, .call 0] = .ok e ∧
      (∀ f, Get (f + 1) e.m 7 = .ok (s1, r)) ∧
      r.rounds ≤ 1 ∧
      (SyncMap.Load e.m.SyncMap 7 = none → r.rounds = 1 ∧ r.loaded = false) ∧
      (SyncMap.Load e.m.SyncMap 7 ≠ none → r.rounds = 0 ∧ r.loaded = true) ∧
      (∃ c, s1.heap[r.release]? = some c ∧ c.value = r.value ∧ c.k = 7) :=
  ⟨⟨by decide, by decide, trivial⟩,
   Get_completes 0 (fun i => i) [.get 7, .call 0, .get 7, .call 0]
     ⟨by decide, by decide, trivial⟩ 7⟩

/-- C10: calling a release handle twice can evict a live entry. In the
execution `Get(k)` giving `r1`, `r1()`, `Get(k)` giving `r2`, `r1()` again, for
any key `k` and any factory: before the last call the entry of `r2` is stored
under `k` with `references = 1`; the last call deletes it from the store
although `r2` was never called, so that `Load(k)` returns `loaded = false`, and
it leaves the first entry with `references = -1`, while the evicted entry still
has `references = 1`. -/
theorem double_release_evicts_live_entry [Inhabited V] (newValue : Nat → V) (k : K) :
    ∃ e3 e4 : Exec K V,
      run 1 (Exec.init newValue) [.get k, .call 0, .get k] = .ok e3 ∧
      step 1 e3 (.call 0) = .ok e4 ∧
      run 1 (Exec.init newValue) [.get k, .call 0, .get k, .call 0] = .ok e4 ∧
      e3.handles =
        [{ key := k, value := newValue 0, ptr := 0, loaded := false, called := 1 },
         { key := k, value := newValue 1, ptr := 1, loaded := false, called := 0 }] ∧
      SyncMap.Load e3.m.SyncMap k = some 1 ∧
      e3.m.heap = [{ value := newValue 0, references := 0, k := k },
                   { value := newValue 1, references := 1, k := k }] ∧
      Load e3.m k = .ok (e3.m, newValue 1, true) ∧
      e4.handles =
        [{ key := k, value := newValue 0, ptr := 0, loaded := false, called := 2 },
         { key := k, value := newValue 1, ptr := 1, loaded := false, called := 0 }] ∧
      SyncMap.Load e4.m.SyncMap k = none ∧
      e4.m.heap = [{ value := newValue 0, references := -1, k := k },
                   { value := newValue 1, references := 1, k := k }] ∧
      Load e4.m k = .ok (e4.m, default, false) := by
  refine ⟨{ m := { SyncMap := [(k, 1)]
                   heap := [{ value := newValue 0, references := 0, k := k },
                            { value := newValue 1, references := 1, k := k }]
                   makeNew := newValue, calls := 2 }
            handles :=
              [{ key := k, value := newValue 0, ptr := 0, loaded := false, called := 1 },
               { key := k, value := newValue 1, ptr := 1, loaded := false, called := 0 }] },
          { m := { SyncMap := []
                   heap := [{ value := newValue 0, references := -1, k := k },
                            { value := newValue 1, references := 1, k := k }]
                   makeNew := newValue, calls := 2 }
            handles :=
              [{ key := k, value := newValue 0, ptr := 0, loaded := false, called := 2 },
               { key := k, value := newValue 1, ptr := 1, loaded := false, called := 0 }] },
          ?_, ?_, ?_, rfl, ?_, rfl, ?_, rfl, rfl, rfl, ?_⟩
  · simp [run, step, Get, Get.slow, Get.loop, Get.ret, release, allocate, SyncMap.Load,
      SyncMap.LoadOrStore, SyncMap.Delete, Exec.init, New, List.lookup]
  · simp [step, release, SyncMap.Delete]
  · simp [run, step, Get, Get.slow, Get.loop, Get.ret, release, allocate, SyncMap.Load,
      SyncMap.LoadOrStore, SyncMap.Delete, Exec.init, New, List.lookup]
  · simp [SyncMap.Load, List.lookup]
  · simp [Load, SyncMap.Load, List.lookup]
  · simp [Load, SyncMap.Load, List.lookup]

/-- C14 as stated fails at the smallest count of Go's `int`: in the state
`atMinInt` the entry stored under key 7 has `references = minInt`; `release`
on it wraps around in `v.references--`: the count is `maxInt` afterwards, not
`minInt - 1`, and although `minInt - 1 <= 0` the key is not deleted from the
store. -/
theorem release_wraps_counterexample :
    atMinInt.heap[0]? = some { value := 5, references := minInt, k := 7 } ∧
    minInt - 1 ≤ 0 ∧
    ∃ s1, Wrapping.release atMinInt 0 = .ok s1 ∧
      s1.heap[0]? = some { value := 5, references := maxInt, k := 7 } ∧
      s1.heap[0]? ≠ some { value := 5, references := minInt - 1, k := 7 } ∧
      s1.SyncMap = atMinInt.SyncMap ∧
      SyncMap.Load s1.SyncMap 7 = some 0 :=
  ⟨rfl, by decide,
   { atMinInt with heap := [{ value := 5, references := maxInt, k := 7 }] },
   rfl, rfl, by decide, rfl, rfl⟩

/-- C14, amended: for every allocated entry with `references = n`, stored or
not, `n` being a value of Go's `int` other than the smallest (`minInt < n` and
`n <= maxInt`), `release`, computed with Go's arithmetic, returns and sets
`references` to `n - 1`, leaving the entry's value and key, every other counter
and the factory as they were. When `n - 1 <= 0` it deletes the entry's key from
the store (the key is absent afterwards and the other keys are looked up as
before); when `n - 1 > 0` the store is unchanged. -/
theorem release_decrements (s : Map K V) (p : Nat) (c : counter K V)
    (hc : s.heap[p]? = some c) (hmin : minInt < c.references)
    (hmax : c.references ≤ maxInt) :
    ∃ s1, Wrapping.release s p = .ok s1 ∧
      s1.heap[p]? = some { value := c.value, references := c.references - 1, k := c.k } ∧
      (∀ q, q ≠ p → s1.heap[q]? = s.heap[q]?) ∧
      s1.calls = s.calls ∧
      (c.references - 1 ≤ 0 →
        s1.SyncMap = SyncMap.Delete s.SyncMap c.k ∧
        SyncMap.Load s1.SyncMap c.k = none ∧
        ∀ k', k' ≠ c.k → SyncMap.Load s1.SyncMap k' = SyncMap.Load s.SyncMap k') ∧
      (0 < c.references - 1 → s1.SyncMap = s.SyncMap) := by
  have hw : Wrapping.release s p = release s p :=
    wrapping_release_eq s p (fun c1 hc1 => by rw [hc] at hc1; cases hc1; exact ⟨hmin, hmax⟩)
  rw [hw]
  refine ⟨_, release_eq s p c hc, ?_, ?_, rfl, ?_, ?_⟩
  · exact List.getElem?_set_self (getElem?_lt_of_some _ _ _ hc)
  · intro q hq
    exact List.getElem?_set_ne (Ne.symm hq)
  · intro hz
    dsimp only
    rw [if_pos hz]
    refine ⟨rfl, ?_, ?_⟩
    · simp [SyncMap.Load, lookup_Delete]
    · intro k' hk'
      simp [SyncMap.Load, lookup_Delete, hk']
  · intro hpos
    dsimp only
    rw [if_neg (by omega)]

theorem release_decrements_witness :
    oneHeld.heap[0]? = some { value := 5, references := 1, k := 7 } ∧
    minInt < 1 ∧ (1 : Int) ≤ maxInt ∧
    ∃ s1, Wrapping.release oneHeld 0 = .ok s1 ∧
      s1.heap[0]? = some { value := 5, references := 1 - 1, k := 7 } ∧
      (∀ q, q ≠ 0 → s1.heap[q]? = oneHeld.heap[q]?) ∧
      s1.calls = oneHeld.calls ∧
      ((1 : Int) - 1 ≤ 0 →
        s1.SyncMap = SyncMap.Delete oneHeld.SyncMap 7 ∧
        SyncMap.Load s1.SyncMap 7 = none ∧
        ∀ k', k' ≠ 7 → SyncMap.Load s1.SyncMap k' = SyncMap.Load oneHeld.SyncMap k') ∧
      ((0 : Int) < 1 - 1 → s1.SyncMap = oneHeld.SyncMap) :=
  ⟨rfl, by decide, by decide,
   release_decrements oneHeld 0 { value := 5, references := 1, k := 7 } rfl
     (by decide) (by decide)⟩

/-- C15 as stated fails at the largest count of Go's `int`: in the state
`atMaxInt` the entry has `references = maxInt > 0`; `allocate` returns `true`
and `v.references++` wraps around: the count is `minInt` afterwards, not
`maxInt + 1`. -/
theorem allocate_wraps_counterexample :
    atMaxInt.heap[0]? = some { value := 5, references := maxInt, k := 7 } ∧
    0 < maxInt ∧
    ∃ s1, Wrapping.allocate atMaxInt 0 = .ok (s1, true) ∧
      s1.heap[0]? = some { value := 5, references := minInt, k := 7 } ∧
      s1.heap[0]? ≠ some { value := 5, references := maxInt + 1, k := 7 } :=
  ⟨rfl, by decide,
   { atMaxInt with heap := [{ value := 5, references := minInt, k := 7 }] },
   rfl, rfl, by decide⟩

/-- C15, amended: for every allocated entry with `references = n`, `n` below
the largest value of Go's `int` (`n < maxInt`), `allocate`, computed with Go's
arithmetic, returns `true` and sets `references` to `n + 1` if `n > 0`, and
returns `false` leaving the whole state as it was if `n <= 0`; in both cases
the store, the factory, the entry's value and key and every other counter are
unchanged. -/
theorem allocate_increments_iff_live (s : Map K V) (p : Nat) (c : counter K V)
    (hc : s.heap[p]? = some c) (hmax : c.references < maxInt) :
    ∃ s1 b, Wrapping.allocate s p = .ok (s1, b) ∧
      (b = true ↔ 0 < c.references) ∧
      (0 < c.references →
        s1.heap[p]? = some { value := c.value, references := c.references + 1, k := c.k }) ∧
      (c.references ≤ 0 → s1 = s) ∧
      (∀ q, q ≠ p → s1.heap[q]? = s.heap[q]?) ∧
      s1.SyncMap = s.SyncMap ∧ s1.calls = s.calls := by
  have hw : Wrapping.allocate s p = allocate s p :=
    wrapping_allocate_eq s p (fun c1 hc1 => by rw [hc] at hc1; cases hc1; exact hmax)
  rw [hw]
  by_cases hpos : 0 < c.references
  · refine ⟨_, true, allocate_live s p c hc hpos, by simp [hpos], fun _ => ?_, fun h => ?_,
      ?_, rfl, rfl⟩
    · exact List.getElem?_set_self (getElem?_lt_of_some _ _ _ hc)
    · omega
    · intro q hq
      exact List.getElem?_set_ne (Ne.symm hq)
  · refine ⟨s, false, allocate_retired s p c hc (by omega), by simp [hpos], fun h => ?_,
      fun _ => rfl, fun _ _ => rfl, rfl, rfl⟩
    exact absurd h hpos

theorem allocate_increments_iff_live_witness :
    twoHeld.heap[0]? = some { value := 5, references := 2, k := 7 } ∧
    (2 : Int) < maxInt ∧
    ∃ s1 b, Wrapping.allocate twoHeld 0 = .ok (s1, b) ∧
      (b = true ↔ (0 : Int) < 2) ∧
      ((0 : Int) < 2 →
        s1.heap[0]? = some { value := 5, references := 2 + 1, k := 7 }) ∧
      ((2 : Int) ≤ 0 → s1 = twoHeld) ∧
      (∀ q, q ≠ 0 → s1.heap[q]? = twoHeld.heap[q]?) ∧
      s1.SyncMap = twoHeld.SyncMap ∧ s1.calls = twoHeld.calls :=
  ⟨rfl, by decide,
   allocate_increments_iff_live twoHeld 0 { value := 5, references := 2, k := 7 } rfl
     (by decide)⟩

/-- C16: in every sequential execution from an empty map in which no handle
was called more than once, the call of any uncalled handle returns, and the
entry stored under the released entry's key at that moment is exactly the entry
being released; so when the call issues `Delete(k)` (the decremented count is
`<= 0`) it removes that very entry and no other. -/
theorem Delete_removes_released_entry (fuel : Nat) (newValue : Nat → V)
    (acts : List (Action K)) (hs : ScopedFrom 0 acts) :
    ∃ e, run (fuel + 1) (Exec.init newValue) acts = .ok e ∧
      (e.once → ∀ i h, e.handles[i]? = some h → h.called = 0 →
        ∃ c e1, e.m.heap[h.ptr]? = some c ∧ c.k = h.key ∧
          step (fuel + 1) e (.call i) = .ok e1 ∧
          SyncMap.Load e.m.SyncMap c.k = some h.ptr ∧
          (c.references - 1 ≤ 0 →
            e1.m.SyncMap = SyncMap.Delete e.m.SyncMap c.k ∧
            ∀ k', k' ≠ c.k → SyncMap.Load e1.m.SyncMap k' = SyncMap.Load e.m.SyncMap k') ∧
          (0 < c.references - 1 → e1.m.SyncMap = e.m.SyncMap)) := by
  obtain ⟨e, hrun, he, hcnt⟩ := reach fuel newValue acts hs
  refine ⟨e, hrun, fun ho i h hi h0 => ?_⟩
  have hc := hcnt ho
  have hmem : h ∈ e.handles := List.mem_iff_getElem?.mpr ⟨i, hi⟩
  obtain ⟨c, hcp, hck, -⟩ := he.bound h hmem
  have hst := uncalled_stored e he hc h hmem h0
  refine ⟨c, _, hcp, hck, step_call (fuel + 1) e i h c hi hcp, ?_, ?_, ?_⟩
  · rw [hck]
    exact hst
  · intro hz
    dsimp only
    rw [if_pos hz]
    refine ⟨rfl, ?_⟩
    intro k' hk'
    simp [SyncMap.Load, lookup_Delete, hk']
  · intro hpos
    dsimp only
    rw [if_neg (by omega)]

theorem Delete_removes_released_entry_witness :
    ScopedFrom 0 [Action.get 7, .get 7, .call 0] ∧
    ∃ e, run 1 (Exec.init (fun i => i) : Exec Nat Nat) [.get 7, .get 7, .call 0] = .ok e ∧
      e.once ∧
      ∀ i h, e.handles[i]? = some h → h.called = 0 →
        ∃ c e1, e.m.heap[h.ptr]? = some c ∧ c.k = h.key ∧
          step 1 e (.call i) = .ok e1 ∧
          SyncMap.Load e.m.SyncMap c.k = some h.ptr ∧
          (c.references - 1 ≤ 0 →
            e1.m.SyncMap = SyncMap.Delete e.m.SyncMap c.k ∧
            ∀ k', k' ≠ c.k → SyncMap.Load e1.m.SyncMap k' = SyncMap.Load e.m.SyncMap k') ∧
          (0 < c.references - 1 → e1.m.SyncMap = e.m.SyncMap) := by
  obtain ⟨e, hrun, h⟩ := Delete_removes_released_entry 0 (fun i => i)
    [Action.get 7, .get 7, .call 0] ⟨by decide, trivial⟩
  have h0 : run 1 (Exec.init (fun i => i) : Exec Nat Nat) [.get 7, .get 7, .call 0] =
      .ok afterGetGetCall := rfl
  rw [h0] at hrun
  cases hrun
  have ho : Exec.once afterGetGetCall := by
    simp [Exec.once, afterGetGetCall]
  exact ⟨⟨by decide, trivial⟩, _, h0, ho, h ho⟩

/-- C19: every sequential execution of `Get` calls and release-handle calls
from an empty map runs to the end, handles being called any number of times,
and in the state it reaches every entry present in the store is the one found
under its key, is an allocated counter stored under its own field `k`, and has
`references >= 1`; an entry whose count is 0 or below is not in the store. -/
theorem stored_entries_are_live (fuel : Nat) (newValue : Nat → V)
    (acts : List (Action K)) (hs : ScopedFrom 0 acts) :
    ∃ e, run (fuel + 1) (Exec.init newValue) acts = .ok e ∧
      (∀ k p, (k, p) ∈ e.m.SyncMap →
        SyncMap.Load e.m.SyncMap k = some p ∧
        ∃ c, e.m.heap[p]? = some c ∧ c.k = k ∧ 1 ≤ c.references) ∧
      (∀ k p c, e.m.heap[p]? = some c → c.references ≤ 0 → (k, p) ∉ e.m.SyncMap) := by
  obtain ⟨e, hrun, he, -⟩ := reach fuel newValue acts hs
  have hn := run_nodup fuel _ e (init_Inv newValue) acts hrun (by simp [Exec.init, New])
  have key : ∀ k p, (k, p) ∈ e.m.SyncMap →
      SyncMap.Load e.m.SyncMap k = some p ∧
      ∃ c, e.m.heap[p]? = some c ∧ c.k = k ∧ 1 ≤ c.references := by
    intro k p hmem
    have hl := lookup_of_mem_nodup _ k p hn hmem
    exact ⟨hl, he.map.stored k p hl⟩
  refine ⟨e, hrun, key, ?_⟩
  intro k p c hc hz hmem
  obtain ⟨-, c', hc', -, hpos⟩ := key k p hmem
  rw [hc] at hc'
  cases hc'
  omega

theorem stored_entries_are_live_witness :
    ScopedFrom 0 [Action.get 7, .call 0, .get 7, .call 0, .get 7] ∧
    ∃ e, run 1 (Exec.init (fun i => i) : Exec Nat Nat)
        [.get 7, .call 0, .get 7, .call 0, .get 7] = .ok e ∧
      (∀ k p, (k, p) ∈ e.m.SyncMap →
        SyncMap.Load e.m.SyncMap k = some p ∧
        ∃ c, e.m.heap[p]? = some c ∧ c.k = k ∧ 1 ≤ c.references) ∧
      (∀ k p c, e.m.heap[p]? = some c → c.references ≤ 0 → (k, p) ∉ e.m.SyncMap) :=
  ⟨⟨by decide, by decide, trivial⟩,
   stored_entries_are_live 0 (fun i => i) [.get 7, .call 0, .get 7, .call 0, .get 7]
     ⟨by decide, by decide, trivial⟩⟩

/-- C20: every sequential execution from an empty map runs to the end, and in
the state it reaches, for every key `k`, `Get(k)` followed by the call of the
handle it returned yields a state with the same store (the same keys bound to
the same entries) in which every counter that existed before has the same
value, key and `references` as before the `Get`. -/
theorem Get_release_round_trip (fuel : Nat) (newValue : Nat → V)
    (acts : List (Action K)) (hs : ScopedFrom 0 acts) (k : K) :
    ∃ e s1 r s2, run (fuel + 1) (Exec.init newValue) acts = .ok e ∧
      Get (fuel + 1) e.m k = .ok (s1, r) ∧
      release s1 r.release = .ok s2 ∧
      s2.SyncMap = e.m.SyncMap ∧
      (∀ (p : Nat) (c : counter K V), e.m.heap[p]? = some c → s2.heap[p]? = some c) := by
  obtain ⟨e, hrun, he, -⟩ := reach fuel newValue acts hs
  cases hk : e.m.SyncMap.lookup k with
  | none =>
    have hrel := release_eq
      ({ SyncMap := e.m.SyncMap ++ [(k, e.m.heap.length)]
         heap := e.m.heap ++ [{ value := e.m.makeNew e.m.calls, references := 1, k := k }]
         makeNew := e.m.makeNew
         calls := e.m.calls + 1 } : Map K V) e.m.heap.length
      { value := e.m.makeNew e.m.calls, references := 1, k := k } (by simp)
    refine ⟨e, _, _, _, hrun, Get_absent fuel e.m k hk, hrel, ?_, ?_⟩
    · have : ((1 : Int) - 1 ≤ 0) := by decide
      simp only [this, if_true]
      rw [Delete_append_single, Delete_eq_self _ _ hk]
    · intro p c hc
      have hlt := getElem?_lt_of_some _ _ _ hc
      dsimp only
      rw [List.getElem?_set_ne (by omega), List.getElem?_append_left hlt]
      exact hc
  | some p =>
    obtain ⟨c, hcp, hck, hpos⟩ := he.map.stored k p hk
    have hlt := getElem?_lt_of_some _ _ _ hcp
    have hrel := release_eq
      ({ e.m with heap := e.m.heap.set p { c with references := c.references + 1 } } : Map K V)
      p { c with references := c.references + 1 } (List.getElem?_set_self hlt)
    refine ⟨e, _, _, _, hrun, Get_present (fuel + 1) e.m k p c hk hcp hpos, hrel, ?_, ?_⟩
    · have : ¬ (c.references + 1 - 1 ≤ 0) := by omega
      simp only [this, if_false]
    · intro q d hd
      dsimp only
      by_cases hpq : p = q
      · subst hpq
        rw [hcp] at hd
        cases hd
        rw [List.set_set, List.getElem?_set_self hlt]
        simp
      · rw [List.set_set, List.getElem?_set_ne hpq]
        exact hd

theorem Get_release_round_trip_witness :
    ScopedFrom 0 [Action.get 7, .get 8, .call 1] ∧
    ∃ e s1 r s2, run 1 (Exec.init (fun i => i) : Exec Nat Nat) [.get 7, .get 8, .call 1] = .ok e ∧
      Get 1 e.m 7 = .ok (s1, r) ∧
      release s1 r.release = .ok s2 ∧
      s2.SyncMap = e.m.SyncMap ∧
      (∀ (p : Nat) (c : counter Nat Nat), e.m.heap[p]? = some c → s2.heap[p]? = some c) :=
  ⟨⟨by decide, trivial⟩,
   Get_release_round_trip 0 (fun i => i) [.get 7, .get 8, .call 1] ⟨by decide, trivial⟩ 7⟩

/-- C18: in every map state that satisfies the structural invariant of the
store (every stored pointer is an allocated counter, stored under its own key,
with a positive count), for every key `k` and every other key `k'`: `Get(k)`
returns and leaves `k'` as it was (stored or not, under the same entry, with
the same value and `references`), and so does the call of the handle that this
`Get` returned; `Load(k)` returns and leaves `k'` as it was; and the call of
any release handle bound to an entry of key `k` returns and leaves `k'` as it
was. -/
theorem other_keys_untouched [Inhabited V] (fuel : Nat) (s : Map K V) (hs : s.Inv)
    (k k' : K) (hne : k' ≠ k) :
    (∃ s1 r, Get (fuel + 1) s k = .ok (s1, r) ∧ sameAt s s1 k' ∧
      ∃ s2, release s1 r.release = .ok s2 ∧ sameAt s s2 k') ∧
    (∃ s1 v b, Load s k = .ok (s1, v, b) ∧ sameAt s s1 k') ∧
    (∀ p c, s.heap[p]? = some c → c.k = k →
      ∃ s2, release s p = .ok s2 ∧ sameAt s s2 k') := by
  have hown : ∀ q, s.SyncMap.lookup k' = some q → ∃ d, s.heap[q]? = some d ∧ d.k = k' := by
    intro q hq
    obtain ⟨d, hd, hdk, -⟩ := hs.stored k' q hq
    exact ⟨d, hd, hdk⟩
  refine ⟨?_, ?_, ?_⟩
  · obtain ⟨s1, r, c, hget, hsame, hc, hck⟩ := Get_sameAt fuel s hs k k' hne
    have hown1 : ∀ q, s1.SyncMap.lookup k' = some q → ∃ d, s1.heap[q]? = some d ∧ d.k = k' := by
      intro q hq
      have hq' : s.SyncMap.lookup k' = some q := hsame.1.symm.trans hq
      obtain ⟨d, hd, hdk⟩ := hown q hq'
      exact ⟨d, by rw [hsame.2 q hq']; exact hd, hdk⟩
    obtain ⟨s2, hrel, hsame2⟩ := release_sameAt s1 r.release c k' hc (by rw [hck]; exact hne) hown1
    exact ⟨s1, r, hget, hsame, s2, hrel, sameAt_trans s s1 s2 k' hsame hsame2⟩
  · cases hk : s.SyncMap.lookup k with
    | none => exact ⟨s, default, false, by simp [Load, SyncMap.Load, hk], rfl, fun _ _ => rfl⟩
    | some p =>
      obtain ⟨c, hcp, -, -⟩ := hs.stored k p hk
      exact ⟨s, c.value, decide (c.references > 0), by simp [Load, SyncMap.Load, hk, hcp], rfl,
        fun _ _ => rfl⟩
  · intro p c hc hck
    exact release_sameAt s p c k' hc (by rw [hck]; exact hne) hown

theorem other_keys_untouched_witness :
    afterGetGetCallOther.m.Inv ∧ (7 : Nat) ≠ 8 ∧
    (∃ s1 r, Get 1 afterGetGetCallOther.m 8 = .ok (s1, r) ∧
      sameAt afterGetGetCallOther.m s1 7 ∧
      ∃ s2, release s1 r.release = .ok s2 ∧ sameAt afterGetGetCallOther.m s2 7) ∧
    (∃ s1 v b, Load afterGetGetCallOther.m 8 = .ok (s1, v, b) ∧
      sameAt afterGetGetCallOther.m s1 7) ∧
    (∀ p c, afterGetGetCallOther.m.heap[p]? = some c → c.k = 8 →
      ∃ s2, release afterGetGetCallOther.m p = .ok s2 ∧ sameAt afterGetGetCallOther.m s2 7) :=
  have hinv : afterGetGetCallOther.m.Inv :=
    (run_Inv 0 (Exec.init (fun i => i)) afterGetGetCallOther (init_Inv (fun i => i))
      [.get 7, .get 8, .call 1] rfl).map
  ⟨hinv, by decide, other_keys_untouched 0 afterGetGetCallOther.m hinv 8 7 (by decide)⟩

/-- C12: in every map state (the stored pointers being allocated counters) and
for every visit function `f` (a closure with any captured state), `Range(f)`
returns and leaves the map state as it was (the stored keys and every entry's
`references`). The calls it makes to `f` are with the keys and stored values
of an initial segment of the store's entries, in the store's order, each in
the closure state left by the previous calls; every call but the last returned
`true` (nothing is visited after a call that returns `false`); and if no call
returned `false`, in particular if `f` always returns `true`, every entry is
visited. -/
theorem Range_visits_in_order {σ : Type} (s : Map K V) (f : σ → K → V → σ × Bool) (st : σ)
    (hv : ∀ e ∈ s.SyncMap, e.2 < s.heap.length) :
    ∃ s1 st1 log, Range s f st = .ok (s1, st1, log) ∧
      s1.SyncMap = s.SyncMap ∧ s1.heap = s.heap ∧ s1.calls = s.calls ∧
      (∃ rest, log.map (fun v => (v.key, v.value)) ++ rest = entriesOf s s.SyncMap) ∧
      (∀ i v, log[i]? = some v →
        v.result = (f (visitorState f st (log.take i)) v.key v.value).2) ∧
      st1 = visitorState f st log ∧
      (∀ i v, log[i]? = some v → i + 1 < log.length → v.result = true) ∧
      ((∀ v ∈ log, v.result = true) →
        log.map (fun v => (v.key, v.value)) = entriesOf s s.SyncMap) ∧
      ((∀ st' k v, (f st' k v).2 = true) →
        log.map (fun v => (v.key, v.value)) = entriesOf s s.SyncMap) := by
  obtain ⟨st1, ext, hrun, hpre, hgen, hst, hmid, hfull⟩ := Range_loop s f s.SyncMap hv st []
  rw [List.nil_append] at hrun
  refine ⟨s, st1, ext, by simp [Range, hrun], rfl, rfl, rfl, hpre, hgen, hst, hmid, hfull, ?_⟩
  intro hall
  apply hfull
  intro v hmem
  obtain ⟨i, hi⟩ := List.mem_iff_getElem?.mp hmem
  rw [hgen i v hi]
  exact hall _ _ _

theorem Range_visits_in_order_witness :
    (∀ e ∈ afterGetGetOther.SyncMap, e.2 < afterGetGetOther.heap.length) ∧
    ∃ s1 st1 log, Range afterGetGetOther countUntilZero 0 = .ok (s1, st1, log) ∧
      s1.SyncMap = afterGetGetOther.SyncMap ∧ s1.heap = afterGetGetOther.heap ∧
      s1.calls = afterGetGetOther.calls ∧
      (∃ rest, log.map (fun v => (v.key, v.value)) ++ rest =
        entriesOf afterGetGetOther afterGetGetOther.SyncMap) ∧
      (∀ i v, log[i]? = some v →
        v.result = (countUntilZero (visitorState countUntilZero 0 (log.take i))
          v.key v.value).2) ∧
      st1 = visitorState countUntilZero 0 log ∧
      (∀ i v, log[i]? = some v → i + 1 < log.length → v.result = true) ∧
      ((∀ v ∈ log, v.result = true) →
        log.map (fun v => (v.key, v.value)) =
          entriesOf afterGetGetOther afterGetGetOther.SyncMap) ∧
      ((∀ st' k v, (countUntilZero st' k v).2 = true) →
        log.map (fun v => (v.key, v.value)) =
          entriesOf afterGetGetOther afterGetGetOther.SyncMap) :=
  ⟨by simp [afterGetGetOther],
   Range_visits_in_order afterGetGetOther countUntilZero 0 (by simp [afterGetGetOther])⟩

/-- C13: for a map built with the keyed-factory constructor, in every state in
which key `k` has no entry in the store, `Get(k)` returns, invokes the factory
once, for that same key `k`, returns the result of that invocation with
`loaded = false`, and stores it under `k` in a new entry with
`references = 1`. In particular the first `Get(k)` on `NewFromKey(f)` returns
`f(k)`. -/
theorem GetFromKey_uses_key (fuel : Nat) (s : KeyedMap K V) (k : K)
    (hk : SyncMap.Load s.SyncMap k = none) :
    ∃ s1 r, GetFromKey (fuel + 1) s k = .ok (s1, r) ∧
      r.value = s.factory k s.calls ∧
      r.loaded = false ∧
      s1.calls = s.calls + 1 ∧
      s1.factory = s.factory ∧
      SyncMap.Load s1.SyncMap k = some r.release ∧
      s1.heap[r.release]? = some { value := s.factory k s.calls, references := 1, k := k } := by
  have hget := Get_absent fuel
    ({ SyncMap := s.SyncMap, heap := s.heap, makeNew := s.factory k, calls := s.calls } :
      Map K V) k hk
  dsimp only at hget
  refine ⟨{ SyncMap := s.SyncMap ++ [(k, s.heap.length)]
            heap := s.heap ++ [{ value := s.factory k s.calls, references := 1, k := k }]
            factory := s.factory
            calls := s.calls + 1 },
          { value := s.factory k s.calls, release := s.heap.length, loaded := false, rounds := 1 },
          by simp only [GetFromKey, hget], rfl, rfl, rfl, rfl, ?_, ?_⟩
  · unfold SyncMap.Load at hk ⊢
    dsimp only
    rw [lookup_append_single, hk]
    simp
  · dsimp only
    simp

theorem GetFromKey_uses_key_witness :
    SyncMap.Load (NewFromKey (fun k _ => k) : KeyedMap String String).SyncMap "foo" = none ∧
    ∃ s1 r, GetFromKey 1 (NewFromKey (fun k _ => k) : KeyedMap String String) "foo" =
        .ok (s1, r) ∧
      r.value = "foo" ∧
      r.loaded = false ∧
      s1.calls = 0 + 1 ∧
      s1.factory = (fun k _ => k) ∧
      SyncMap.Load s1.SyncMap "foo" = some r.release ∧
      s1.heap[r.release]? = some { value := "foo", references := 1, k := "foo" } :=
  ⟨rfl, GetFromKey_uses_key 0 (NewFromKey (fun k _ => k)) "foo" rfl⟩

/-- C11: under every interleaving of `Get` calls and release calls (each handle
called at most once) from an empty map, the execution runs without fault, and
in the state reached: (a) whenever a step of a thread brings its `Get(k)` to
the return statement with entry `v`, either its `LoadOrStore` has just stored
the `newV` it constructed (`k` was absent, `v` is now stored under `k` with
`references = 1`, `loaded = false`), or `allocate` has just succeeded on `v`,
whose `references` was `>= 1` at that moment and is now one more
(`loaded = true`); (b) for every `Get(k)` that stands at its return statement
with entry `v`, however long it has been there, `v` has `references >= 1` and
is still the entry stored under `k`; (c) every returned handle that was not
called is bound to an entry with `references >= 1` that is stored under its
key and holds the returned value. -/
theorem Get_returns_live_entry (newValue : Nat → V) (sched : List (Sched K)) :
    ∃ c, Conc.run (Conc.init newValue) sched = .ok c ∧
      (∀ (t : Nat) c1 k v l r m, c.step (.run t) = .ok c1 →
        c1.threads[t]? = some (Pc.getReturn k v l r m) →
        (l = false ∧ (∃ r0, c.threads[t]? = some (.getLoadOrStore k v r0 m) ∧ r = r0 + 1) ∧
          SyncMap.Load c.m.SyncMap k = none ∧ SyncMap.Load c1.m.SyncMap k = some v ∧
          ∃ d, c1.m.heap[v]? = some d ∧ d.references = 1 ∧ d.k = k) ∨
        (l = true ∧
          (c.threads[t]? = some (.getAllocate k v) ∨
            ∃ n, c.threads[t]? = some (.getRetry k n v r m)) ∧
          ∃ d, c.m.heap[v]? = some d ∧ d.k = k ∧ 1 ≤ d.references ∧
            c1.m.heap[v]? =
              some { value := d.value, references := d.references + 1, k := d.k } ∧
            c1.m.SyncMap = c.m.SyncMap)) ∧
      (∀ (t : Nat) k v l r m, c.threads[t]? = some (Pc.getReturn k v l r m) →
        ∃ d, c.m.heap[v]? = some d ∧ d.k = k ∧ 1 ≤ d.references ∧
          SyncMap.Load c.m.SyncMap k = some v) ∧
      (∀ h ∈ c.handles, h.called = 0 →
        ∃ d, c.m.heap[h.ptr]? = some d ∧ d.value = h.value ∧ 1 ≤ d.references ∧
          SyncMap.Load c.m.SyncMap h.key = some h.ptr) := by
  obtain ⟨c, hrun, hi⟩ := conc_reach (Conc.init newValue) (conc_init_Inv newValue) sched
  refine ⟨c, hrun, ?_, ?_, ?_⟩
  · intro t c1 k v l r m hstep h1
    exact enters_return c c1 hi t k v l r m hstep h1
  · intro t k v l r m ht
    have hmem := mem_of_getElem? _ _ _ ht
    obtain ⟨d, hd, hdk⟩ := hi.threads _ hmem
    have hpos := count_pos_of_mem c Pc.holds v _ hmem (by simp [Pc.holds])
    obtain ⟨h1, h2⟩ := live_of_pos c hi v d hd (Or.inr hpos)
    exact ⟨d, hd, hdk, h1, by rw [← hdk]; exact h2⟩
  · intro h hmem h0
    obtain ⟨d, hd, hdk, hdv⟩ := hi.handles h hmem h0
    have hpos : 1 ≤ c.handed h.ptr := List.countP_pos_iff.mpr ⟨h, hmem, by simp [h0]⟩
    obtain ⟨h1, h2⟩ := live_of_pos c hi h.ptr d hd (Or.inl hpos)
    exact ⟨d, hd, hdv, h1, by rw [← hdk]; exact h2⟩

/-- C17 as stated fails: in the interleaving `retrySchedule` the first `Get(7)`
executes `LoadOrStore` twice, its `allocate` having failed on the entry that
the first `LoadOrStore` returned, and it invokes the factory once, not twice:
its handle, the second to be returned, records `rounds = 2` and `made = 1`,
and the value it returns is the factory's result number 0. -/
theorem Get_retry_factory_counterexample :
    ∃ c, Conc.run (Conc.init (fun i => i) : Conc Nat Nat) retrySchedule = .ok c ∧
      c.handles[1]? = some { key := 7, value := 0, ptr := 0, loaded := false, rounds := 2,
                             made := 1, called := 0 } ∧
      c.m.calls = 2 ∧ c.threads = [.done, .done, .done] :=
  ⟨afterRetry, rfl, rfl, rfl, rfl⟩

/-- C17, amended: under every interleaving of `Get` calls and release calls
from an empty map, a `Get` invokes the factory once, at its construction step
before the loop, and never again.

* The invocations are accounted for: the factory's counter `calls` is the sum,
  over the threads and the returned handles, of the invocations `made` recorded
  for each `Get`; it is the number of `Get` calls that have passed their
  construction step, whatever number of `LoadOrStore` steps each has executed;
  and the heap has one counter for each invocation.
* A `Get` that returned, or stands at its return, made no invocation if it
  executed no `LoadOrStore`, and exactly one otherwise, however many
  `LoadOrStore` steps it executed.
* The construction step is an invocation: it increases `calls` by one, makes
  one new entry with count 1 from the factory's result, and enters the loop.
* A `Get` in its loop has made exactly one invocation; its `newV` is the entry
  it constructed, with `references = 1`, its key, and the result of invocation
  number `newV` as value; its `LoadOrStore` step and its `allocate` step leave
  `calls` as it is and lead to `allocate`, to the return, or back to
  `LoadOrStore` with the same `newV`, never to the construction step.
* When `allocate` fails on the entry that `LoadOrStore` returned, the thread
  goes back to `LoadOrStore` with the same `newV`, the map being unchanged. -/
theorem Get_constructs_once (newValue : Nat → V) (sched : List (Sched K)) :
    ∃ c, Conc.run (Conc.init newValue) sched = .ok c ∧
      c.m.calls = (c.threads.map Pc.made).sum + (c.handles.map Returned.made).sum ∧
      c.m.calls =
        c.threads.countP Pc.entered + c.handles.countP (fun h => decide (1 ≤ h.rounds)) ∧
      c.m.heap.length = c.m.calls ∧
      (∀ h ∈ c.handles, (h.rounds = 0 ∧ h.made = 0) ∨ (1 ≤ h.rounds ∧ h.made = 1)) ∧
      (∀ (t : Nat) k v l r m, c.threads[t]? = some (Pc.getReturn k v l r m) →
        (r = 0 ∧ m = 0) ∨ (1 ≤ r ∧ m = 1)) ∧
      (∀ (t : Nat) k, c.threads[t]? = some (Pc.getConstruct k) →
        ∃ c1, c.step (.run t) = .ok c1 ∧ c1.m.calls = c.m.calls + 1 ∧
          c1.m.heap =
            c.m.heap ++ [{ value := newValue c.m.calls, references := 1, k := k }] ∧
          c1.m.SyncMap = c.m.SyncMap ∧
          c1.threads[t]? = some (Pc.getLoadOrStore k c.m.heap.length 0 1)) ∧
      (∀ (t : Nat) k n r m, c.threads[t]? = some (Pc.getLoadOrStore k n r m) →
        m = 1 ∧
        (∃ d, c.m.heap[n]? = some d ∧ d.references = 1 ∧ d.k = k ∧ d.value = newValue n) ∧
        ∃ c1, c.step (.run t) = .ok c1 ∧ c1.m.calls = c.m.calls ∧ c1.m.heap = c.m.heap ∧
          ((∃ v, c1.threads[t]? = some (Pc.getRetry k n v (r + 1) m)) ∨
           c1.threads[t]? = some (Pc.getReturn k n false (r + 1) m))) ∧
      (∀ (t : Nat) k n v r m, c.threads[t]? = some (Pc.getRetry k n v r m) →
        m = 1 ∧ 1 ≤ r ∧
        (∃ d, c.m.heap[n]? = some d ∧ d.references = 1 ∧ d.k = k ∧ d.value = newValue n) ∧
        (∃ c1, c.step (.run t) = .ok c1 ∧ c1.m.calls = c.m.calls ∧
          c1.m.heap.length = c.m.heap.length ∧
          (c1.threads[t]? = some (Pc.getRetry k n v r m) ∨
           c1.threads[t]? = some (Pc.getReturn k v true r m) ∨
           c1.threads[t]? = some (Pc.getLoadOrStore k n r m))) ∧
        ∀ d, c.m.heap[v]? = some d → d.references ≤ 0 → c.locked v = false →
          c.step (.run t) =
            .ok { c with threads := c.threads.set t (.getLoadOrStore k n r m) }) := by
  obtain ⟨c, hrun, hi, ha⟩ := conc_reach_accounted newValue (Conc.init newValue)
    (conc_init_Inv newValue) (accounted_init newValue) sched
  refine ⟨c, hrun, ha.calls, calls_eq_entered newValue c hi ha, ha.heap, ?_, ?_, ?_, ?_, ?_⟩
  · intro h hmem
    rcases hi.tallied h hmem with ⟨h1, h2, -⟩ | h1
    · exact Or.inl ⟨h1, h2⟩
    · exact Or.inr h1
  · intro t k v l r m ht
    rcases hi.tally _ (mem_of_getElem? _ _ _ ht) with ⟨h1, h2, -⟩ | h1
    · exact Or.inl ⟨h1, h2⟩
    · exact Or.inr h1
  · intro t k ht
    have h := construct_step c t k ht
    rw [ha.factory] at h
    exact h
  · intro t k n r m ht
    have hmem := mem_of_getElem? _ _ _ ht
    exact ⟨hi.tally _ hmem,
      newV_as_constructed newValue c hi ha _ hmem k n (by simp [Pc.fresh]) (hi.threads _ hmem),
      loop_LoadOrStore_step c t k n r m ht⟩
  · intro t k n v r m ht
    have hmem := mem_of_getElem? _ _ _ ht
    obtain ⟨h1, h2⟩ := hi.tally _ hmem
    refine ⟨h2, h1,
      newV_as_constructed newValue c hi ha _ hmem k n (by simp [Pc.fresh]) (hi.threads _ hmem).1,
      loop_allocate_step c hi t k n v r m ht, ?_⟩
    intro d hd hz hl
    simp only [Conc.step, ht]
    exact retry_keeps_newV c t k n v r m d hd hz hl

end claims
end refcountmap
